import Mathlib

/-! Load-balancer selection strategies: embedding and verification.

A shallow embedding of the Go package `loadbalancer` (shared pool, Maglev
consistent hash, round-robin, least-connections, weighted random) together
with theorems about it.

Modelling conventions.

* A `*Server` is a pointer `Ptr`; the server objects live in a memory
  `Mem = Ptr → Server`, so that two pool entries may be the same object and
  so that a caller may change a server's `Weight` behind the balancer's back.
* Go's signed `int`, `int32` and `int64` values are unbounded integers: weights,
  counters and accumulators are taken to stay inside the machine range, and
  no signed addition wraps.  The random balancer is the exception: the two
  sums of weights of its `GetServer` wrap as 64-bit `int` additions do
  (`wrapInt`).  Unsigned hash arithmetic wraps by design and is modelled modulo
  `2 ^ 64`.
* The hash functions of the external libraries (`murmur3.Sum64`,
  `murmur3.Sum32`, `xxh3.Hash`) are parameters (`HashFns`): every theorem
  holds for whatever values they return.
* A function that can hit a Go runtime panic (index out of range) or fail to
  terminate returns an `Option`, `none` standing for that failure.  A `nil`
  server result is the inner `none` of an `Option Ptr`.
* A `float64` value is the rational it denotes.  The quotient of the weighted
  least-connections mode is rounded as IEEE 754 binary64 does, to the nearest
  value of 53 significant bits, a tie going to the even significand
  (`roundF64`), in both conversions and in the division.  The plain mode
  compares the counts themselves: the conversion `float64(connections)` is
  exact for a count from `0` to `2 ^ 53`, and the theorems on that mode bound
  the counts by `2 ^ 53`.
* The random generator of the random balancer is a parameter of `GetServer`:
  the function giving the answer of `Intn`.
* The mutexes are not modelled: every operation runs atomically.
-/

namespace LoadBalancer

/-! ## Data model (`load_balancer.go`) -/

/-- A `*Server`: the identity of a server object. -/
abbrev Ptr := Nat

/-- The `Server` struct. -/
structure Server where
  Address : String
  Weight : Int
  CurrentConnections : Int
  CurrentWeight : Int
  EffectiveWeight : Int

/-- The memory holding the server objects that pointers refer to. -/
abbrev Mem := Ptr → Server

/-- Store `s` at pointer `p`. -/
def Mem.set (m : Mem) (p : Ptr) (s : Server) : Mem :=
  fun q => if q = p then s else m q

/-- The three external hash functions, as parameters. -/
structure HashFns where
  murmur3Sum64 : String → Nat
  xxh3Hash : String → Nat
  murmur3Sum32 : String → Nat

/-- A value converted to `uint64`. -/
def u64 (n : Nat) : Nat := n % 2 ^ 64

/-- Go's `string(rune(n))`: the character with code point `n`, or U+FFFD when
`n` is not a valid code point. -/
def runeString (n : Nat) : String :=
  if n.isValidChar then String.singleton (Char.ofNat n) else String.singleton (Char.ofNat 0xFFFD)

/-- `xs[i]` for a Go `int` index: `none` (a panic) when `i` is negative or too large. -/
def indexInt {α : Type} (xs : List α) (i : Int) : Option α :=
  if i < 0 then none else xs[i.toNat]?

/-- `xs[i] = v`: `none` (a panic) when `i` is out of range. -/
def assignAt {α : Type} (xs : List α) (i : Nat) (v : α) : Option (List α) :=
  if i < xs.length then some (xs.set i v) else none

/-! ## Maglev consistent hash (`consistent_hash.go`) -/

/-- The constant `lookupTableSize`. -/
def lookupTableSize : Nat := 65537

/-- The `MaglevHashLoadBalancer` struct, with the memory its pointers refer to. -/
structure MaglevHashLoadBalancer where
  mem : Mem
  Servers : List Ptr
  lookupTable : List Int
  tableSize : Nat

/-- `NewMaglevHashLoadBalancer`: an empty pool and a zeroed table of `lookupTableSize` slots. -/
def NewMaglevHashLoadBalancer (mem : Mem) : MaglevHashLoadBalancer :=
  { mem := mem, Servers := [], lookupTable := List.replicate lookupTableSize 0,
    tableSize := lookupTableSize }

/-- One entry `perm[i]` of `permutation`. -/
def permEntry (tableSize offset skip : Nat) (weight : Int) (i : Nat) : Nat :=
  let adjustedOffset := u64 (offset + ((i : Int) * weight % 2 ^ 64).toNat) % tableSize
  u64 (adjustedOffset + u64 (i * skip)) % tableSize

/-- `permutation(serverIndex)`: `none` when `serverIndex` is not a pool position. -/
def permutation (H : HashFns) (lb : MaglevHashLoadBalancer) (serverIndex : Nat) :
    Option (List Nat) :=
  match lb.Servers[serverIndex]? with
  | none => none
  | some p =>
    let server := lb.mem p
    let uniqueKey := server.Address ++ ":" ++ runeString serverIndex
    let offset := u64 (H.murmur3Sum64 uniqueKey) % lb.tableSize
    let skip := u64 (H.xxh3Hash uniqueKey) % (lb.tableSize - 1) + 1
    let weight := if server.Weight ≤ 0 then 1 else server.Weight
    some ((List.range lb.tableSize).map (permEntry lb.tableSize offset skip weight))

/-- The locals built by the first loop of `updateLookupTable`. -/
structure Scan where
  availableServers : List Ptr
  serverIndexMap : Ptr → Option Nat
  weightSum : Int

/-- The empty locals before the first loop. -/
def Scan.empty : Scan :=
  { availableServers := [], serverIndexMap := fun _ => none, weightSum := 0 }

/-- A read `serverIndexMap[p]` of the Go map: a missing key reads as `0`. -/
def Scan.indexOf (s : Scan) (p : Ptr) : Nat := (s.serverIndexMap p).getD 0

/-- The loop `for i, server := range lb.Servers` that collects the servers with
`Weight > 0`, from position `i` on. -/
def scanServers (mem : Mem) : List Ptr → Nat → Scan → Scan
  | [], _, acc => acc
  | server :: rest, i, acc =>
    if (mem server).Weight > 0 then
      scanServers mem rest (i + 1)
        { availableServers := acc.availableServers ++ [server]
          serverIndexMap := fun q => if q = server then some i else acc.serverIndexMap q
          weightSum := acc.weightSum + (mem server).Weight }
    else scanServers mem rest (i + 1) acc

/-- The loop computing `perms[i] = lb.permutation(serverIndexMap[server])`. -/
def buildPerms (H : HashFns) (lb : MaglevHashLoadBalancer) (sc : Scan) :
    List Ptr → Option (List (List Nat))
  | [] => some []
  | server :: rest =>
    match permutation H lb (sc.indexOf server), buildPerms H lb sc rest with
    | some perm, some perms => some (perm :: perms)
    | _, _ => none

/-- The guarded read `next[i] < tableSize && perms[i][next[i]] ...`: the outer
`none` is a panic, the inner `none` says that the cursor of `i` is exhausted. -/
def cursor (tableSize : Nat) (perms : List (List Nat)) (next : List Nat) (i : Nat) :
    Option (Option Nat) :=
  match next[i]? with
  | none => none
  | some ni =>
    if ni < tableSize then
      match perms[i]? with
      | none => none
      | some perm =>
        match perm[ni]? with
        | none => none
        | some v => some (some v)
    else some none

/-- The loop looking for the smallest slot any cursor points at. -/
def findMinPos (tableSize : Nat) (perms : List (List Nat)) (next : List Nat) :
    List Nat → Nat → Option Nat
  | [], minPos => some minPos
  | i :: rest, minPos =>
    match cursor tableSize perms next i with
    | none => none
    | some (some v) => findMinPos tableSize perms next rest (if v < minPos then v else minPos)
    | some none => findMinPos tableSize perms next rest minPos

/-- The loop collecting the servers whose cursor points at `minPos`. -/
def findCandidates (tableSize : Nat) (perms : List (List Nat)) (next : List Nat) (minPos : Nat) :
    List Nat → List Nat → Option (List Nat)
  | [], candidates => some candidates
  | i :: rest, candidates =>
    match cursor tableSize perms next i with
    | none => none
    | some (some v) =>
      findCandidates tableSize perms next minPos rest
        (if v = minPos then candidates ++ [i] else candidates)
    | some none => findCandidates tableSize perms next minPos rest candidates

/-- The loop over `candidates` keeping the first one of greatest weight;
returns `selectedIndex` (`-1` when nothing was selected). -/
def pickHeaviest (mem : Mem) (availableServers : List Ptr) :
    List Nat → Int → Int → Option Int
  | [], _, selectedIndex => some selectedIndex
  | idx :: rest, maxWeight, selectedIndex =>
    match availableServers[idx]? with
    | none => none
    | some server =>
      if (mem server).Weight > maxWeight then
        pickHeaviest mem availableServers rest (mem server).Weight idx
      else pickHeaviest mem availableServers rest maxWeight selectedIndex

/-- The choice of `selectedIndex` among the candidates. -/
def selectIndex (mem : Mem) (availableServers : List Ptr) (candidates : List Nat) :
    Option Int :=
  if candidates.length > 1 then pickHeaviest mem availableServers candidates 0 (-1)
  else
    match (candidates[0]? : Option Nat) with
    | none => none
    | some c => some (Int.ofNat c)

/-- The variables the greedy loop changes. -/
structure Greedy where
  lookupTable : List Int
  next : List Nat
  filled : Nat

/-- The greedy loop `for filled < lb.tableSize*3/4`; `fuel` bounds the number of
iterations, and running out of it gives `none`. -/
def greedyLoop (mem : Mem) (tableSize : Nat) (sc : Scan) (perms : List (List Nat)) :
    Nat → Greedy → Option Greedy
  | 0, _ => none
  | fuel + 1, g =>
    if g.filled < tableSize * 3 / 4 then
      match findMinPos tableSize perms g.next (List.range sc.availableServers.length)
          tableSize with
      | none => none
      | some minPos =>
        if minPos = tableSize then some g
        else
          match findCandidates tableSize perms g.next minPos
              (List.range sc.availableServers.length) [] with
          | none => none
          | some candidates =>
            if candidates.length > 0 then
              match selectIndex mem sc.availableServers candidates with
              | none => none
              | some selectedIndex =>
                match indexInt sc.availableServers selectedIndex,
                    indexInt g.next selectedIndex with
                | some server, some n =>
                  match assignAt g.lookupTable minPos (sc.indexOf server : Int) with
                  | none => none
                  | some table =>
                    greedyLoop mem tableSize sc perms fuel
                      { lookupTable := table
                        next := g.next.set selectedIndex.toNat (n + 1)
                        filled := g.filled + 1 }
                | _, _ => none
            else greedyLoop mem tableSize sc perms fuel g
    else some g

/-- The sum `totalWeight` of the available servers' weights. -/
def totalWeightOf (mem : Mem) : List Ptr → Int
  | [] => 0
  | server :: rest => (mem server).Weight + totalWeightOf mem rest

/-- The cumulative-weight loop of the fallback fill: the first server whose
cumulative weight exceeds `randomWeight`, if any. -/
def pickCumulative (mem : Mem) (randomWeight : Int) : List Ptr → Int → Option Ptr
  | [], _ => none
  | server :: rest, cumulativeWeight =>
    if randomWeight < cumulativeWeight + (mem server).Weight then some server
    else pickCumulative mem randomWeight rest (cumulativeWeight + (mem server).Weight)

/-- The new content of slot `i` in the loop that fills the table completely. -/
def fillSlot (H : HashFns) (mem : Mem) (sc : Scan) (i : Nat) (v : Int) : Option Int :=
  if v = -1 then
    let totalWeight := totalWeightOf mem sc.availableServers
    if totalWeight > 0 then
      let randomWeight := Int.tmod ((H.murmur3Sum32 (runeString i) % 2 ^ 32 : Nat) : Int) totalWeight
      match pickCumulative mem randomWeight sc.availableServers 0 with
      | some server => some (sc.indexOf server : Int)
      | none => some v
    else
      match sc.availableServers[0]? with
      | some server => some (sc.indexOf server : Int)
      | none => none
  else some v

/-- The loop `for i := range lb.lookupTable` filling every slot still at `-1`,
from slot `i` on. -/
def fillTable (H : HashFns) (mem : Mem) (sc : Scan) : List Int → Nat → Option (List Int)
  | [], _ => some []
  | v :: rest, i =>
    match fillSlot H mem sc i v, fillTable H mem sc rest (i + 1) with
    | some w, some filledRest => some (w :: filledRest)
    | _, _ => none

/-- `updateLookupTable`. -/
def updateLookupTable (H : HashFns) (lb : MaglevHashLoadBalancer) :
    Option MaglevHashLoadBalancer :=
  if lb.Servers.length = 0 then
    some { lb with lookupTable := lb.lookupTable.map fun _ => -1 }
  else
    let sc := scanServers lb.mem lb.Servers 0 Scan.empty
    if sc.availableServers.length = 0 then
      some { lb with lookupTable := lb.lookupTable.map fun _ => -1 }
    else
      match buildPerms H lb sc sc.availableServers with
      | none => none
      | some perms =>
        match greedyLoop lb.mem lb.tableSize sc perms (lb.tableSize * 3 / 4 + 1)
            { lookupTable := lb.lookupTable.map fun _ => -1
              next := List.replicate sc.availableServers.length 0
              filled := 0 } with
        | none => none
        | some g =>
          match fillTable H lb.mem sc g.lookupTable 0 with
          | none => none
          | some table => some { lb with lookupTable := table }

/-- `AddServer`. -/
def MaglevHashLoadBalancer.AddServer (H : HashFns) (lb : MaglevHashLoadBalancer) (server : Ptr) :
    Option MaglevHashLoadBalancer :=
  let s := lb.mem server
  let mem := if s.EffectiveWeight = 0 then lb.mem.set server { s with EffectiveWeight := s.Weight }
    else lb.mem
  updateLookupTable H { lb with mem := mem, Servers := lb.Servers ++ [server] }

/-- `RemoveServer`: drops the first pool entry that is the object `server`. -/
def MaglevHashLoadBalancer.RemoveServer (H : HashFns) (lb : MaglevHashLoadBalancer)
    (server : Ptr) : Option MaglevHashLoadBalancer :=
  updateLookupTable H { lb with Servers := lb.Servers.erase server }

/-- The probing loop of `GetServer` over the given offsets: the outer `none` is
a panic, the inner `none` says that no probed slot had a usable owner. -/
def probe (lb : MaglevHashLoadBalancer) (index : Nat) : List Nat → Option (Option Ptr)
  | [] => some none
  | offset :: rest =>
    match lb.lookupTable[(index + offset) % lb.tableSize]? with
    | none => none
    | some serverIndex =>
      if serverIndex ≥ 0 ∧ serverIndex < lb.Servers.length then
        match indexInt lb.Servers serverIndex with
        | none => none
        | some server =>
          if (lb.mem server).Weight > 0 then some (some server) else probe lb index rest
      else probe lb index rest

/-- The path of `GetServer` taken when the slot's owner is not usable: probe the
slots at offsets `1 .. 19`, then fall back to the available servers. -/
def resolveUnusable (lb : MaglevHashLoadBalancer) (hash index : Nat) : Option (Option Ptr) :=
  match probe lb index (List.range' 1 19) with
  | none => none
  | some (some server) => some (some server)
  | some none =>
    let availableServers := lb.Servers.filter fun server => (lb.mem server).Weight > 0
    if availableServers.length > 0 then
      match availableServers[hash % availableServers.length]? with
      | none => none
      | some server => some (some server)
    else some none

/-- `GetServer`: the outer `none` is a panic, the inner `none` the `nil` result. -/
def MaglevHashLoadBalancer.GetServer (H : HashFns) (lb : MaglevHashLoadBalancer) (key : String) :
    Option (Option Ptr) :=
  if lb.Servers.length = 0 then some none
  else
    let hash := u64 (H.murmur3Sum64 key)
    let index := hash % lb.tableSize
    match lb.lookupTable[index]? with
    | none => none
    | some serverIndex =>
      if serverIndex = -1 ∨ serverIndex ≥ lb.Servers.length then resolveUnusable lb hash index
      else
        match indexInt lb.Servers serverIndex with
        | none => none
        | some server =>
          if (lb.mem server).Weight ≤ 0 then resolveUnusable lb hash index
          else some (some server)

/-- A call of `GetServer` as a step on the balancer: the result together with
the state after the call.  The body of `GetServer` assigns to no field of the
balancer and to no server object, so the state is the one before the call. -/
def MaglevHashLoadBalancer.GetServerCall (H : HashFns) (lb : MaglevHashLoadBalancer)
    (key : String) : Option (Option Ptr) × MaglevHashLoadBalancer :=
  (lb.GetServer H key, lb)

/-- The results of `n` successive calls `GetServer(key)`. -/
def getServerRepeated (H : HashFns) (key : String) :
    Nat → MaglevHashLoadBalancer → List (Option (Option Ptr))
  | 0, _ => []
  | n + 1, lb =>
    (lb.GetServerCall H key).1 :: getServerRepeated H key n (lb.GetServerCall H key).2

/-! ## Round-robin (`round_robin.go`) -/

/-- The `RoundRobinLoadBalancer` struct, with the memory its pointers refer to. -/
structure RoundRobinLoadBalancer where
  mem : Mem
  Servers : List Ptr
  currentIndex : Int
  weighted : Bool

/-- `NewRoundRobinLoadBalancer(weighted)`. -/
def NewRoundRobinLoadBalancer (mem : Mem) (weighted : Bool) : RoundRobinLoadBalancer :=
  { mem := mem, Servers := [], currentIndex := 0, weighted := weighted }

/-- `AddServer`: initialises `EffectiveWeight` when it is `0`, then appends. -/
def RoundRobinLoadBalancer.AddServer (lb : RoundRobinLoadBalancer) (server : Ptr) :
    RoundRobinLoadBalancer :=
  let s := lb.mem server
  let mem := if s.EffectiveWeight = 0 then lb.mem.set server { s with EffectiveWeight := s.Weight }
    else lb.mem
  { lb with mem := mem, Servers := lb.Servers ++ [server] }

/-- `ResetWeights`, one server: `CurrentWeight = 0`, `EffectiveWeight = Weight`. -/
def resetServer (mem : Mem) (server : Ptr) : Mem :=
  mem.set server { mem server with CurrentWeight := 0, EffectiveWeight := (mem server).Weight }

/-- `ResetWeights`. -/
def RoundRobinLoadBalancer.ResetWeights (lb : RoundRobinLoadBalancer) : RoundRobinLoadBalancer :=
  { lb with mem := lb.Servers.foldl resetServer lb.mem, currentIndex := 0 }

/-- The variables of the smooth weighted loop of `GetServer`. -/
structure WrrAcc where
  mem : Mem
  totalWeight : Int
  bestServer : Option Ptr

/-- One iteration of the loop `for _, server := range lb.Servers` of the smooth
weighted mode. -/
def wrrStep (acc : WrrAcc) (server : Ptr) : WrrAcc :=
  let s := acc.mem server
  let s1 := if s.EffectiveWeight = 0 then { s with EffectiveWeight := s.Weight } else s
  let s2 := { s1 with CurrentWeight := s1.CurrentWeight + s1.EffectiveWeight }
  let mem := acc.mem.set server s2
  { mem := mem
    totalWeight := acc.totalWeight + s2.EffectiveWeight
    bestServer :=
      match acc.bestServer with
      | none => some server
      | some best =>
        if (mem server).CurrentWeight > (mem best).CurrentWeight then some server
        else some best }

/-- The smooth weighted mode of `GetServer` on a non-empty pool. -/
def RoundRobinLoadBalancer.getWeighted (lb : RoundRobinLoadBalancer) :
    Option Ptr × RoundRobinLoadBalancer :=
  let acc := lb.Servers.foldl wrrStep { mem := lb.mem, totalWeight := 0, bestServer := none }
  match acc.bestServer with
  | some best =>
    (some best,
      { lb with
        mem := acc.mem.set best
          { acc.mem best with
            CurrentWeight := (acc.mem best).CurrentWeight - acc.totalWeight } })
  | none => (none, { lb with mem := acc.mem })

/-- `GetServer`: the result and the balancer after the call; `none` is a panic
(a negative index in plain mode). -/
def RoundRobinLoadBalancer.GetServer (lb : RoundRobinLoadBalancer) (_key : String) :
    Option (Option Ptr × RoundRobinLoadBalancer) :=
  if lb.Servers.length = 0 then some (none, lb)
  else if !lb.weighted then
    let index := Int.tmod (lb.currentIndex + 1) (lb.Servers.length : Int)
    match indexInt lb.Servers index with
    | none => none
    | some server => some (some server, { lb with currentIndex := lb.currentIndex + 1 })
  else some lb.getWeighted

/-- The results of `n` successive `GetServer` calls and the balancer after them. -/
def RoundRobinLoadBalancer.calls (lb : RoundRobinLoadBalancer) :
    Nat → Option (List (Option Ptr) × RoundRobinLoadBalancer)
  | 0 => some ([], lb)
  | n + 1 =>
    match lb.GetServer "" with
    | none => none
    | some (r, lb1) =>
      match RoundRobinLoadBalancer.calls lb1 n with
      | none => none
      | some (rs, lb2) => some (r :: rs, lb2)

/-- The servers returned by `n` successive `GetServer` calls. -/
def RoundRobinLoadBalancer.results (lb : RoundRobinLoadBalancer) (n : Nat) :
    Option (List (Option Ptr)) :=
  (lb.calls n).map fun x => x.1

/-- The current weights of the pooled servers, in pool order, after `n`
successive `GetServer` calls. -/
def RoundRobinLoadBalancer.currentWeightsAfter (lb : RoundRobinLoadBalancer) (n : Nat) :
    Option (List Int) :=
  (lb.calls n).map fun x => x.2.Servers.map fun p => (x.2.mem p).CurrentWeight

/-- The current weights that the selection of the next `GetServer` call
compares, in pool order: those after `n` calls, each incremented by the loop. -/
def RoundRobinLoadBalancer.comparedWeightsAfter (lb : RoundRobinLoadBalancer) (n : Nat) :
    Option (List Int) :=
  (lb.calls n).map fun x =>
    x.2.Servers.map fun p =>
      ((x.2.Servers.foldl wrrStep
        { mem := x.2.mem, totalWeight := 0, bestServer := none }).mem p).CurrentWeight

/-! ## Least connections (`least_connections.go`) -/

/-- The `LeastConnectionsLoadBalancer` struct, with the memory its pointers
refer to.  `connections` is the Go map from server objects to their counters. -/
structure LeastConnectionsLoadBalancer where
  mem : Mem
  Servers : List Ptr
  connections : Ptr → Option Int
  weighted : Bool

/-- `NewLeastConnectionsLoadBalancer(weighted)`. -/
def NewLeastConnectionsLoadBalancer (mem : Mem) (weighted : Bool) :
    LeastConnectionsLoadBalancer :=
  { mem := mem, Servers := [], connections := fun _ => none, weighted := weighted }

/-- The constant `1<<63 - 1` that `minValue` starts from and that the plain mode
compares counts with.  Every `float64` below `2 ^ 63` is below `2 ^ 63 - 1024`,
so a rounded quotient is below this constant exactly when it is below its
conversion `2 ^ 63`. -/
def maxValue : ℚ := 2 ^ 63 - 1

/-- Rounding to the nearest integer, a tie going to the even one. -/
def roundHalfEven (x : ℚ) : Int :=
  if 2 * (x - ⌊x⌋) < 1 then ⌊x⌋
  else if 1 < 2 * (x - ⌊x⌋) then ⌊x⌋ + 1
  else if ⌊x⌋ % 2 = 0 then ⌊x⌋ else ⌊x⌋ + 1

/-- The `float64` nearest to `x`: a significand of 53 bits, a tie going to the
even significand.  The exponent is not bounded: the values rounded here are `0`
or of magnitude between `2 ^ (-63)` and `2 ^ 64`, inside the normal range. -/
def roundF64 (x : ℚ) : ℚ :=
  if x = 0 then 0
  else if 0 < x then
    (roundHalfEven (x / 2 ^ (Int.log 2 x - 52)) : ℚ) * 2 ^ (Int.log 2 x - 52)
  else -((roundHalfEven (-x / 2 ^ (Int.log 2 (-x) - 52)) : ℚ) * 2 ^ (Int.log 2 (-x) - 52))

/-- The conversion `float64(n)` of an integer. -/
def toF64 (n : Int) : ℚ := roundF64 (n : ℚ)

/-- The `float64` division `a / b`, for a divisor that is not `0`. -/
def divF64 (a b : ℚ) : ℚ := roundF64 (a / b)

/-- The variables of the selection loop of `GetServer`. -/
structure LcAcc where
  connections : Ptr → Option Int
  selectedServer : Option Ptr
  minValue : ℚ

/-- The lines `connPtr := lb.connections[server]; if connPtr == nil { ... }`:
a server without a counter gets one at `0`. -/
def ensureCounter (connections : Ptr → Option Int) (server : Ptr) : Ptr → Option Int :=
  match connections server with
  | none => fun q => if q = server then some 0 else connections q
  | some _ => connections

/-- The value `currentValue` computed for a server.  In weighted mode it is the
`float64` quotient `float64(connections) / float64(server.Weight)`: both
conversions and the division round.  In plain mode it is the count itself. -/
def currentValueOf (mem : Mem) (weighted : Bool) (connections : Ptr → Option Int)
    (server : Ptr) : ℚ :=
  let conns : Int := (connections server).getD 0
  if weighted then
    if (mem server).Weight > 0 then divF64 (toF64 conns) (toF64 (mem server).Weight)
    else maxValue
  else (conns : ℚ)

/-- One iteration of the loop `for _, server := range availableServers`. -/
def lcStep (mem : Mem) (weighted : Bool) (acc : LcAcc) (server : Ptr) : LcAcc :=
  let connections := ensureCounter acc.connections server
  let currentValue := currentValueOf mem weighted connections server
  if currentValue < acc.minValue then
    { connections := connections, selectedServer := some server, minValue := currentValue }
  else
    match acc.selectedServer with
    | some selected =>
      if currentValue = acc.minValue ∧ (mem server).Weight > (mem selected).Weight then
        { connections := connections, selectedServer := some server, minValue := acc.minValue }
      else
        { connections := connections, selectedServer := some selected, minValue := acc.minValue }
    | none => { connections := connections, selectedServer := none, minValue := acc.minValue }

/-- `GetServer`: the result and the balancer after the call. -/
def LeastConnectionsLoadBalancer.GetServer (lb : LeastConnectionsLoadBalancer) (_key : String) :
    Option Ptr × LeastConnectionsLoadBalancer :=
  let availableServers := lb.Servers.filter fun server => (lb.mem server).Weight > 0
  if availableServers.length = 0 then (none, lb)
  else
    let acc := availableServers.foldl (lcStep lb.mem lb.weighted)
      { connections := lb.connections, selectedServer := none, minValue := maxValue }
    match acc.selectedServer with
    | some selected =>
      (some selected,
        { lb with
          connections := fun q =>
            if q = selected then (acc.connections q).map (· + 1) else acc.connections q
          mem := lb.mem.set selected
            { lb.mem selected with
              CurrentConnections := (lb.mem selected).CurrentConnections + 1 } })
    | none => (none, { lb with connections := acc.connections })

/-- `ReleaseConnection`; the argument `none` is the `nil` server. -/
def LeastConnectionsLoadBalancer.ReleaseConnection (lb : LeastConnectionsLoadBalancer)
    (server : Option Ptr) : LeastConnectionsLoadBalancer :=
  match server with
  | none => lb
  | some s =>
    match lb.connections s with
    | some c =>
      if c > 0 then
        { lb with
          connections := fun q => if q = s then some (c - 1) else lb.connections q
          mem :=
            if (lb.mem s).CurrentConnections > 0 then
              lb.mem.set s
                { lb.mem s with CurrentConnections := (lb.mem s).CurrentConnections - 1 }
            else lb.mem }
      else lb
    | none => lb

/-- `AddServer`: appends the server and gives it a fresh counter at `0`. -/
def LeastConnectionsLoadBalancer.AddServer (lb : LeastConnectionsLoadBalancer) (server : Ptr) :
    LeastConnectionsLoadBalancer :=
  { lb with
    Servers := lb.Servers ++ [server]
    connections := fun q => if q = server then some 0 else lb.connections q }

/-- `RemoveServer`: drops the first pool entry that is the object `server`,
and its counter with it. -/
def LeastConnectionsLoadBalancer.RemoveServer (lb : LeastConnectionsLoadBalancer)
    (server : Ptr) : LeastConnectionsLoadBalancer :=
  if server ∈ lb.Servers then
    { lb with
      Servers := lb.Servers.erase server
      connections := fun q => if q = server then none else lb.connections q }
  else lb

/-! ## The shared pool (`load_balancer.go`) and the random balancer (`random.go`) -/

/-- The `BaseLoadBalancer` struct, with the memory its pointers refer to. -/
structure BaseLoadBalancer where
  mem : Mem
  Servers : List Ptr

/-- `NewBaseLoadBalancer`. -/
def NewBaseLoadBalancer (mem : Mem) : BaseLoadBalancer := { mem := mem, Servers := [] }

/-- `BaseLoadBalancer.AddServer`. -/
def BaseLoadBalancer.AddServer (b : BaseLoadBalancer) (server : Ptr) : BaseLoadBalancer :=
  { b with Servers := b.Servers ++ [server] }

/-- `BaseLoadBalancer.RemoveServer(address)`: drops the first pool entry whose
`Address` is `address`. -/
def BaseLoadBalancer.RemoveServer (b : BaseLoadBalancer) (address : String) : BaseLoadBalancer :=
  { b with Servers := b.Servers.eraseP fun server => decide ((b.mem server).Address = address) }

/-- `GetServerCount`. -/
def BaseLoadBalancer.GetServerCount (b : BaseLoadBalancer) : Int := (b.Servers.length : Int)

/-- The `RandomLoadBalancer` struct, with the memory its pointers refer to. The
generator `rng` is not part of the state: `GetServer` takes its answer. -/
structure RandomLoadBalancer where
  mem : Mem
  Servers : List Ptr

/-- `NewRandomLoadBalancer`. -/
def NewRandomLoadBalancer (mem : Mem) : RandomLoadBalancer := { mem := mem, Servers := [] }

/-- The result of an addition of Go `int` values: the sum wrapped into the
64-bit two's complement range. -/
def wrapInt (n : Int) : Int := (n + 2 ^ 63) % 2 ^ 64 - 2 ^ 63

/-- The loop `for _, server := range availableServers { totalWeight += server.Weight }`
of `random.go`, from the value of `totalWeight`; each addition wraps. -/
def sumWeights (mem : Mem) : List Ptr → Int → Int
  | [], totalWeight => totalWeight
  | server :: rest, totalWeight =>
    sumWeights mem rest (wrapInt (totalWeight + (mem server).Weight))

/-- The cumulative loop of `random.go`, from the value of `currentWeight`: the
server it returns, `none` when it runs to its end; each addition wraps. -/
def pickDraw (mem : Mem) (randomWeight : Int) : List Ptr → Int → Option Ptr
  | [], _ => none
  | server :: rest, currentWeight =>
    if randomWeight < wrapInt (currentWeight + (mem server).Weight) then some server
    else pickDraw mem randomWeight rest (wrapInt (currentWeight + (mem server).Weight))

/-- `RandomLoadBalancer.GetServer`. The argument `intn` is the generator:
`intn n` is the value that `r.rng.Intn(n)` returns at this call. The outer `none`
is the panic of `Intn` on an argument `≤ 0`, the inner `none` the `nil` result. -/
def RandomLoadBalancer.GetServer (r : RandomLoadBalancer) (intn : Int → Int) (_key : String) :
    Option (Option Ptr) :=
  let availableServers := r.Servers.filter fun server => (r.mem server).Weight > 0
  if availableServers.length = 0 then some none
  else
    let totalWeight := sumWeights r.mem availableServers 0
    if totalWeight ≤ 0 then none
    else
      let randomWeight := intn totalWeight
      match pickDraw r.mem randomWeight availableServers 0 with
      | some server => some (some server)
      | none => some availableServers.getLast?

/-! ## Predicates used in the proofs -/

/-- Every collected server is bound, in the index map, to a pool position holding it. -/
def Scan.Sound (full : List Ptr) (sc : Scan) : Prop :=
  ∀ p ∈ sc.availableServers, ∃ j, sc.serverIndexMap p = some j ∧ full[j]? = some p

/-- The shape the greedy loop relies on: one permutation per available server,
each of `tableSize` entries, every entry a slot. -/
def PermsOK (tableSize n : Nat) (perms : List (List Nat)) : Prop :=
  perms.length = n ∧ ∀ perm ∈ perms, perm.length = tableSize ∧ ∀ v ∈ perm, v < tableSize

/-- What the greedy loop keeps true of its variables. -/
structure GreedyInv (tableSize n : Nat) (g : Greedy) : Prop where
  table_len : g.lookupTable.length = tableSize
  next_len : g.next.length = n
  next_le : ∀ x ∈ g.next, x ≤ g.filled

/-- The states a `MaglevHashLoadBalancer` can be in: built by
`NewMaglevHashLoadBalancer`, changed by `AddServer` and `RemoveServer`, while
the caller may rewrite the server objects (their weights in particular) at any time. -/
inductive Reachable (H : HashFns) : MaglevHashLoadBalancer → Prop
  | new (mem : Mem) : Reachable H (NewMaglevHashLoadBalancer mem)
  | addServer {lb lb2 : MaglevHashLoadBalancer} (server : Ptr) :
      Reachable H lb → lb.AddServer H server = some lb2 → Reachable H lb2
  | removeServer {lb lb2 : MaglevHashLoadBalancer} (server : Ptr) :
      Reachable H lb → lb.RemoveServer H server = some lb2 → Reachable H lb2
  | mutate {lb : MaglevHashLoadBalancer} (mem : Mem) :
      Reachable H lb → Reachable H { lb with mem := mem }

/-- The shape of the lookup table in every reachable state. -/
structure TableInv (lb : MaglevHashLoadBalancer) : Prop where
  size : lb.tableSize = lookupTableSize
  len : lb.lookupTable.length = lb.tableSize
  ge : ∀ v ∈ lb.lookupTable, -1 ≤ v

/-- Full coverage: every slot of the table holds a pool position whose server
has `Weight > 0`. -/
def FullyCovered (lb : MaglevHashLoadBalancer) : Prop :=
  ∀ slot, slot < lookupTableSize →
    ∃ i : Nat, lb.lookupTable[slot]? = some (i : Int) ∧
      ∃ p, lb.Servers[i]? = some p ∧ (lb.mem p).Weight > 0

/-- The connection count of a server: a missing counter counts as `0`. -/
def connCount (connections : Ptr → Option Int) (p : Ptr) : Int := (connections p).getD 0

/-- The exact ratio `connections / weight`. -/
def connQuotient (mem : Mem) (connections : Ptr → Option Int) (p : Ptr) : ℚ :=
  (connCount connections p : ℚ) / ((mem p).Weight : ℚ)

/-- The quotient that the weighted mode computes in `float64`: the rounded
division of the converted count by the converted weight. -/
def floatQuotient (mem : Mem) (connections : Ptr → Option Int) (p : Ptr) : ℚ :=
  divF64 (toF64 (connCount connections p)) (toF64 (mem p).Weight)

/-- What the selection loop keeps true once it has looked at a server: the
counts are those at the start of the call, the selected server has the least
`float64` quotient seen, and the greatest weight among the servers seen with
that quotient. -/
def LcInv (mem : Mem) (connections : Ptr → Option Int) (seen : List Ptr) (acc : LcAcc) : Prop :=
  (∀ q, connCount acc.connections q = connCount connections q) ∧
  ∃ s ∈ seen, acc.selectedServer = some s ∧ acc.minValue = floatQuotient mem connections s ∧
    ∀ q ∈ seen, floatQuotient mem connections s ≤ floatQuotient mem connections q ∧
      (floatQuotient mem connections q = floatQuotient mem connections s →
        (mem q).Weight ≤ (mem s).Weight)

/-- The weight the smooth weighted loop adds for a server: its `EffectiveWeight`,
initialised from `Weight` when it is `0`. -/
def effWeight (s : Server) : Int := if s.EffectiveWeight = 0 then s.Weight else s.EffectiveWeight

/-- A server object after its iteration of the smooth weighted loop. -/
def bumped (s : Server) : Server :=
  { s with EffectiveWeight := effWeight s, CurrentWeight := s.CurrentWeight + effWeight s }

/-- The first server of greatest value `v` in a list, starting from a current best. -/
def pickBest (v : Ptr → Int) : Option Ptr → List Ptr → Option Ptr
  | best, [] => best
  | none, s :: rest => pickBest v (some s) rest
  | some b, s :: rest => pickBest v (if v s > v b then some s else some b) rest

/-- A weighted round-robin balancer over the pool `S` whose servers have the
weights `w`, also as effective weights. -/
structure WrrState (S : List Ptr) (w : Ptr → Int) (lb : RoundRobinLoadBalancer) : Prop where
  servers : lb.Servers = S
  weighted : lb.weighted = true
  weight : ∀ p ∈ S, (lb.mem p).Weight = w p
  eff : ∀ p ∈ S, effWeight (lb.mem p) = w p

/-- The no-repeat property at call `n`: if calls `n` and `n + 1` return the same
server, every current weight is `0` when call `n + 1` begins. -/
def RepeatOnlyWhenTied (lb : RoundRobinLoadBalancer) (n : Nat) : Prop :=
  ∃ rs cw, lb.results (n + 1) = some rs ∧ lb.currentWeightsAfter n = some cw ∧
    (rs[n - 1]? = rs[n]? → ∀ c ∈ cw, c = 0)

/-- Two available servers, one of each of two balancers, that play the same
part in a rebuild: same address, same weight, same pool position. -/
def SameServer (lb1 lb2 : MaglevHashLoadBalancer) (sc1 sc2 : Scan) (p q : Ptr) : Prop :=
  (lb1.mem p).Address = (lb2.mem q).Address ∧ (lb1.mem p).Weight = (lb2.mem q).Weight ∧
  sc1.indexOf p = sc2.indexOf q ∧ lb1.Servers[sc1.indexOf p]? = some p ∧
  lb2.Servers[sc2.indexOf q]? = some q

/-- Two pools that hold, position by position, servers of the same address and
the same weight. -/
def SamePools (lb1 lb2 : MaglevHashLoadBalancer) : Prop :=
  List.Forall₂ (fun p q => (lb1.mem p).Address = (lb2.mem q).Address ∧
    (lb1.mem p).Weight = (lb2.mem q).Weight) lb1.Servers lb2.Servers


/-- What the plain selection loop keeps true once it has looked at a server:
the counts are those at the start of the call; the selected server is one of
the servers seen, has the least count seen and the greatest weight among the
servers seen with that count, and no server seen before it ties it in both. -/
def LcPlainInv (mem : Mem) (connections : Ptr → Option Int) (seen : List Ptr) (acc : LcAcc) :
    Prop :=
  (∀ q, connCount acc.connections q = connCount connections q) ∧
  ∃ l1 s l2, seen = l1 ++ s :: l2 ∧ acc.selectedServer = some s ∧
    acc.minValue = (connCount connections s : ℚ) ∧
    (∀ q ∈ seen, connCount connections s ≤ connCount connections q ∧
      (connCount connections q = connCount connections s → (mem q).Weight ≤ (mem s).Weight)) ∧
    ∀ q ∈ l1, ¬ (connCount connections q = connCount connections s ∧
      (mem q).Weight = (mem s).Weight)

/-- The states a `LeastConnectionsLoadBalancer` can be in: built by
`NewLeastConnectionsLoadBalancer`, changed by `AddServer`, `RemoveServer`,
`GetServer` and `ReleaseConnection`, while the caller may rewrite the server
objects at any time. -/
inductive LcReachable : LeastConnectionsLoadBalancer → Prop
  | new (mem : Mem) (weighted : Bool) : LcReachable (NewLeastConnectionsLoadBalancer mem weighted)
  | addServer {lb : LeastConnectionsLoadBalancer} (server : Ptr) :
      LcReachable lb → LcReachable (lb.AddServer server)
  | removeServer {lb : LeastConnectionsLoadBalancer} (server : Ptr) :
      LcReachable lb → LcReachable (lb.RemoveServer server)
  | getServer {lb : LeastConnectionsLoadBalancer} (key : String) :
      LcReachable lb → LcReachable (lb.GetServer key).2
  | releaseConnection {lb : LeastConnectionsLoadBalancer} (server : Option Ptr) :
      LcReachable lb → LcReachable (lb.ReleaseConnection server)
  | mutate {lb : LeastConnectionsLoadBalancer} (mem : Mem) :
      LcReachable lb → LcReachable { lb with mem := mem }

/-- No counter of the map is negative. -/
def CountersNonneg (connections : Ptr → Option Int) : Prop :=
  ∀ p c, connections p = some c → 0 ≤ c

/-- Two server objects that the round-robin loop cannot tell apart: same
current weight, same weight added by the loop, same configured weight. -/
def ServerAgree (s1 s2 : Server) : Prop :=
  s1.CurrentWeight = s2.CurrentWeight ∧ effWeight s1 = effWeight s2 ∧ s1.Weight = s2.Weight

/-- Two round-robin balancers over the same pool, in the same mode and at the
same index, whose pooled servers agree. -/
def RrAgree (lb1 lb2 : RoundRobinLoadBalancer) : Prop :=
  lb1.Servers = lb2.Servers ∧ lb1.weighted = lb2.weighted ∧
  lb1.currentIndex = lb2.currentIndex ∧
  ∀ p ∈ lb1.Servers, ServerAgree (lb1.mem p) (lb2.mem p)

/-- The total weight of the servers with `Weight > 0` at the pool positions
before `i`; the cumulative weight of position `i` is `weightBefore mem servers (i + 1)`. -/
def weightBefore (mem : Mem) (servers : List Ptr) (i : Nat) : Int :=
  totalWeightOf mem ((servers.take i).filter fun server => (mem server).Weight > 0)

/-- The draw `r` selects the pool position `i`: the server there has
`Weight > 0`, its cumulative weight exceeds `r`, and the cumulative weight
before it does not. -/
def selects (mem : Mem) (servers : List Ptr) (r : Int) (i : Nat) : Bool :=
  match servers[i]? with
  | some p =>
    decide ((mem p).Weight > 0 ∧ weightBefore mem servers i ≤ r ∧
      r < weightBefore mem servers (i + 1))
  | none => false

/-- The balancer that `AddServer` hands to `updateLookupTable`: the server's
`EffectiveWeight` initialised, the server appended to the pool. -/
def MaglevHashLoadBalancer.appendServer (lb : MaglevHashLoadBalancer) (server : Ptr) :
    MaglevHashLoadBalancer :=
  { lb with
    mem := if (lb.mem server).EffectiveWeight = 0 then
        lb.mem.set server { lb.mem server with EffectiveWeight := (lb.mem server).Weight }
      else lb.mem
    Servers := lb.Servers ++ [server] }

/-- The variables of the greedy loop when it starts. -/
def greedyStart (lb : MaglevHashLoadBalancer) (sc : Scan) : Greedy :=
  { lookupTable := lb.lookupTable.map fun _ => -1
    next := List.replicate sc.availableServers.length 0
    filled := 0 }

/-- The owner stored at a slot when the probing loop of `GetServer` accepts it:
an index of the pool whose server has `Weight > 0`. -/
def usableOwner (lb : MaglevHashLoadBalancer) (slot : Nat) : Option Ptr :=
  match lb.lookupTable[slot]? with
  | none => none
  | some serverIndex =>
    if serverIndex ≥ 0 ∧ serverIndex < lb.Servers.length then
      match indexInt lb.Servers serverIndex with
      | none => none
      | some server => if (lb.mem server).Weight > 0 then some server else none
    else none

/-- Hash functions that, on the keys of `permutation` (three characters or
more), take the values of `degenerateHash`. -/
def DegenerateOnKeys (H : HashFns) : Prop :=
  ∀ s : String, 3 ≤ s.length → H.murmur3Sum64 s = 0 ∧ H.xxh3Hash s = 65538 - s.length

/-- The local `offset` of `permutation(serverIndex)` for the server `p` at that
pool position. -/
def permOffset (H : HashFns) (lb : MaglevHashLoadBalancer) (serverIndex : Nat) (p : Ptr) : Nat :=
  u64 (H.murmur3Sum64 ((lb.mem p).Address ++ ":" ++ runeString serverIndex)) % lb.tableSize

/-- The local `skip` of `permutation(serverIndex)` for the server `p` at that
pool position. -/
def permSkip (H : HashFns) (lb : MaglevHashLoadBalancer) (serverIndex : Nat) (p : Ptr) : Nat :=
  u64 (H.xxh3Hash ((lb.mem p).Address ++ ":" ++ runeString serverIndex)) % (lb.tableSize - 1) + 1

/-- The sum of the current weights of the pooled servers, each server object
counted once. -/
def currentWeightSum (lb : RoundRobinLoadBalancer) : Int :=
  (lb.Servers.dedup.map fun p => (lb.mem p).CurrentWeight).sum
/-! ## Concrete instances used in witnesses and counterexamples -/

/-- Hash functions whose values depend on the length of the key only. Under
them a server whose address has as many characters as its weight gets
`offset = 0` and `skip = tableSize - weight`. -/
def degenerateHash : HashFns :=
  { murmur3Sum64 := fun s => if s.length = 1 then 1 else 0
    xxh3Hash := fun s => 65538 - s.length
    murmur3Sum32 := fun _ => 4 }

/-- A memory of server objects: `0` is `"a"` with weight 1, `1` is `"bb"` with
weight 2, `2` is `"ccc"` with weight 3, and every other pointer is a server
`"a"` with weight 1. -/
def exampleMem : Mem := fun p =>
  match p with
  | 1 => { Address := "bb", Weight := 2, CurrentConnections := 0, CurrentWeight := 0,
           EffectiveWeight := 2 }
  | 2 => { Address := "ccc", Weight := 3, CurrentConnections := 0, CurrentWeight := 0,
           EffectiveWeight := 3 }
  | _ => { Address := "a", Weight := 1, CurrentConnections := 0, CurrentWeight := 0,
           EffectiveWeight := 1 }

/-- The weighted least-connections balancer of the example: servers `0`, `1`, `2`
(weights 1, 2, 3) with 5, 8 and 9 connections. -/
def exampleLc : LeastConnectionsLoadBalancer :=
  { mem := exampleMem
    Servers := [0, 1, 2]
    connections := fun p =>
      match p with
      | 0 => some 5
      | 1 => some 8
      | 2 => some 9
      | _ => none
    weighted := true }

/-- A memory of two servers of large weights: `0` has weight 100000000 and
every other pointer a server of weight 149999999. -/
def roundedMem : Mem := fun p =>
  match p with
  | 0 => { Address := "a", Weight := 100000000, CurrentConnections := 0, CurrentWeight := 0,
           EffectiveWeight := 100000000 }
  | _ => { Address := "bb", Weight := 149999999, CurrentConnections := 0, CurrentWeight := 0,
           EffectiveWeight := 149999999 }

/-- A weighted least-connections balancer whose two exact ratios,
`50000001 / 100000000` and `75000001 / 149999999`, differ by less than the
spacing of `float64` around one half. -/
def roundedLc : LeastConnectionsLoadBalancer :=
  { mem := roundedMem
    Servers := [0, 1]
    connections := fun p =>
      match p with
      | 0 => some 50000001
      | 1 => some 75000001
      | _ => none
    weighted := true }

/-- A fresh smooth weighted round-robin balancer with the servers `0`, `1`, `2`
(weights 1, 2, 3) added in that order. -/
def exampleRr : RoundRobinLoadBalancer :=
  (((NewRoundRobinLoadBalancer exampleMem true).AddServer 0).AddServer 1).AddServer 2

/-- A fresh smooth weighted round-robin balancer to which the server object `3`
is added twice and the server object `4` once (both of weight 1). -/
def aliasedRr : RoundRobinLoadBalancer :=
  (((NewRoundRobinLoadBalancer exampleMem true).AddServer 3).AddServer 3).AddServer 4

/-- The servers of `TestWeightedRoundRobin`: `0` is `Server-A` (weight 3), `1` is
`Server-B` (weight 2), every other pointer is `Server-C` (weight 1). -/
def testMem : Mem := fun p =>
  match p with
  | 0 => { Address := "Server-A", Weight := 3, CurrentConnections := 0, CurrentWeight := 0,
           EffectiveWeight := 3 }
  | 1 => { Address := "Server-B", Weight := 2, CurrentConnections := 0, CurrentWeight := 0,
           EffectiveWeight := 2 }
  | _ => { Address := "Server-C", Weight := 1, CurrentConnections := 0, CurrentWeight := 0,
           EffectiveWeight := 1 }

/-- The balancer of `TestWeightedRoundRobin`. -/
def testRr : RoundRobinLoadBalancer :=
  (((NewRoundRobinLoadBalancer testMem true).AddServer 0).AddServer 1).AddServer 2

/-- A memory in which every server has weight `0`. -/
def idleMem : Mem := fun _ =>
  { Address := "a", Weight := 0, CurrentConnections := 0, CurrentWeight := 0,
    EffectiveWeight := 0 }

/-- A fresh round-robin balancer holding one server of weight `0`. -/
def idleRr (weighted : Bool) : RoundRobinLoadBalancer :=
  (NewRoundRobinLoadBalancer idleMem weighted).AddServer 0

/-- A random balancer holding one server of weight `0`. -/
def idleRandom : RandomLoadBalancer := { mem := idleMem, Servers := [0] }

/-- A fresh least-connections balancer holding one server of weight `0`. -/
def idleLc (weighted : Bool) : LeastConnectionsLoadBalancer :=
  (NewLeastConnectionsLoadBalancer idleMem weighted).AddServer 0

/-- A Maglev balancer holding the server `0` alone, every slot of its table
pointing at pool position `0`. -/
def exampleMaglev : MaglevHashLoadBalancer :=
  { mem := exampleMem, Servers := [0], lookupTable := List.replicate lookupTableSize 0,
    tableSize := lookupTableSize }

/-- The balancer `exampleMaglev` after the round-robin fields of its server
objects were overwritten. -/
def exampleMaglevTouched : MaglevHashLoadBalancer :=
  { exampleMaglev with
    mem := fun p => { exampleMem p with CurrentWeight := 7, EffectiveWeight := 9 } }


/-- A plain least-connections balancer whose only server has a counter at the
greatest `int64` value. -/
def saturatedLc : LeastConnectionsLoadBalancer :=
  { mem := exampleMem, Servers := [0], connections := fun _ => some (2 ^ 63 - 1),
    weighted := false }

/-- A plain least-connections balancer: servers `0`, `1`, `2` (weights 1, 2, 3)
with 5, 5 and 9 connections. -/
def plainLc : LeastConnectionsLoadBalancer :=
  { mem := exampleMem
    Servers := [0, 1, 2]
    connections := fun p =>
      match p with
      | 0 => some 5
      | 1 => some 5
      | 2 => some 9
      | _ => none
    weighted := false }

/-- A fresh plain round-robin balancer with the servers `0`, `1`, `2` added in
that order. -/
def plainRr : RoundRobinLoadBalancer :=
  (((NewRoundRobinLoadBalancer exampleMem false).AddServer 0).AddServer 1).AddServer 2

/-- The pool of the examples: the servers `0`, `1`, `2` (`"a"`, `"bb"`, `"ccc"`). -/
def exampleBase : BaseLoadBalancer := { mem := exampleMem, Servers := [0, 1, 2] }

/-- A random balancer over the servers `0`, `1`, `2` (weights 1, 2, 3). -/
def exampleRandom : RandomLoadBalancer := { mem := exampleMem, Servers := [0, 1, 2] }

/-- A memory in which every server has the weight `2 ^ 62`. -/
def heavyMem : Mem := fun _ =>
  { Address := "a", Weight := 2 ^ 62, CurrentConnections := 0, CurrentWeight := 0,
    EffectiveWeight := 2 ^ 62 }

/-- A random balancer over two servers of weight `2 ^ 62`: the total weight
`2 ^ 63` is one more than the greatest `int`. -/
def heavyRandom : RandomLoadBalancer := { mem := heavyMem, Servers := [0, 1] }

/-- Hash functions for the probing example: request keys of one and of two
characters hash to `1` and to `2`; on longer keys (those of `permutation`) the
values are those of `degenerateHash`; the fallback fill draws `1` for slot 21 and
`0` for every other slot. -/
def probeHash : HashFns :=
  { murmur3Sum64 := fun s => if s.length = 1 then 1 else if s.length = 2 then 2 else 0
    xxh3Hash := fun s => 65538 - s.length
    murmur3Sum32 := fun s => if s = runeString 21 then 1 else 0 }

/-- The memory `exampleMem` after the weight of server `0` was set to `0`. -/
def probeMem : Mem := fun p =>
  if p = 0 then { exampleMem 0 with Weight := 0 } else exampleMem p

/-- Hash functions that are constantly `0`: every offset is `0`, every skip `1`. -/
def zeroHash : HashFns :=
  { murmur3Sum64 := fun _ => 0, xxh3Hash := fun _ => 0, murmur3Sum32 := fun _ => 0 }
/-! ## Lemmas on the first loop of `updateLookupTable` -/

theorem scanServers_available (mem : Mem) (l : List Ptr) (i : Nat) (acc : Scan) :
    (scanServers mem l i acc).availableServers =
      acc.availableServers ++ l.filter fun server => (mem server).Weight > 0 := by
  induction l generalizing i acc with
  | nil => simp [scanServers]
  | cons p rest ih =>
    unfold scanServers
    by_cases h : (mem p).Weight > 0
    · simp [h, ih]
    · simp [h, ih]

theorem scanServers_sound (mem : Mem) (full : List Ptr) (l : List Ptr) (i : Nat) (acc : Scan)
    (hl : ∀ k, l[k]? = full[i + k]?) (hacc : acc.Sound full) :
    (scanServers mem l i acc).Sound full := by
  induction l generalizing i acc with
  | nil => simpa [scanServers] using hacc
  | cons p rest ih =>
    unfold scanServers
    have hrest : ∀ k, rest[k]? = full[i + 1 + k]? := by
      intro k
      have := hl (k + 1)
      simp only [List.getElem?_cons_succ] at this
      rw [this]; congr 1; omega
    by_cases h : (mem p).Weight > 0
    · simp only [h, if_true]
      apply ih _ _ hrest
      intro q hq
      simp only [List.mem_append, List.mem_singleton] at hq
      by_cases hqp : q = p
      · subst hqp
        refine ⟨i, by simp, ?_⟩
        have := hl 0
        simpa using this.symm
      · rcases hq with hq | hq
        · obtain ⟨j, hj, hf⟩ := hacc q hq
          exact ⟨j, by simp [hqp, hj], hf⟩
        · exact absurd hq hqp
    · simp only [h, if_false]
      exact ih _ _ hrest hacc

theorem scan_sound (mem : Mem) (servers : List Ptr) :
    (scanServers mem servers 0 Scan.empty).Sound servers := by
  apply scanServers_sound
  · intro k; simp
  · intro p hp; simp [Scan.empty] at hp

theorem scan_available (mem : Mem) (servers : List Ptr) :
    (scanServers mem servers 0 Scan.empty).availableServers =
      servers.filter fun server => (mem server).Weight > 0 := by
  rw [scanServers_available]; simp [Scan.empty]

theorem scan_sound_index {full : List Ptr} {sc : Scan} (h : sc.Sound full) {p : Ptr}
    (hp : p ∈ sc.availableServers) : full[sc.indexOf p]? = some p := by
  obtain ⟨j, hj, hf⟩ := h p hp
  simp [Scan.indexOf, hj, hf]



/-! ## Lemmas on the permutations -/

theorem permEntry_lt (tableSize offset skip : Nat) (weight : Int) (i : Nat) (h : 0 < tableSize) :
    permEntry tableSize offset skip weight i < tableSize :=
  Nat.mod_lt _ h

theorem permutation_ok (H : HashFns) (lb : MaglevHashLoadBalancer) (idx : Nat) (p : Ptr)
    (hp : lb.Servers[idx]? = some p) :
    ∃ perm, permutation H lb idx = some perm ∧ perm.length = lb.tableSize ∧
      ∀ v ∈ perm, v < lb.tableSize := by
  simp only [permutation, hp]
  refine ⟨_, rfl, by simp, ?_⟩
  intro v hv
  simp only [List.mem_map, List.mem_range] at hv
  obtain ⟨i, hi, rfl⟩ := hv
  exact permEntry_lt _ _ _ _ _ (Nat.lt_of_le_of_lt (Nat.zero_le _) hi)

theorem buildPerms_ok (H : HashFns) (lb : MaglevHashLoadBalancer) (sc : Scan) (l : List Ptr)
    (hl : ∀ p ∈ l, lb.Servers[sc.indexOf p]? = some p) :
    ∃ perms, buildPerms H lb sc l = some perms ∧ PermsOK lb.tableSize l.length perms := by
  induction l with
  | nil => exact ⟨[], rfl, rfl, by simp⟩
  | cons p rest ih =>
    obtain ⟨perms, hperms, hlen, hall⟩ := ih (fun q hq => hl q (List.mem_cons_of_mem _ hq))
    obtain ⟨perm, hperm, hpl, hpv⟩ := permutation_ok H lb _ p (hl p (List.mem_cons_self _ _))
    refine ⟨perm :: perms, by simp [buildPerms, hperm, hperms], by simp [hlen], ?_⟩
    intro q hq
    rcases List.mem_cons.1 hq with rfl | hq
    · exact ⟨hpl, hpv⟩
    · exact hall q hq

/-! ## Lemmas on the greedy loop -/

theorem cursor_ok {tableSize n : Nat} {perms : List (List Nat)} {g : Greedy}
    (hp : PermsOK tableSize n perms) (hg : GreedyInv tableSize n g)
    (hf : g.filled < tableSize) {i : Nat} (hi : i < n) :
    ∃ v, cursor tableSize perms g.next i = some (some v) ∧ v < tableSize ∧
      ∃ perm ∈ perms, v ∈ perm := by
  have hin : i < g.next.length := by rw [hg.next_len]; exact hi
  have hip : i < perms.length := by rw [hp.1]; exact hi
  have hni : g.next[i] < tableSize :=
    lt_of_le_of_lt (hg.next_le _ (List.getElem_mem hin)) hf
  have hpm : perms[i] ∈ perms := List.getElem_mem hip
  have hpl := (hp.2 _ hpm).1
  have hnl : g.next[i] < perms[i].length := by rw [hpl]; exact hni
  refine ⟨perms[i][g.next[i]], ?_, (hp.2 _ hpm).2 _ (List.getElem_mem hnl), perms[i], hpm,
    List.getElem_mem hnl⟩
  simp [cursor, List.getElem?_eq_getElem hin, hni, List.getElem?_eq_getElem hip,
    List.getElem?_eq_getElem hnl]

theorem findMinPos_ok {tableSize n : Nat} {perms : List (List Nat)} {g : Greedy}
    (hp : PermsOK tableSize n perms) (hg : GreedyInv tableSize n g)
    (hf : g.filled < tableSize) (l : List Nat) (hl : ∀ i ∈ l, i < n) (m : Nat) :
    ∃ r, findMinPos tableSize perms g.next l m = some r ∧ r ≤ m ∧
      (r = m ∨ ∃ i ∈ l, cursor tableSize perms g.next i = some (some r)) ∧
      ∀ i ∈ l, ∀ v, cursor tableSize perms g.next i = some (some v) → r ≤ v := by
  induction l generalizing m with
  | nil => exact ⟨m, rfl, le_refl _, Or.inl rfl, by simp⟩
  | cons i rest ih =>
    obtain ⟨v, hv, _, _⟩ := cursor_ok hp hg hf (hl i (List.mem_cons_self _ _))
    obtain ⟨r, hr, hrm, hsrc, hmin⟩ :=
      ih (fun j hj => hl j (List.mem_cons_of_mem _ hj)) (if v < m then v else m)
    refine ⟨r, by simp [findMinPos, hv, hr], ?_, ?_, ?_⟩
    · split_ifs at hrm <;> omega
    · rcases hsrc with h | ⟨j, hj, hc⟩
      · by_cases hvm : v < m
        · right; refine ⟨i, List.mem_cons_self _ _, ?_⟩
          simp only [hvm, if_true] at h; rw [h]; exact hv
        · left; simpa [hvm] using h
      · right; exact ⟨j, List.mem_cons_of_mem _ hj, hc⟩
    · intro j hj w hw
      rcases List.mem_cons.1 hj with rfl | hj
      · rw [hv] at hw
        have : v = w := by simpa using hw
        subst this
        split_ifs at hrm <;> omega
      · exact hmin j hj w hw

theorem findCandidates_ok {tableSize n : Nat} {perms : List (List Nat)} {g : Greedy}
    (hp : PermsOK tableSize n perms) (hg : GreedyInv tableSize n g)
    (hf : g.filled < tableSize) (minPos : Nat) (l : List Nat) (hl : ∀ i ∈ l, i < n)
    (acc : List Nat) :
    ∃ cs, findCandidates tableSize perms g.next minPos l acc = some cs ∧
      (∀ c ∈ cs, c ∈ acc ∨ c ∈ l) ∧ (∀ c ∈ acc, c ∈ cs) ∧
      ∀ i ∈ l, cursor tableSize perms g.next i = some (some minPos) → i ∈ cs := by
  induction l generalizing acc with
  | nil => exact ⟨acc, rfl, fun c hc => Or.inl hc, fun c hc => hc, by simp⟩
  | cons i rest ih =>
    obtain ⟨v, hv, _, _⟩ := cursor_ok hp hg hf (hl i (List.mem_cons_self _ _))
    obtain ⟨cs, hcs, hsub, hacc, hall⟩ :=
      ih (fun j hj => hl j (List.mem_cons_of_mem _ hj))
        (if v = minPos then acc ++ [i] else acc)
    refine ⟨cs, by simp [findCandidates, hv, hcs], ?_, ?_, ?_⟩
    · intro c hc
      rcases hsub c hc with h | h
      · split_ifs at h
        · rcases List.mem_append.1 h with h | h
          · exact Or.inl h
          · right; simp at h; simp [h]
        · exact Or.inl h
      · exact Or.inr (List.mem_cons_of_mem _ h)
    · intro c hc
      apply hacc
      split_ifs
      · exact List.mem_append_left _ hc
      · exact hc
    · intro j hj hc
      rcases List.mem_cons.1 hj with rfl | hj
      · rw [hv] at hc
        have : v = minPos := by simpa using hc
        apply hacc
        simp [this]
      · exact hall j hj hc

theorem pickHeaviest_ok (mem : Mem) (avail : List Ptr) (cs : List Nat)
    (hcs : ∀ c ∈ cs, c < avail.length) (maxWeight selectedIndex : Int) :
    ∃ r, pickHeaviest mem avail cs maxWeight selectedIndex = some r ∧
      (r = selectedIndex ∨ ∃ c ∈ cs, r = (c : Int)) := by
  induction cs generalizing maxWeight selectedIndex with
  | nil => exact ⟨selectedIndex, rfl, Or.inl rfl⟩
  | cons c rest ih =>
    have hc : c < avail.length := hcs c (List.mem_cons_self _ _)
    have hrest : ∀ d ∈ rest, d < avail.length := fun d hd => hcs d (List.mem_cons_of_mem _ hd)
    simp only [pickHeaviest, List.getElem?_eq_getElem hc]
    split_ifs
    · obtain ⟨r, hr, h⟩ := ih hrest (mem avail[c]).Weight c
      refine ⟨r, hr, Or.inr ?_⟩
      rcases h with h | ⟨d, hd, h⟩
      · exact ⟨c, List.mem_cons_self _ _, h⟩
      · exact ⟨d, List.mem_cons_of_mem _ hd, h⟩
    · obtain ⟨r, hr, h⟩ := ih hrest maxWeight selectedIndex
      refine ⟨r, hr, ?_⟩
      rcases h with h | ⟨d, hd, h⟩
      · exact Or.inl h
      · exact Or.inr ⟨d, List.mem_cons_of_mem _ hd, h⟩

theorem selectIndex_ok (mem : Mem) (avail : List Ptr) (cs : List Nat)
    (hw : ∀ p ∈ avail, (mem p).Weight > 0)
    (hcs : ∀ c ∈ cs, c < avail.length) (hne : cs ≠ []) :
    ∃ c ∈ cs, selectIndex mem avail cs = some (c : Int) := by
  unfold selectIndex
  cases cs with
  | nil => exact absurd rfl hne
  | cons c rest =>
    have hc : c < avail.length := hcs c (List.mem_cons_self _ _)
    split_ifs
    · have hpos : (mem avail[c]).Weight > 0 := hw _ (List.getElem_mem hc)
      simp only [pickHeaviest, List.getElem?_eq_getElem hc, hpos, if_true]
      obtain ⟨r, hr, h⟩ := pickHeaviest_ok mem avail rest
        (fun d hd => hcs d (List.mem_cons_of_mem _ hd)) (mem avail[c]).Weight c
      rcases h with h | ⟨d, hd, h⟩
      · exact ⟨c, List.mem_cons_self _ _, by rw [hr, h]⟩
      · exact ⟨d, List.mem_cons_of_mem _ hd, by rw [hr, h]⟩
    · exact ⟨c, List.mem_cons_self _ _, by simp⟩

theorem indexInt_natCast {α : Type} (xs : List α) (i : Nat) : indexInt xs (i : Int) = xs[i]? := by
  simp [indexInt]

theorem greedyLoop_ok (mem : Mem) (tableSize : Nat) (sc : Scan) (perms : List (List Nat))
    (hp : PermsOK tableSize sc.availableServers.length perms)
    (hw : ∀ p ∈ sc.availableServers, (mem p).Weight > 0)
    (fuel : Nat) (g : Greedy) (hg : GreedyInv tableSize sc.availableServers.length g)
    (hfill : g.filled ≤ tableSize * 3 / 4) (hfuel : tableSize * 3 / 4 + 1 ≤ g.filled + fuel) :
    ∃ g', greedyLoop mem tableSize sc perms fuel g = some g' ∧
      GreedyInv tableSize sc.availableServers.length g' ∧
      (∀ v ∈ g'.lookupTable, v ∈ g.lookupTable ∨
        ∃ p ∈ sc.availableServers, v = (sc.indexOf p : Int)) ∧
      ∀ t, (∀ perm ∈ perms, t ∉ perm) → g'.lookupTable[t]? = g.lookupTable[t]? := by
  induction fuel generalizing g with
  | zero => omega
  | succ fuel ih =>
    unfold greedyLoop
    by_cases hlt : g.filled < tableSize * 3 / 4
    · have hf : g.filled < tableSize := by omega
      simp only [hlt, if_true]
      obtain ⟨m, hm, _, hsrc, _⟩ := findMinPos_ok hp hg hf
        (List.range sc.availableServers.length) (fun i hi => List.mem_range.1 hi) tableSize
      simp only [hm]
      by_cases hmt : m = tableSize
      · simp only [hmt, if_true]
        exact ⟨g, rfl, hg, fun v hv => Or.inl hv, fun _ _ => rfl⟩
      · simp only [hmt, if_false]
        rcases hsrc with h | ⟨i, hi, hci⟩
        · exact absurd h hmt
        obtain ⟨v, hv, hvlt, perm, hperm, hvperm⟩ := cursor_ok hp hg hf (List.mem_range.1 hi)
        have hvm : v = m := by rw [hv] at hci; simpa using hci
        subst hvm
        obtain ⟨cs, hcs, hsub, _, hall⟩ := findCandidates_ok hp hg hf v
          (List.range sc.availableServers.length) (fun i hi => List.mem_range.1 hi) []
        have hne : cs ≠ [] := List.ne_nil_of_mem (hall i hi hci)
        have hcslt : ∀ c ∈ cs, c < sc.availableServers.length := by
          intro c hc
          rcases hsub c hc with h | h
          · simp at h
          · exact List.mem_range.1 h
        have hlen : cs.length > 0 := List.length_pos.2 hne
        simp only [hcs, hlen, if_true]
        obtain ⟨c, hc, hsel⟩ := selectIndex_ok mem sc.availableServers cs hw hcslt hne
        have hca := hcslt c hc
        have hcn : c < g.next.length := by rw [hg.next_len]; exact hca
        have hvt : v < g.lookupTable.length := by rw [hg.table_len]; exact hvlt
        simp only [hsel, indexInt_natCast, List.getElem?_eq_getElem hca,
          List.getElem?_eq_getElem hcn, assignAt, hvt, if_true, Int.toNat_ofNat]
        have hg2 : GreedyInv tableSize sc.availableServers.length
            { lookupTable := g.lookupTable.set v (sc.indexOf sc.availableServers[c] : Int)
              next := g.next.set c (g.next[c] + 1)
              filled := g.filled + 1 } := by
          refine ⟨by simp [hg.table_len], by simp [hg.next_len], ?_⟩
          intro x hx
          rcases List.mem_or_eq_of_mem_set hx with h | h
          · exact Nat.le_succ_of_le (hg.next_le x h)
          · have := hg.next_le _ (List.getElem_mem hcn)
            simp only [h]; omega
        obtain ⟨g', hg', hinv, hvals, hkeep⟩ := ih _ hg2 (by simp only; omega) (by simp only; omega)
        refine ⟨g', hg', hinv, ?_, ?_⟩
        · intro x hx
          rcases hvals x hx with h | h
          · rcases List.mem_or_eq_of_mem_set h with h | h
            · exact Or.inl h
            · exact Or.inr ⟨_, List.getElem_mem hca, h⟩
          · exact Or.inr h
        · intro t ht
          rw [hkeep t ht]
          have : v ≠ t := fun h => ht perm hperm (h ▸ hvperm)
          simp [List.getElem?_set_ne this]
    · simp only [hlt, if_false]
      exact ⟨g, rfl, hg, fun v hv => Or.inl hv, fun _ _ => rfl⟩

/-! ## Lemmas on the fallback fill -/

theorem pickCumulative_ok (mem : Mem) (randomWeight : Int) (l : List Ptr) (cum : Int)
    (hcum : cum ≤ randomWeight) (h : randomWeight < cum + totalWeightOf mem l) :
    ∃ s ∈ l, pickCumulative mem randomWeight l cum = some s := by
  induction l generalizing cum with
  | nil => simp only [totalWeightOf] at h; omega
  | cons p rest ih =>
    unfold pickCumulative
    by_cases hlt : randomWeight < cum + (mem p).Weight
    · exact ⟨p, List.mem_cons_self _ _, by simp [hlt]⟩
    · simp only [hlt, if_false]
      obtain ⟨s, hs, hpick⟩ := ih (cum + (mem p).Weight) (by omega)
        (by simp only [totalWeightOf] at h; omega)
      exact ⟨s, List.mem_cons_of_mem _ hs, hpick⟩

theorem fillSlot_ok (H : HashFns) (mem : Mem) (sc : Scan) (i : Nat) (v : Int)
    (hne : sc.availableServers ≠ []) :
    ∃ w, fillSlot H mem sc i v = some w ∧
      ((v ≠ -1 ∧ w = v) ∨ (v = -1 ∧ ∃ p ∈ sc.availableServers, w = (sc.indexOf p : Int))) := by
  unfold fillSlot
  by_cases hv : v = -1
  · subst hv
    rw [if_pos rfl]
    dsimp only
    by_cases ht : totalWeightOf mem sc.availableServers > 0
    · rw [if_pos ht]
      obtain ⟨s, hs, hpick⟩ := pickCumulative_ok mem
        (Int.tmod ((H.murmur3Sum32 (runeString i) % 2 ^ 32 : Nat) : Int)
          (totalWeightOf mem sc.availableServers)) sc.availableServers 0
        (Int.tmod_nonneg _ (Int.ofNat_nonneg _)) (by rw [zero_add]; exact Int.tmod_lt_of_pos _ ht)
      rw [hpick]
      exact ⟨_, rfl, Or.inr ⟨rfl, s, hs, rfl⟩⟩
    · rw [if_neg ht]
      cases hav : sc.availableServers with
      | nil => exact absurd hav hne
      | cons p rest =>
        exact ⟨(sc.indexOf p : Int), by simp, Or.inr ⟨rfl, p, List.mem_cons_self _ _, rfl⟩⟩
  · rw [if_neg hv]
    exact ⟨v, rfl, Or.inl ⟨hv, rfl⟩⟩

theorem fillTable_ok (H : HashFns) (mem : Mem) (sc : Scan) (hne : sc.availableServers ≠ [])
    (l : List Int) (i : Nat) :
    ∃ r, fillTable H mem sc l i = some r ∧ r.length = l.length ∧
      ∀ k v, l[k]? = some v → ∃ w, r[k]? = some w ∧ fillSlot H mem sc (i + k) v = some w := by
  induction l generalizing i with
  | nil => exact ⟨[], rfl, rfl, by simp⟩
  | cons x rest ih =>
    obtain ⟨r, hr, hlen, hall⟩ := ih (i + 1)
    obtain ⟨w, hw, _⟩ := fillSlot_ok H mem sc i x hne
    refine ⟨w :: r, by simp [fillTable, hw, hr], by simp [hlen], ?_⟩
    intro k v hk
    cases k with
    | zero =>
      simp only [List.getElem?_cons_zero, Option.some.injEq] at hk
      subst hk
      exact ⟨w, by simp, by simpa using hw⟩
    | succ k =>
      simp only [List.getElem?_cons_succ] at hk
      obtain ⟨w2, hw2, hf⟩ := hall k v hk
      refine ⟨w2, by simpa using hw2, ?_⟩
      rw [← hf]; congr 1; omega

/-! ## The rebuild as a whole -/

/-- The rebuild when no server is available: every slot is set to `-1`. -/
theorem updateLookupTable_unavailable (H : HashFns) (lb : MaglevHashLoadBalancer)
    (h : ∀ p ∈ lb.Servers, ¬ (lb.mem p).Weight > 0) :
    updateLookupTable H lb = some { lb with lookupTable := lb.lookupTable.map fun _ => -1 } := by
  unfold updateLookupTable
  by_cases h0 : lb.Servers.length = 0
  · simp [h0]
  · have : (scanServers lb.mem lb.Servers 0 Scan.empty).availableServers = [] := by
      rw [scan_available, List.filter_eq_nil_iff]
      intro p hp; simpa using h p hp
    simp [h0, this]

/-- The rebuild when some server is available: it runs to completion, and its
three phases (permutations, greedy loop, fallback fill) produce the table. -/
theorem updateLookupTable_available (H : HashFns) (lb : MaglevHashLoadBalancer)
    (hlen : lb.lookupTable.length = lb.tableSize)
    (hav : (scanServers lb.mem lb.Servers 0 Scan.empty).availableServers ≠ []) :
    ∃ (perms : List (List Nat)) (g : Greedy) (table : List Int),
      buildPerms H lb (scanServers lb.mem lb.Servers 0 Scan.empty)
        (scanServers lb.mem lb.Servers 0 Scan.empty).availableServers = some perms ∧
      (∀ v ∈ g.lookupTable, v = -1 ∨
        ∃ p ∈ (scanServers lb.mem lb.Servers 0 Scan.empty).availableServers,
          v = ((scanServers lb.mem lb.Servers 0 Scan.empty).indexOf p : Int)) ∧
      (∀ t, t < lb.tableSize → (∀ perm ∈ perms, t ∉ perm) → g.lookupTable[t]? = some (-1)) ∧
      g.lookupTable.length = lb.tableSize ∧
      table.length = lb.tableSize ∧
      (∀ k v, g.lookupTable[k]? = some v → ∃ w, table[k]? = some w ∧
        fillSlot H lb.mem (scanServers lb.mem lb.Servers 0 Scan.empty) k v = some w) ∧
      updateLookupTable H lb = some { lb with lookupTable := table } := by
  have hsound := scan_sound lb.mem lb.Servers
  have hw : ∀ p ∈ (scanServers lb.mem lb.Servers 0 Scan.empty).availableServers,
      (lb.mem p).Weight > 0 := by
    intro p hp
    rw [scan_available] at hp
    simpa using (List.mem_filter.1 hp).2
  generalize hsc : scanServers lb.mem lb.Servers 0 Scan.empty = sc at hav hsound hw ⊢
  obtain ⟨perms, hperms, hpok⟩ := buildPerms_ok H lb sc sc.availableServers
    (fun p hp => scan_sound_index hsound hp)
  have hg0 : GreedyInv lb.tableSize sc.availableServers.length
      { lookupTable := lb.lookupTable.map fun _ => -1
        next := List.replicate sc.availableServers.length 0
        filled := 0 } :=
    ⟨by simp [hlen], by simp, fun x hx => by simp [(List.mem_replicate.1 hx).2]⟩
  obtain ⟨g, hg, hinv, hvals, hkeep⟩ := greedyLoop_ok lb.mem lb.tableSize sc perms hpok hw
    (lb.tableSize * 3 / 4 + 1)
    { lookupTable := lb.lookupTable.map fun _ => -1
      next := List.replicate sc.availableServers.length 0
      filled := 0 } hg0 (Nat.zero_le _) (by simp)
  obtain ⟨table, htable, htlen, hfill⟩ := fillTable_ok H lb.mem sc hav g.lookupTable 0
  refine ⟨perms, g, table, hperms, ?_, ?_, hinv.table_len, by rw [htlen, hinv.table_len], ?_, ?_⟩
  · intro v hv
    rcases hvals v hv with h | h
    · left; simp only [List.mem_map] at h; obtain ⟨_, _, h⟩ := h; exact h.symm
    · exact Or.inr h
  · intro t ht hnot
    rw [hkeep t hnot]
    have ht2 : t < lb.lookupTable.length := hlen ▸ ht
    show (lb.lookupTable.map fun _ => (-1 : Int))[t]? = some (-1)
    rw [List.getElem?_map, List.getElem?_eq_getElem ht2]
    rfl
  · intro k v hk
    simpa using hfill k v hk
  · unfold updateLookupTable
    have h0 : ¬ lb.Servers.length = 0 := by
      intro h0
      have : lb.Servers = [] := List.length_eq_zero.1 h0
      rw [← hsc, this] at hav
      exact hav rfl
    have h1 : ¬ sc.availableServers.length = 0 := fun h => hav (List.length_eq_zero.1 h)
    simp only [h0, if_false, hsc, h1, hperms, hg, htable]

/-- What a rebuild guarantees: it completes, keeps the pool, the memory and the
table size, and leaves a table that is all `-1` when no server is available and
fully covered by available servers otherwise. -/
theorem updateLookupTable_spec (H : HashFns) (lb : MaglevHashLoadBalancer)
    (hlen : lb.lookupTable.length = lb.tableSize) :
    ∃ lb2, updateLookupTable H lb = some lb2 ∧ lb2.mem = lb.mem ∧ lb2.Servers = lb.Servers ∧
      lb2.tableSize = lb.tableSize ∧ lb2.lookupTable.length = lb.tableSize ∧
      (∀ v ∈ lb2.lookupTable, -1 ≤ v) ∧
      ((∃ p ∈ lb.Servers, (lb.mem p).Weight > 0) →
        ∀ slot, slot < lb.tableSize → ∃ i : Nat, lb2.lookupTable[slot]? = some (i : Int) ∧
          ∃ p, lb.Servers[i]? = some p ∧ (lb.mem p).Weight > 0) ∧
      ((∀ p ∈ lb.Servers, ¬ (lb.mem p).Weight > 0) → ∀ v ∈ lb2.lookupTable, v = -1) := by
  by_cases hav : ∃ p ∈ lb.Servers, (lb.mem p).Weight > 0
  · have hne : (scanServers lb.mem lb.Servers 0 Scan.empty).availableServers ≠ [] := by
      obtain ⟨p, hp, hw⟩ := hav
      rw [scan_available]
      exact List.ne_nil_of_mem (List.mem_filter.2 ⟨hp, by simpa using hw⟩)
    obtain ⟨perms, g, table, _, hvals, _, hglen, htlen, hfill, hupd⟩ :=
      updateLookupTable_available H lb hlen hne
    have hsound := scan_sound lb.mem lb.Servers
    have hslot : ∀ slot, slot < lb.tableSize → ∃ i : Nat, table[slot]? = some (i : Int) ∧
        ∃ p, lb.Servers[i]? = some p ∧ (lb.mem p).Weight > 0 := by
      intro slot hslot
      have hs : slot < g.lookupTable.length := by rw [hglen]; exact hslot
      obtain ⟨w, hw, hfs⟩ := hfill slot _ (List.getElem?_eq_getElem hs)
      obtain ⟨w2, hw2, hcase⟩ := fillSlot_ok H lb.mem _ slot g.lookupTable[slot] hne
      rw [hfs] at hw2
      have hww : w = w2 := by simpa using hw2
      subst hww
      have hfrom : ∃ p ∈ (scanServers lb.mem lb.Servers 0 Scan.empty).availableServers,
          w = ((scanServers lb.mem lb.Servers 0 Scan.empty).indexOf p : Int) := by
        rcases hcase with ⟨hne1, hwv⟩ | ⟨_, h⟩
        · rcases hvals _ (List.getElem_mem hs) with h | h
          · exact absurd h hne1
          · rw [hwv]; exact h
        · exact h
      obtain ⟨p, hp, hwp⟩ := hfrom
      refine ⟨_, by rw [hw, hwp], p, scan_sound_index hsound hp, ?_⟩
      rw [scan_available] at hp
      simpa using (List.mem_filter.1 hp).2
    refine ⟨_, hupd, rfl, rfl, rfl, htlen, ?_, fun _ => hslot, ?_⟩
    · intro v hv
      obtain ⟨slot, hs, rfl⟩ := List.getElem_of_mem hv
      obtain ⟨i, hi, _⟩ := hslot slot (htlen ▸ hs)
      rw [List.getElem?_eq_getElem hs] at hi
      have : (table[slot] : Int) = (i : Int) := by simpa using hi
      show -1 ≤ table[slot]
      rw [this]; omega
    · intro hnone
      obtain ⟨p, hp, hw⟩ := hav
      exact absurd hw (hnone p hp)
  · have hnone : ∀ p ∈ lb.Servers, ¬ (lb.mem p).Weight > 0 := fun p hp hw => hav ⟨p, hp, hw⟩
    refine ⟨_, updateLookupTable_unavailable H lb hnone, rfl, rfl, rfl, by simp [hlen], ?_,
      fun h => absurd h hav, ?_⟩
    · intro v hv
      simp only [List.mem_map] at hv
      obtain ⟨_, _, rfl⟩ := hv
      exact le_refl _
    · intro _ v hv
      simp only [List.mem_map] at hv
      obtain ⟨_, _, rfl⟩ := hv
      rfl

theorem AddServer_spec (H : HashFns) (lb : MaglevHashLoadBalancer) (server : Ptr)
    (hlen : lb.lookupTable.length = lb.tableSize) :
    ∃ lb2, lb.AddServer H server = some lb2 ∧ lb2.Servers = lb.Servers ++ [server] ∧
      (∀ p, (lb2.mem p).Weight = (lb.mem p).Weight) ∧
      (∀ p, (lb2.mem p).Address = (lb.mem p).Address) ∧
      lb2.tableSize = lb.tableSize ∧ lb2.lookupTable.length = lb.tableSize ∧
      (∀ v ∈ lb2.lookupTable, -1 ≤ v) ∧
      ((∃ p ∈ lb2.Servers, (lb2.mem p).Weight > 0) →
        ∀ slot, slot < lb.tableSize → ∃ i : Nat, lb2.lookupTable[slot]? = some (i : Int) ∧
          ∃ p, lb2.Servers[i]? = some p ∧ (lb2.mem p).Weight > 0) := by
  unfold MaglevHashLoadBalancer.AddServer
  obtain ⟨lb2, h, hmem, hsrv, hts, hl, hge, hcov, _⟩ := updateLookupTable_spec H
    { lb with
      mem := if (lb.mem server).EffectiveWeight = 0 then
          lb.mem.set server { lb.mem server with EffectiveWeight := (lb.mem server).Weight }
        else lb.mem
      Servers := lb.Servers ++ [server] } hlen
  refine ⟨lb2, h, hsrv, ?_, ?_, hts, hl, hge, ?_⟩
  · intro p
    rw [hmem]
    simp only
    split_ifs with h1
    · unfold Mem.set
      split_ifs with h2
      · rw [h2]
      · rfl
    · rfl
  · intro p
    rw [hmem]
    simp only
    split_ifs with h1
    · unfold Mem.set
      split_ifs with h2
      · rw [h2]
      · rfl
    · rfl
  · rw [hsrv, hmem]
    exact hcov

theorem RemoveServer_spec (H : HashFns) (lb : MaglevHashLoadBalancer) (server : Ptr)
    (hlen : lb.lookupTable.length = lb.tableSize) :
    ∃ lb2, lb.RemoveServer H server = some lb2 ∧ lb2.Servers = lb.Servers.erase server ∧
      lb2.mem = lb.mem ∧
      lb2.tableSize = lb.tableSize ∧ lb2.lookupTable.length = lb.tableSize ∧
      (∀ v ∈ lb2.lookupTable, -1 ≤ v) ∧
      ((∃ p ∈ lb2.Servers, (lb2.mem p).Weight > 0) →
        ∀ slot, slot < lb.tableSize → ∃ i : Nat, lb2.lookupTable[slot]? = some (i : Int) ∧
          ∃ p, lb2.Servers[i]? = some p ∧ (lb2.mem p).Weight > 0) := by
  unfold MaglevHashLoadBalancer.RemoveServer
  obtain ⟨lb2, h, hmem, hsrv, hts, hl, hge, hcov, _⟩ := updateLookupTable_spec H
    { lb with Servers := lb.Servers.erase server } hlen
  refine ⟨lb2, h, hsrv, hmem, hts, hl, hge, ?_⟩
  rw [hsrv, hmem]
  exact hcov

theorem Reachable.tableInv {H : HashFns} {lb : MaglevHashLoadBalancer} (h : Reachable H lb) :
    TableInv lb := by
  induction h with
  | new mem =>
    refine ⟨rfl, by simp [NewMaglevHashLoadBalancer], ?_⟩
    intro v hv
    simp only [NewMaglevHashLoadBalancer] at hv
    rw [(List.mem_replicate.1 hv).2]; omega
  | addServer server _ hadd ih =>
    obtain ⟨lb2, h, _, _, _, hts, hl, hge, _⟩ := AddServer_spec H _ server ih.len
    rw [hadd] at h
    cases h
    exact ⟨by rw [hts, ih.size], by rw [hl, hts], hge⟩
  | removeServer server _ hrem ih =>
    obtain ⟨lb2, h, _, _, hts, hl, hge, _⟩ := RemoveServer_spec H _ server ih.len
    rw [hrem] at h
    cases h
    exact ⟨by rw [hts, ih.size], by rw [hl, hts], hge⟩
  | mutate mem _ ih => exact ⟨ih.size, ih.len, ih.ge⟩

/-! ## Lemmas on `GetServer` -/

theorem indexInt_of_range {α : Type} (xs : List α) (i : Int) (h0 : 0 ≤ i)
    (h1 : i < xs.length) : ∃ x ∈ xs, indexInt xs i = some x := by
  have hi : i.toNat < xs.length := by omega
  refine ⟨xs[i.toNat], List.getElem_mem hi, ?_⟩
  unfold indexInt
  rw [if_neg (by omega), List.getElem?_eq_getElem hi]

theorem probe_sound (lb : MaglevHashLoadBalancer) (hlen : lb.lookupTable.length = lb.tableSize)
    (hts : 0 < lb.tableSize) (index : Nat) (offsets : List Nat) :
    ∃ r, probe lb index offsets = some r ∧
      ∀ p, r = some p → p ∈ lb.Servers ∧ (lb.mem p).Weight > 0 := by
  induction offsets with
  | nil => exact ⟨none, rfl, by simp⟩
  | cons offset rest ih =>
    have hi : (index + offset) % lb.tableSize < lb.lookupTable.length := by
      rw [hlen]; exact Nat.mod_lt _ hts
    unfold probe
    rw [List.getElem?_eq_getElem hi]
    dsimp only
    split_ifs with hr
    · obtain ⟨x, hx, hidx⟩ := indexInt_of_range lb.Servers _ hr.1 hr.2
      rw [hidx]
      dsimp only
      split_ifs with hw
      · exact ⟨some x, rfl, fun p hp => by cases hp; exact ⟨hx, hw⟩⟩
      · exact ih
    · exact ih

theorem probe_unavailable (lb : MaglevHashLoadBalancer)
    (hlen : lb.lookupTable.length = lb.tableSize) (hts : 0 < lb.tableSize)
    (hnone : ∀ p ∈ lb.Servers, (lb.mem p).Weight ≤ 0) (index : Nat) (offsets : List Nat) :
    probe lb index offsets = some none := by
  obtain ⟨r, hr, hsound⟩ := probe_sound lb hlen hts index offsets
  cases r with
  | none => exact hr
  | some p =>
    obtain ⟨hp, hw⟩ := hsound p rfl
    have := hnone p hp
    omega

theorem resolveUnusable_available (lb : MaglevHashLoadBalancer)
    (hlen : lb.lookupTable.length = lb.tableSize) (hts : 0 < lb.tableSize)
    (hav : ∃ p ∈ lb.Servers, (lb.mem p).Weight > 0) (hash index : Nat) :
    ∃ p, resolveUnusable lb hash index = some (some p) ∧ p ∈ lb.Servers ∧
      (lb.mem p).Weight > 0 := by
  obtain ⟨r, hr, hsound⟩ := probe_sound lb hlen hts index (List.range' 1 19)
  unfold resolveUnusable
  rw [hr]
  cases r with
  | some p => exact ⟨p, rfl, hsound p rfl⟩
  | none =>
    dsimp only
    obtain ⟨q, hq, hw⟩ := hav
    have hmem : q ∈ lb.Servers.filter fun server => (lb.mem server).Weight > 0 :=
      List.mem_filter.2 ⟨hq, by simpa using hw⟩
    have hpos : (lb.Servers.filter fun server => (lb.mem server).Weight > 0).length > 0 :=
      List.length_pos_of_mem hmem
    have hi : hash % (lb.Servers.filter fun server => (lb.mem server).Weight > 0).length <
        (lb.Servers.filter fun server => (lb.mem server).Weight > 0).length :=
      Nat.mod_lt _ hpos
    rw [if_pos hpos, List.getElem?_eq_getElem hi]
    have := List.mem_filter.1 (List.getElem_mem hi)
    exact ⟨_, rfl, this.1, by simpa using this.2⟩

theorem resolveUnusable_unavailable (lb : MaglevHashLoadBalancer)
    (hlen : lb.lookupTable.length = lb.tableSize) (hts : 0 < lb.tableSize)
    (hnone : ∀ p ∈ lb.Servers, (lb.mem p).Weight ≤ 0) (hash index : Nat) :
    resolveUnusable lb hash index = some none := by
  unfold resolveUnusable
  rw [probe_unavailable lb hlen hts hnone]
  dsimp only
  have : (lb.Servers.filter fun server => (lb.mem server).Weight > 0) = [] := by
    rw [List.filter_eq_nil_iff]
    intro p hp
    have := hnone p hp
    simp only [gt_iff_lt, decide_eq_true_eq]; omega
  rw [this]
  rfl

/-- `GetServer` with an available server in the pool returns such a server. -/
theorem GetServer_available (H : HashFns) (lb : MaglevHashLoadBalancer) (key : String)
    (hlen : lb.lookupTable.length = lb.tableSize) (hts : 0 < lb.tableSize)
    (hge : ∀ v ∈ lb.lookupTable, -1 ≤ v)
    (hav : ∃ p ∈ lb.Servers, (lb.mem p).Weight > 0) :
    ∃ p, lb.GetServer H key = some (some p) ∧ p ∈ lb.Servers ∧ (lb.mem p).Weight > 0 := by
  unfold MaglevHashLoadBalancer.GetServer
  have h0 : ¬ lb.Servers.length = 0 := by
    obtain ⟨p, hp, _⟩ := hav
    exact Nat.ne_of_gt (List.length_pos_of_mem hp)
  have hi : u64 (H.murmur3Sum64 key) % lb.tableSize < lb.lookupTable.length := by
    rw [hlen]; exact Nat.mod_lt _ hts
  rw [if_neg h0]
  dsimp only
  rw [List.getElem?_eq_getElem hi]
  dsimp only
  split_ifs with hbad
  · exact resolveUnusable_available lb hlen hts hav _ _
  · have hv := hge _ (List.getElem_mem hi)
    obtain ⟨x, hx, hidx⟩ := indexInt_of_range lb.Servers
      (lb.lookupTable[u64 (H.murmur3Sum64 key) % lb.tableSize]) (by omega) (by omega)
    rw [hidx]
    dsimp only
    split_ifs with hw
    · exact resolveUnusable_available lb hlen hts hav _ _
    · exact ⟨x, rfl, hx, by omega⟩

/-- `GetServer` with no available server in the pool returns `nil`. -/
theorem GetServer_unavailable (H : HashFns) (lb : MaglevHashLoadBalancer) (key : String)
    (hlen : lb.lookupTable.length = lb.tableSize) (hts : 0 < lb.tableSize)
    (hge : ∀ v ∈ lb.lookupTable, -1 ≤ v)
    (hnone : ∀ p ∈ lb.Servers, (lb.mem p).Weight ≤ 0) :
    lb.GetServer H key = some none := by
  unfold MaglevHashLoadBalancer.GetServer
  have hi : u64 (H.murmur3Sum64 key) % lb.tableSize < lb.lookupTable.length := by
    rw [hlen]; exact Nat.mod_lt _ hts
  split_ifs with h0
  · rfl
  · dsimp only
    rw [List.getElem?_eq_getElem hi]
    dsimp only
    split_ifs with hbad
    · exact resolveUnusable_unavailable lb hlen hts hnone _ _
    · have hv := hge _ (List.getElem_mem hi)
      obtain ⟨x, hx, hidx⟩ := indexInt_of_range lb.Servers
        (lb.lookupTable[u64 (H.murmur3Sum64 key) % lb.tableSize]) (by omega) (by omega)
      rw [hidx]
      dsimp only
      rw [if_pos (hnone x hx)]
      exact resolveUnusable_unavailable lb hlen hts hnone _ _

theorem lookupTableSize_pos : 0 < lookupTableSize := by unfold lookupTableSize; omega

theorem indexInt_mem {α : Type} {xs : List α} {i : Int} {x : α} (h : indexInt xs i = some x) :
    x ∈ xs := by
  unfold indexInt at h
  split_ifs at h
  exact List.getElem?_mem h

theorem probe_congr (lb lb2 : MaglevHashLoadBalancer) (hS : lb2.Servers = lb.Servers)
    (hT : lb2.lookupTable = lb.lookupTable) (hsz : lb2.tableSize = lb.tableSize)
    (hW : ∀ p ∈ lb.Servers, (lb2.mem p).Weight = (lb.mem p).Weight) (index : Nat)
    (offsets : List Nat) : probe lb2 index offsets = probe lb index offsets := by
  induction offsets with
  | nil => rfl
  | cons offset rest ih =>
    unfold probe
    rw [hS, hT, hsz]
    cases lb.lookupTable[(index + offset) % lb.tableSize]? with
    | none => rfl
    | some serverIndex =>
      dsimp only
      split_ifs with hr
      · cases hx : indexInt lb.Servers serverIndex with
        | none => rfl
        | some x =>
          dsimp only
          rw [hW x (indexInt_mem hx), ih]
      · exact ih

theorem resolveUnusable_congr (lb lb2 : MaglevHashLoadBalancer) (hS : lb2.Servers = lb.Servers)
    (hT : lb2.lookupTable = lb.lookupTable) (hsz : lb2.tableSize = lb.tableSize)
    (hW : ∀ p ∈ lb.Servers, (lb2.mem p).Weight = (lb.mem p).Weight) (hash index : Nat) :
    resolveUnusable lb2 hash index = resolveUnusable lb hash index := by
  unfold resolveUnusable
  rw [probe_congr lb lb2 hS hT hsz hW]
  have hf : (lb2.Servers.filter fun server => (lb2.mem server).Weight > 0) =
      lb.Servers.filter fun server => (lb.mem server).Weight > 0 := by
    rw [hS]
    apply List.filter_congr
    intro p hp
    rw [hW p hp]
  rw [hf]

theorem GetServer_congr (H : HashFns) (lb lb2 : MaglevHashLoadBalancer) (key : String)
    (hS : lb2.Servers = lb.Servers) (hT : lb2.lookupTable = lb.lookupTable)
    (hsz : lb2.tableSize = lb.tableSize)
    (hW : ∀ p ∈ lb.Servers, (lb2.mem p).Weight = (lb.mem p).Weight) :
    lb2.GetServer H key = lb.GetServer H key := by
  unfold MaglevHashLoadBalancer.GetServer
  rw [hS, hT, hsz]
  split_ifs with h0
  · rfl
  · dsimp only
    cases lb.lookupTable[u64 (H.murmur3Sum64 key) % lb.tableSize]? with
    | none => rfl
    | some serverIndex =>
      dsimp only
      rw [resolveUnusable_congr lb lb2 hS hT hsz hW]
      split_ifs with hbad
      · rfl
      · cases hx : indexInt lb.Servers serverIndex with
        | none => rfl
        | some x =>
          dsimp only
          rw [hW x (indexInt_mem hx)]

theorem getServerRepeated_eq (H : HashFns) (key : String) (n : Nat) (lb : MaglevHashLoadBalancer) :
    getServerRepeated H key n lb = List.replicate n (lb.GetServer H key) := by
  induction n with
  | zero => rfl
  | succ n ih =>
    simp only [getServerRepeated, MaglevHashLoadBalancer.GetServerCall, List.replicate_succ]
    rw [← ih]

theorem buildPerms_mem (H : HashFns) (lb : MaglevHashLoadBalancer) (sc : Scan) (l : List Ptr)
    (perms : List (List Nat)) (h : buildPerms H lb sc l = some perms) :
    ∀ perm ∈ perms, ∃ p ∈ l, permutation H lb (sc.indexOf p) = some perm := by
  induction l generalizing perms with
  | nil =>
    simp only [buildPerms, Option.some.injEq] at h
    subst h
    intro perm hperm; cases hperm
  | cons p rest ih =>
    unfold buildPerms at h
    cases hp : permutation H lb (sc.indexOf p) with
    | none => rw [hp] at h; simp at h
    | some perm0 =>
      cases hr : buildPerms H lb sc rest with
      | none => rw [hp, hr] at h; simp at h
      | some perms0 =>
        rw [hp, hr] at h
        simp only [Option.some.injEq] at h
        subst h
        intro perm hperm
        rcases List.mem_cons.1 hperm with rfl | hperm
        · exact ⟨p, List.mem_cons_self _ _, hp⟩
        · obtain ⟨q, hq, hqp⟩ := ih perms0 hr perm hperm
          exact ⟨q, List.mem_cons_of_mem _ hq, hqp⟩

/-- A slot that no permutation of an available server mentions is filled by
the fallback phase of the rebuild. -/
theorem updateLookupTable_fallback_slot (H : HashFns) (lb : MaglevHashLoadBalancer)
    (hlen : lb.lookupTable.length = lb.tableSize)
    (hav : (scanServers lb.mem lb.Servers 0 Scan.empty).availableServers ≠ [])
    (t : Nat) (ht : t < lb.tableSize)
    (hperm : ∀ p ∈ (scanServers lb.mem lb.Servers 0 Scan.empty).availableServers,
      ∀ perm, permutation H lb ((scanServers lb.mem lb.Servers 0 Scan.empty).indexOf p) =
        some perm → t ∉ perm) :
    ∃ table w, updateLookupTable H lb = some { lb with lookupTable := table } ∧
      table.length = lb.tableSize ∧ table[t]? = some w ∧
      fillSlot H lb.mem (scanServers lb.mem lb.Servers 0 Scan.empty) t (-1) = some w := by
  obtain ⟨perms, g, table, hperms, _, hkeep, _, htlen, hfill, hupd⟩ :=
    updateLookupTable_available H lb hlen hav
  have hnot : ∀ perm ∈ perms, t ∉ perm := by
    intro perm hp
    obtain ⟨p, hpa, hpp⟩ := buildPerms_mem H lb _ _ perms hperms perm hp
    exact hperm p hpa perm hpp
  obtain ⟨w, hw, hfs⟩ := hfill t (-1) (hkeep t ht hnot)
  exact ⟨table, w, hupd, htlen, hw, hfs⟩

theorem u64_of_lt {n : Nat} (h : n < 2 ^ 64) : u64 n = n := Nat.mod_eq_of_lt h

/-- When `weight + skip` is the table size, `permutation` yields the constant
sequence `offset, offset, ...`. -/
theorem permEntry_degenerate (tableSize offset w i : Nat) (hoff : offset < tableSize)
    (hw : w ≤ tableSize) (hb : offset + i * tableSize + tableSize < 2 ^ 64) :
    permEntry tableSize offset (tableSize - w) (w : Int) i = offset := by
  have h1 : i * w ≤ i * tableSize := Nat.mul_le_mul_left i hw
  have h2 : i * (tableSize - w) ≤ i * tableSize := Nat.mul_le_mul_left i (Nat.sub_le _ _)
  have h3 : i * w + i * (tableSize - w) = i * tableSize := by
    rw [← Nat.mul_add, Nat.add_sub_cancel' hw]
  have hcast : (((i : Int) * (w : Int)) % 2 ^ 64).toNat = i * w := by
    have : ((i : Int) * (w : Int)) % 2 ^ 64 = ((i * w % 2 ^ 64 : Nat) : Int) := by
      push_cast; rfl
    rw [this, Int.toNat_ofNat, Nat.mod_eq_of_lt (by omega)]
  unfold permEntry
  simp only [hcast]
  have hadj : (offset + i * w) % tableSize < tableSize :=
    Nat.mod_lt _ (Nat.lt_of_le_of_lt (Nat.zero_le _) hoff)
  rw [u64_of_lt (by omega : offset + i * w < 2 ^ 64),
    u64_of_lt (by omega : i * (tableSize - w) < 2 ^ 64),
    u64_of_lt (by omega : (offset + i * w) % tableSize + i * (tableSize - w) < 2 ^ 64),
    Nat.mod_add_mod, Nat.add_assoc, h3, Nat.add_mul_mod_self_right, Nat.mod_eq_of_lt hoff]

theorem runeString_length (n : Nat) : (runeString n).length = 1 := by
  unfold runeString
  split_ifs <;> rfl

/-- Under `degenerateHash` the permutation of a server whose address has as
many characters as its weight is constantly `0`. -/
theorem degenerate_permutation (lb : MaglevHashLoadBalancer) (idx : Nat) (p : Ptr)
    (hts : lb.tableSize = lookupTableSize) (hp : lb.Servers[idx]? = some p)
    (hw : (lb.mem p).Weight = ((lb.mem p).Address.length : Int))
    (h1 : 1 ≤ (lb.mem p).Address.length) (h2 : (lb.mem p).Address.length ≤ 1000)
    (perm : List Nat) (h : permutation degenerateHash lb idx = some perm) :
    ∀ v ∈ perm, v = 0 := by
  simp only [permutation, hp, Option.some.injEq] at h
  subst h
  intro v hv
  simp only [List.mem_map, List.mem_range] at hv
  obtain ⟨i, hi, rfl⟩ := hv
  have hkey : ((lb.mem p).Address ++ ":" ++ runeString idx).length =
      (lb.mem p).Address.length + 2 := by
    rw [String.length_append, String.length_append, runeString_length]
    rfl
  have hwpos : ¬ (lb.mem p).Weight ≤ 0 := by rw [hw]; omega
  rw [if_neg hwpos, hw]
  simp only [degenerateHash, hkey]
  rw [hts] at hi ⊢
  unfold lookupTableSize at hi ⊢
  have hoff : u64 (if (lb.mem p).Address.length + 2 = 1 then 1 else 0) % 65537 = 0 := by
    rw [if_neg (by omega)]; rfl
  have hskip : u64 (65538 - ((lb.mem p).Address.length + 2)) % (65537 - 1) + 1 =
      65537 - (lb.mem p).Address.length := by
    unfold u64
    omega
  rw [hoff, hskip]
  exact permEntry_degenerate 65537 0 _ i (by omega) (by omega) (by omega)

/-- The rebuild under `degenerateHash` of a pool of servers whose address
lengths are their weights: every slot but slot `0` is filled by the fallback. -/
theorem degenerate_rebuild (mem : Mem) (servers : List Ptr) (table : List Int)
    (hlen : table.length = lookupTableSize) (hne : servers ≠ [])
    (hgood : ∀ p ∈ servers, (mem p).Weight = ((mem p).Address.length : Int) ∧
      1 ≤ (mem p).Address.length ∧ (mem p).Address.length ≤ 1000)
    (t : Nat) (ht : 0 < t) (ht2 : t < lookupTableSize) :
    ∃ table2 w,
      updateLookupTable degenerateHash
        { mem := mem, Servers := servers, lookupTable := table, tableSize := lookupTableSize } =
        some { mem := mem, Servers := servers, lookupTable := table2,
               tableSize := lookupTableSize } ∧
      table2.length = lookupTableSize ∧ table2[t]? = some w ∧
      fillSlot degenerateHash mem (scanServers mem servers 0 Scan.empty) t (-1) = some w := by
  have hsub : ∀ p ∈ (scanServers mem servers 0 Scan.empty).availableServers, p ∈ servers := by
    intro p hp
    rw [scan_available] at hp
    exact (List.mem_filter.1 hp).1
  have hav : (scanServers mem servers 0 Scan.empty).availableServers ≠ [] := by
    rw [scan_available]
    cases servers with
    | nil => exact absurd rfl hne
    | cons p rest =>
      have hp := (hgood p (List.mem_cons_self _ _))
      have : (mem p).Weight > 0 := by rw [hp.1]; omega
      exact List.ne_nil_of_mem (List.mem_filter.2 ⟨List.mem_cons_self _ _, by simpa using this⟩)
  obtain ⟨table2, w, hupd, hl2, hw, hfs⟩ := updateLookupTable_fallback_slot degenerateHash
    { mem := mem, Servers := servers, lookupTable := table, tableSize := lookupTableSize }
    hlen hav t ht2 (by
      intro p hp perm hperm hmem
      have hps := hsub p hp
      have hg := hgood p hps
      have := degenerate_permutation _ _ p rfl (scan_sound_index (scan_sound mem servers) hp)
        hg.1 hg.2.1 hg.2.2 perm hperm t hmem
      omega)
  exact ⟨table2, w, hupd, hl2, hw, hfs⟩

theorem exampleMem_good (p : Ptr) :
    (exampleMem p).Weight = ((exampleMem p).Address.length : Int) ∧
      1 ≤ (exampleMem p).Address.length ∧ (exampleMem p).Address.length ≤ 1000 := by
  unfold exampleMem
  split <;> decide

theorem exampleMem_effective (p : Ptr) : (exampleMem p).EffectiveWeight ≠ 0 := by
  unfold exampleMem
  split <;> decide

/-- `AddServer` on the example memory under `degenerateHash`: slot `1` of the
rebuilt table is a fallback slot. -/
theorem example_AddServer (servers : List Ptr) (table : List Int)
    (hlen : table.length = lookupTableSize) (server : Ptr) :
    ∃ table2,
      MaglevHashLoadBalancer.AddServer degenerateHash
        { mem := exampleMem, Servers := servers, lookupTable := table,
          tableSize := lookupTableSize } server =
        some { mem := exampleMem, Servers := servers ++ [server], lookupTable := table2,
               tableSize := lookupTableSize } ∧
      table2.length = lookupTableSize ∧
      table2[1]? = fillSlot degenerateHash exampleMem
        (scanServers exampleMem (servers ++ [server]) 0 Scan.empty) 1 (-1) := by
  obtain ⟨table2, w, hupd, hl2, hw, hfs⟩ := degenerate_rebuild exampleMem (servers ++ [server])
    table hlen (by simp) (fun p _ => exampleMem_good p) 1 (by omega)
    (by unfold lookupTableSize; omega)
  refine ⟨table2, ?_, hl2, by rw [hw, hfs]⟩
  unfold MaglevHashLoadBalancer.AddServer
  simp only [if_neg (exampleMem_effective server)]
  exact hupd

/-- `RemoveServer` on the example memory under `degenerateHash`, when a server is left. -/
theorem example_RemoveServer (servers : List Ptr) (table : List Int)
    (hlen : table.length = lookupTableSize) (server : Ptr) (hne : servers.erase server ≠ []) :
    ∃ table2,
      MaglevHashLoadBalancer.RemoveServer degenerateHash
        { mem := exampleMem, Servers := servers, lookupTable := table,
          tableSize := lookupTableSize } server =
        some { mem := exampleMem, Servers := servers.erase server, lookupTable := table2,
               tableSize := lookupTableSize } ∧
      table2.length = lookupTableSize ∧
      table2[1]? = fillSlot degenerateHash exampleMem
        (scanServers exampleMem (servers.erase server) 0 Scan.empty) 1 (-1) := by
  obtain ⟨table2, w, hupd, hl2, hw, hfs⟩ := degenerate_rebuild exampleMem (servers.erase server)
    table hlen hne (fun p _ => exampleMem_good p) 1 (by omega)
    (by unfold lookupTableSize; omega)
  exact ⟨table2, hupd, hl2, by rw [hw, hfs]⟩

/-- `GetServer` for the key `"k"`, which `degenerateHash` sends to slot `1`,
when that slot holds a usable pool position. -/
theorem example_GetServer (servers : List Ptr) (table : List Int) (i : Nat) (p : Ptr)
    (ht : table[1]? = some (i : Int)) (hp : servers[i]? = some p) :
    MaglevHashLoadBalancer.GetServer degenerateHash
      { mem := exampleMem, Servers := servers, lookupTable := table,
        tableSize := lookupTableSize } "k" = some (some p) := by
  have hlt : i < servers.length := by
    by_contra h
    rw [List.getElem?_eq_none (by omega)] at hp
    cases hp
  have hw : ¬ (exampleMem p).Weight ≤ 0 := by
    have := (exampleMem_good p)
    omega
  have hidx : u64 (degenerateHash.murmur3Sum64 "k") % lookupTableSize = 1 := by decide
  unfold MaglevHashLoadBalancer.GetServer
  simp only [hidx, ht]
  rw [if_neg (by omega), if_neg (by omega)]
  simp only [indexInt_natCast, hp, if_neg hw]

/-- A server returned by `GetServer` is a pooled server with `Weight > 0`. -/
theorem GetServer_sound (H : HashFns) (lb : MaglevHashLoadBalancer) (key : String) (p : Ptr)
    (hinv : TableInv lb) (h : lb.GetServer H key = some (some p)) :
    p ∈ lb.Servers ∧ (lb.mem p).Weight > 0 := by
  have hts : 0 < lb.tableSize := by rw [hinv.size]; exact lookupTableSize_pos
  by_cases hav : ∃ q ∈ lb.Servers, (lb.mem q).Weight > 0
  · obtain ⟨q, hq, hmem, hw⟩ := GetServer_available H lb key hinv.len hts hinv.ge hav
    rw [h] at hq
    cases hq
    exact ⟨hmem, hw⟩
  · have := GetServer_unavailable H lb key hinv.len hts hinv.ge (fun q hq => by
      by_contra hw
      exact hav ⟨q, hq, by omega⟩)
    rw [h] at this
    cases this

/-! ## Lemmas on the smooth weighted round-robin loop -/

theorem Mem.set_same (m : Mem) (p : Ptr) (s : Server) : m.set p s p = s := by
  simp [Mem.set]

theorem Mem.set_other (m : Mem) (p q : Ptr) (s : Server) (h : q ≠ p) : m.set p s q = m q := by
  simp [Mem.set, h]

theorem wrrStep_mem (acc : WrrAcc) (server : Ptr) :
    (wrrStep acc server).mem = acc.mem.set server (bumped (acc.mem server)) := by
  unfold wrrStep bumped effWeight
  dsimp only
  split_ifs <;> rfl

theorem wrrStep_total (acc : WrrAcc) (server : Ptr) :
    (wrrStep acc server).totalWeight = acc.totalWeight + effWeight (acc.mem server) := by
  unfold wrrStep effWeight
  dsimp only
  split_ifs <;> rfl

theorem wrrStep_best (acc : WrrAcc) (server : Ptr) :
    (wrrStep acc server).bestServer =
      match acc.bestServer with
      | none => some server
      | some best =>
        if ((wrrStep acc server).mem server).CurrentWeight >
            ((wrrStep acc server).mem best).CurrentWeight then some server
        else some best := by
  unfold wrrStep
  rfl

/-- The loop over a list of pairwise distinct servers none of which is the current best. -/
theorem wrrFold_spec (l : List Ptr) (hnd : l.Nodup) (acc : WrrAcc)
    (hbest : ∀ b, acc.bestServer = some b → b ∉ l) :
    (∀ q, q ∉ l → (l.foldl wrrStep acc).mem q = acc.mem q) ∧
    (∀ q ∈ l, (l.foldl wrrStep acc).mem q = bumped (acc.mem q)) ∧
    (l.foldl wrrStep acc).totalWeight =
      acc.totalWeight + (l.map fun q => effWeight (acc.mem q)).sum ∧
    (l.foldl wrrStep acc).bestServer =
      pickBest (fun q => ((l.foldl wrrStep acc).mem q).CurrentWeight) acc.bestServer l := by
  induction l generalizing acc with
  | nil =>
    refine ⟨fun _ _ => rfl, by simp, by simp, ?_⟩
    cases h : acc.bestServer <;> simp [pickBest, h]
  | cons p rest ih =>
    have hp : p ∉ rest := (List.nodup_cons.1 hnd).1
    have hbest1 : ∀ b, (wrrStep acc p).bestServer = some b → b ∉ rest := by
      intro b hb
      rw [wrrStep_best] at hb
      cases hacc : acc.bestServer with
      | none =>
        rw [hacc] at hb
        simp only [Option.some.injEq] at hb
        rw [← hb]; exact hp
      | some b0 =>
        rw [hacc] at hb
        dsimp only at hb
        have hb0 : b0 ∉ rest := fun h => hbest b0 hacc (List.mem_cons_of_mem _ h)
        split_ifs at hb
        · simp only [Option.some.injEq] at hb; rw [← hb]; exact hp
        · simp only [Option.some.injEq] at hb; rw [← hb]; exact hb0
    obtain ⟨ha, hb, hc, hd⟩ := ih (List.nodup_cons.1 hnd).2 (wrrStep acc p) hbest1
    simp only [List.foldl_cons]
    refine ⟨?_, ?_, ?_, ?_⟩
    · intro q hq
      have hqp : q ≠ p := fun h => hq (h ▸ List.mem_cons_self _ _)
      have hqr : q ∉ rest := fun h => hq (List.mem_cons_of_mem _ h)
      rw [ha q hqr, wrrStep_mem, Mem.set_other _ _ _ _ hqp]
    · intro q hq
      rcases List.mem_cons.1 hq with rfl | hq
      · rw [ha q hp, wrrStep_mem, Mem.set_same]
      · have hqp : q ≠ p := fun h => hp (h ▸ hq)
        rw [hb q hq, wrrStep_mem, Mem.set_other _ _ _ _ hqp]
    · have hmap : (rest.map fun q => effWeight ((wrrStep acc p).mem q)) =
          rest.map fun q => effWeight (acc.mem q) := by
        apply List.map_congr_left
        intro q hq
        have hqp : q ≠ p := fun h => hp (h ▸ hq)
        rw [wrrStep_mem, Mem.set_other _ _ _ _ hqp]
      rw [hc, wrrStep_total, List.map_cons, List.sum_cons, add_assoc, hmap]
    · rw [hd, wrrStep_best]
      cases hacc : acc.bestServer with
      | none => rfl
      | some b0 =>
        have hb0 : b0 ∉ rest := fun h => hbest b0 hacc (List.mem_cons_of_mem _ h)
        simp only [pickBest, ha p hp, ha b0 hb0]

theorem pickBest_congr (v1 v2 : Ptr → Int) (l : List Ptr) (best : Option Ptr)
    (hl : ∀ q ∈ l, v1 q = v2 q) (hb : ∀ b, best = some b → v1 b = v2 b) :
    pickBest v1 best l = pickBest v2 best l := by
  induction l generalizing best with
  | nil => cases best <;> rfl
  | cons p rest ih =>
    have hrest : ∀ q ∈ rest, v1 q = v2 q := fun q hq => hl q (List.mem_cons_of_mem _ hq)
    have hp := hl p (List.mem_cons_self _ _)
    cases best with
    | none =>
      simp only [pickBest]
      exact ih _ hrest (fun b h => by cases h; exact hp)
    | some b0 =>
      simp only [pickBest]
      rw [hp, hb b0 rfl]
      apply ih _ hrest
      intro b h
      split_ifs at h
      · cases h; exact hp
      · cases h; exact hb b0 rfl

theorem pickBest_some (v : Ptr → Int) (l : List Ptr) (b0 : Ptr) :
    ∃ b, pickBest v (some b0) l = some b ∧ (b = b0 ∨ b ∈ l) ∧ v b0 ≤ v b ∧
      ∀ q ∈ l, v q ≤ v b := by
  induction l generalizing b0 with
  | nil => exact ⟨b0, rfl, Or.inl rfl, le_refl _, by simp⟩
  | cons p rest ih =>
    simp only [pickBest]
    by_cases h : v p > v b0
    · rw [if_pos h]
      obtain ⟨b, hb, hmem, hle, hall⟩ := ih p
      refine ⟨b, hb, ?_, by omega, ?_⟩
      · rcases hmem with rfl | hmem
        · exact Or.inr (List.mem_cons_self _ _)
        · exact Or.inr (List.mem_cons_of_mem _ hmem)
      · intro q hq
        rcases List.mem_cons.1 hq with rfl | hq
        · exact hle
        · exact hall q hq
    · rw [if_neg h]
      obtain ⟨b, hb, hmem, hle, hall⟩ := ih b0
      refine ⟨b, hb, ?_, hle, ?_⟩
      · rcases hmem with rfl | hmem
        · exact Or.inl rfl
        · exact Or.inr (List.mem_cons_of_mem _ hmem)
      · intro q hq
        rcases List.mem_cons.1 hq with rfl | hq
        · omega
        · exact hall q hq

theorem pickBest_none (v : Ptr → Int) (l : List Ptr) (hne : l ≠ []) :
    ∃ b, pickBest v none l = some b ∧ b ∈ l ∧ ∀ q ∈ l, v q ≤ v b := by
  cases l with
  | nil => exact absurd rfl hne
  | cons p rest =>
    simp only [pickBest]
    obtain ⟨b, hb, hmem, hle, hall⟩ := pickBest_some v rest p
    refine ⟨b, hb, ?_, ?_⟩
    · rcases hmem with rfl | hmem
      · exact List.mem_cons_self _ _
      · exact List.mem_cons_of_mem _ hmem
    · intro q hq
      rcases List.mem_cons.1 hq with rfl | hq
      · exact hle
      · exact hall q hq

theorem effWeight_bumped (s : Server) (w : Int) (hw : s.Weight = w) (he : effWeight s = w) :
    effWeight (bumped s) = w := by
  show (if effWeight s = 0 then s.Weight else effWeight s) = w
  rw [he]
  split_ifs with h
  · exact hw
  · rfl

/-- One `GetServer` call in smooth weighted mode on a pool of pairwise distinct
servers: the first server of greatest incremented current weight is returned,
and the total weight is subtracted from its current weight. -/
theorem wrr_step (S : List Ptr) (w : Ptr → Int) (lb : RoundRobinLoadBalancer) (key : String)
    (hnd : S.Nodup) (hne : S ≠ []) (hst : WrrState S w lb) :
    ∃ b lb2, lb.GetServer key = some (some b, lb2) ∧ b ∈ S ∧ WrrState S w lb2 ∧
      pickBest (fun q => (lb.mem q).CurrentWeight + w q) none S = some b ∧
      (∀ q ∈ S, (lb.mem q).CurrentWeight + w q ≤ (lb.mem b).CurrentWeight + w b) ∧
      (∀ q ∈ S, (lb2.mem q).CurrentWeight =
        (lb.mem q).CurrentWeight + w q - if q = b then (S.map w).sum else 0) ∧
      (∀ q, q ∉ S → lb2.mem q = lb.mem q) := by
  obtain ⟨ha, hb, hc, hd⟩ := wrrFold_spec S hnd
    { mem := lb.mem, totalWeight := 0, bestServer := none } (fun b h => by cases h)
  dsimp only at ha hb hc hd
  have hv : ∀ q ∈ S, ((S.foldl wrrStep
      { mem := lb.mem, totalWeight := 0, bestServer := none }).mem q).CurrentWeight =
      (lb.mem q).CurrentWeight + w q := by
    intro q hq
    rw [hb q hq, ← hst.eff q hq]
    rfl
  have hbest := pickBest_congr _ (fun q => (lb.mem q).CurrentWeight + w q) S none hv
    (fun b h => by cases h)
  rw [← hd] at hbest
  obtain ⟨b, hpick, hbS, hmax⟩ := pickBest_none (fun q => (lb.mem q).CurrentWeight + w q) S hne
  have htotal : (S.foldl wrrStep
      { mem := lb.mem, totalWeight := 0, bestServer := none }).totalWeight = (S.map w).sum := by
    rw [hc, zero_add]
    congr 1
    exact List.map_congr_left (fun q hq => hst.eff q hq)
  rw [hpick] at hbest
  have h0 : ¬ lb.Servers.length = 0 := by
    rw [hst.servers]; exact fun h => hne (List.length_eq_zero.1 h)
  generalize hacc : S.foldl wrrStep { mem := lb.mem, totalWeight := 0, bestServer := none } = acc
    at ha hb hc hd hv hbest htotal
  refine ⟨b, { lb with
    mem := acc.mem.set b
      { acc.mem b with CurrentWeight := (acc.mem b).CurrentWeight - acc.totalWeight } },
    ?_, hbS, ?_, hpick, hmax, ?_, ?_⟩
  · unfold RoundRobinLoadBalancer.GetServer
    rw [if_neg h0, hst.weighted]
    simp only [Bool.not_true, Bool.false_eq_true, if_false]
    unfold RoundRobinLoadBalancer.getWeighted
    dsimp only
    rw [hst.servers]
    have hacc2 : S.foldl wrrStep { mem := lb.mem, totalWeight := 0, bestServer := none } = acc :=
      hacc
    rw [hacc2, hbest]
    dsimp only
    rw [hst.weighted]
  · refine ⟨hst.servers, hst.weighted, ?_, ?_⟩
    · intro q hq
      dsimp only
      by_cases hqb : q = b
      · subst hqb
        rw [Mem.set_same]
        dsimp only
        rw [hb q hq]
        exact hst.weight q hq
      · rw [Mem.set_other _ _ _ _ hqb, hb q hq]
        exact hst.weight q hq
    · intro q hq
      dsimp only
      have := effWeight_bumped (lb.mem q) (w q) (hst.weight q hq) (hst.eff q hq)
      by_cases hqb : q = b
      · subst hqb
        rw [Mem.set_same, hb q hq]
        exact this
      · rw [Mem.set_other _ _ _ _ hqb, hb q hq]
        exact this
  · intro q hq
    dsimp only
    by_cases hqb : q = b
    · subst hqb
      rw [Mem.set_same, if_pos rfl]
      dsimp only
      rw [hv q hq, htotal]
    · rw [Mem.set_other _ _ _ _ hqb, if_neg hqb, hv q hq, sub_zero]
  · intro q hq
    dsimp only
    have hqb : q ≠ b := fun h => hq (h ▸ hbS)
    rw [Mem.set_other _ _ _ _ hqb, ha q hq]

theorem calls_zero (lb : RoundRobinLoadBalancer) : lb.calls 0 = some ([], lb) := rfl

theorem calls_succ (lb lb1 : RoundRobinLoadBalancer) (r : Option Ptr) (n : Nat)
    (h : lb.GetServer "" = some (r, lb1)) :
    lb.calls (n + 1) = (lb1.calls n).map fun x => (r :: x.1, x.2) := by
  rw [RoundRobinLoadBalancer.calls, h]
  dsimp only
  cases lb1.calls n with
  | none => rfl
  | some x => rfl

/-- Calls compose: `m + n` calls are `m` calls followed by `n` calls. -/
theorem calls_add (m n : Nat) (lb lb1 lb2 : RoundRobinLoadBalancer) (rs1 rs2 : List (Option Ptr))
    (h1 : lb.calls m = some (rs1, lb1)) (h2 : lb1.calls n = some (rs2, lb2)) :
    lb.calls (m + n) = some (rs1 ++ rs2, lb2) := by
  induction m generalizing lb rs1 with
  | zero =>
    rw [calls_zero] at h1
    cases h1
    simpa using h2
  | succ m ih =>
    rw [RoundRobinLoadBalancer.calls] at h1
    cases hg : lb.GetServer "" with
    | none => rw [hg] at h1; cases h1
    | some x =>
      obtain ⟨r, lbx⟩ := x
      rw [hg] at h1
      dsimp only at h1
      cases hc : lbx.calls m with
      | none => rw [hc] at h1; cases h1
      | some y =>
        obtain ⟨rs, lby⟩ := y
        rw [hc] at h1
        dsimp only at h1
        cases h1
        have := ih lbx rs hc
        rw [show m + 1 + n = (m + n) + 1 by omega, calls_succ lb lbx r (m + n) hg, this]
        rfl

/-- In smooth weighted mode every sequence of calls completes and returns pooled servers. -/
theorem wrr_calls (S : List Ptr) (w : Ptr → Int) (hnd : S.Nodup) (hne : S ≠ []) (n : Nat)
    (lb : RoundRobinLoadBalancer) (hst : WrrState S w lb) :
    ∃ rs lb2, lb.calls n = some (rs, lb2) ∧ rs.length = n ∧ WrrState S w lb2 ∧
      (∀ r ∈ rs, ∃ b ∈ S, r = some b) ∧ (∀ q, q ∉ S → lb2.mem q = lb.mem q) := by
  induction n generalizing lb with
  | zero => exact ⟨[], lb, rfl, rfl, hst, by simp, fun _ _ => rfl⟩
  | succ n ih =>
    obtain ⟨b, lb1, hget, hb, hst1, _, _, _, hframe⟩ := wrr_step S w lb "" hnd hne hst
    obtain ⟨rs, lb2, hcalls, hlen, hst2, hall, hframe2⟩ := ih lb1 hst1
    refine ⟨some b :: rs, lb2, ?_, by simp [hlen], hst2, ?_, ?_⟩
    · rw [calls_succ lb lb1 (some b) n hget, hcalls]
      rfl
    · intro r hr
      rcases List.mem_cons.1 hr with rfl | hr
      · exact ⟨b, hb, rfl⟩
      · exact hall r hr
    · intro q hq
      rw [hframe2 q hq, hframe q hq]

/-- The results of a sequence of calls depend on the current weights of the
pooled servers only. -/
theorem wrr_calls_congr (S : List Ptr) (w : Ptr → Int) (hnd : S.Nodup) (hne : S ≠ []) (n : Nat)
    (lb lb2 : RoundRobinLoadBalancer) (hst : WrrState S w lb) (hst2 : WrrState S w lb2)
    (hcw : ∀ q ∈ S, (lb.mem q).CurrentWeight = (lb2.mem q).CurrentWeight) :
    ∃ rs lbn lbn2, lb.calls n = some (rs, lbn) ∧ lb2.calls n = some (rs, lbn2) ∧
      WrrState S w lbn ∧ WrrState S w lbn2 ∧
      ∀ q ∈ S, (lbn.mem q).CurrentWeight = (lbn2.mem q).CurrentWeight := by
  induction n generalizing lb lb2 with
  | zero => exact ⟨[], lb, lb2, rfl, rfl, hst, hst2, hcw⟩
  | succ n ih =>
    obtain ⟨b, lb1, hget, _, hst1, hpick, _, hnew, _⟩ := wrr_step S w lb "" hnd hne hst
    obtain ⟨b2, lb12, hget2, _, hst12, hpick2, _, hnew2, _⟩ := wrr_step S w lb2 "" hnd hne hst2
    have hbb : b = b2 := by
      have := pickBest_congr (fun q => (lb.mem q).CurrentWeight + w q)
        (fun q => (lb2.mem q).CurrentWeight + w q) S none
        (fun q hq => by dsimp only; rw [hcw q hq]) (fun b h => by cases h)
      rw [hpick, hpick2] at this
      exact Option.some.inj this
    subst hbb
    obtain ⟨rs, lbn, lbn2, hc1, hc2, hs1, hs2, hcwn⟩ := ih lb1 lb12 hst1 hst12
      (fun q hq => by rw [hnew q hq, hnew2 q hq, hcw q hq])
    refine ⟨some b :: rs, lbn, lbn2, ?_, ?_, hs1, hs2, hcwn⟩
    · rw [calls_succ lb lb1 (some b) n hget, hc1]; rfl
    · rw [calls_succ lb2 lb12 (some b) n hget2, hc2]; rfl

/-! ## Fairness of the smooth weighted round-robin -/

theorem sum_indicator (S : List Ptr) (b : Ptr) (c : Int) (hnd : S.Nodup) (hb : b ∈ S) :
    (S.map fun q => if q = b then c else 0).sum = c := by
  induction S with
  | nil => cases hb
  | cons p rest ih =>
    have hp : p ∉ rest := (List.nodup_cons.1 hnd).1
    rw [List.map_cons, List.sum_cons]
    by_cases hpb : p = b
    · subst hpb
      have hz : (rest.map fun q => if q = p then c else 0) = rest.map fun _ => (0 : Int) := by
        apply List.map_congr_left
        intro q hq
        rw [if_neg (fun h : q = p => hp (h ▸ hq))]
      rw [if_pos rfl, hz]
      simp
    · have hbr : b ∈ rest := by
        rcases List.mem_cons.1 hb with h | h
        · exact absurd h.symm hpb
        · exact h
      rw [if_neg hpb, ih (List.nodup_cons.1 hnd).2 hbr, zero_add]

theorem sum_map_add_sub (S : List Ptr) (f g h : Ptr → Int) :
    (S.map fun q => f q + g q - h q).sum = (S.map f).sum + (S.map g).sum - (S.map h).sum := by
  induction S with
  | nil => simp
  | cons p rest ih =>
    simp only [List.map_cons, List.sum_cons, ih]
    ring

theorem sum_nonpos (S : List Ptr) (f : Ptr → Int) (h : ∀ q ∈ S, f q ≤ 0) :
    (S.map f).sum ≤ 0 := by
  induction S with
  | nil => simp
  | cons p rest ih =>
    rw [List.map_cons, List.sum_cons]
    have := h p (List.mem_cons_self _ _)
    have := ih (fun q hq => h q (List.mem_cons_of_mem _ hq))
    omega

theorem sum_nonneg (S : List Ptr) (f : Ptr → Int) (h : ∀ q ∈ S, 0 ≤ f q) :
    0 ≤ (S.map f).sum := by
  induction S with
  | nil => simp
  | cons p rest ih =>
    rw [List.map_cons, List.sum_cons]
    have := h p (List.mem_cons_self _ _)
    have := ih (fun q hq => h q (List.mem_cons_of_mem _ hq))
    omega

theorem sum_pos_of_ne_nil (S : List Ptr) (f : Ptr → Int) (hne : S ≠ []) (h : ∀ q ∈ S, 1 ≤ f q) :
    1 ≤ (S.map f).sum := by
  cases S with
  | nil => exact absurd rfl hne
  | cons p rest =>
    rw [List.map_cons, List.sum_cons]
    have := h p (List.mem_cons_self _ _)
    have := sum_nonneg rest f (fun q hq => by
      have := h q (List.mem_cons_of_mem _ hq)
      omega)
    omega

theorem eq_zero_of_sum_zero (S : List Ptr) (f : Ptr → Int) (h : ∀ q ∈ S, 0 ≤ f q)
    (hs : (S.map f).sum = 0) : ∀ q ∈ S, f q = 0 := by
  induction S with
  | nil => intro q hq; cases hq
  | cons p rest ih =>
    rw [List.map_cons, List.sum_cons] at hs
    have hp := h p (List.mem_cons_self _ _)
    have hrest := sum_nonneg rest f (fun q hq => h q (List.mem_cons_of_mem _ hq))
    intro q hq
    rcases List.mem_cons.1 hq with rfl | hq
    · omega
    · exact ih (fun q hq => h q (List.mem_cons_of_mem _ hq)) (by omega) q hq

/-- One call keeps the sum of the current weights of the pooled servers. -/
theorem wrr_step_sum (S : List Ptr) (w : Ptr → Int) (lb lb2 : RoundRobinLoadBalancer) (b : Ptr)
    (hnd : S.Nodup) (hb : b ∈ S)
    (hnew : ∀ q ∈ S, (lb2.mem q).CurrentWeight =
      (lb.mem q).CurrentWeight + w q - if q = b then (S.map w).sum else 0) :
    (S.map fun q => (lb2.mem q).CurrentWeight).sum =
      (S.map fun q => (lb.mem q).CurrentWeight).sum := by
  have e : (S.map fun q => (lb2.mem q).CurrentWeight) =
      S.map fun q => (lb.mem q).CurrentWeight + w q - if q = b then (S.map w).sum else 0 :=
    List.map_congr_left hnew
  rw [e, sum_map_add_sub, sum_indicator S b _ hnd hb]
  ring

/-- Within the first period of a balancer whose current weights start at `0`:
after `t` calls the current weight of a server is `t * weight - total * n`, with
`n ≤ weight` the number of times it was returned. -/
theorem wrr_period_inv (S : List Ptr) (w : Ptr → Int) (hnd : S.Nodup) (hne : S ≠ [])
    (hpos : ∀ q ∈ S, 1 ≤ w q) (lb : RoundRobinLoadBalancer) (hst : WrrState S w lb)
    (h0 : ∀ q ∈ S, (lb.mem q).CurrentWeight = 0) (t : Nat) (ht : (t : Int) ≤ (S.map w).sum) :
    ∃ rs lbt, lb.calls t = some (rs, lbt) ∧ WrrState S w lbt ∧
      (S.map fun q => (lbt.mem q).CurrentWeight).sum = 0 ∧
      ∀ q ∈ S, (lbt.mem q).CurrentWeight =
          (t : Int) * w q - (S.map w).sum * (rs.count (some q) : Nat) ∧
        ((rs.count (some q) : Nat) : Int) ≤ w q := by
  induction t with
  | zero =>
    refine ⟨[], lb, rfl, hst, ?_, ?_⟩
    · have : (S.map fun q => (lb.mem q).CurrentWeight) = S.map fun _ => (0 : Int) :=
        List.map_congr_left h0
      rw [this]; simp
    · intro q hq
      have := hpos q hq
      refine ⟨by rw [h0 q hq]; simp, by simp; omega⟩
  | succ t ih =>
    obtain ⟨rs, lbt, hcalls, hstt, hsum, hall⟩ := ih (by push_cast at ht; omega)
    obtain ⟨b, lb2, hget, hb, hst2, _, hmax, hnew, _⟩ := wrr_step S w lbt "" hnd hne hstt
    have hone : lbt.calls 1 = some ([some b], lb2) := by
      rw [calls_succ lbt lb2 (some b) 0 hget]; rfl
    have hW := sum_pos_of_ne_nil S w hne hpos
    have hvsum : (S.map fun q => (lbt.mem q).CurrentWeight + w q).sum = (S.map w).sum := by
      have := sum_map_add_sub S (fun q => (lbt.mem q).CurrentWeight) w (fun _ => 0)
      simp only [sub_zero] at this
      rw [this, hsum]
      simp
    have hvb : 0 < (lbt.mem b).CurrentWeight + w b := by
      by_contra hle
      have := sum_nonpos S (fun q => (lbt.mem q).CurrentWeight + w q) (fun q hq => by
        have := hmax q hq
        dsimp only
        omega)
      rw [hvsum] at this
      omega
    have hcount : ∀ q, (rs ++ [some b]).count (some q) =
        rs.count (some q) + if q = b then 1 else 0 := by
      intro q
      rw [List.count_append, List.count_singleton]
      by_cases hqb : q = b
      · subst hqb; simp
      · have : ¬ (some b == some q) = true := by simpa using fun h => hqb h.symm
        simp [hqb, this]
    have hnb : ((rs.count (some b) : Nat) : Int) < w b := by
      have hcw := (hall b hb).1
      rw [hcw] at hvb
      by_contra hge
      have h1 : (S.map w).sum * w b ≤ (S.map w).sum * (rs.count (some b) : Nat) :=
        mul_le_mul_of_nonneg_left (by omega) (by omega)
      have h2 : ((t : Int) + 1) * w b ≤ (S.map w).sum * w b :=
        mul_le_mul_of_nonneg_right (by push_cast at ht; omega) (by have := hpos b hb; omega)
      nlinarith
    refine ⟨rs ++ [some b], lb2, calls_add t 1 lb lbt lb2 rs [some b] hcalls hone, hst2, ?_, ?_⟩
    · rw [wrr_step_sum S w lbt lb2 b hnd hb hnew, hsum]
    · intro q hq
      obtain ⟨hcw, hle⟩ := hall q hq
      rw [hnew q hq, hcw, hcount q]
      by_cases hqb : q = b
      · subst hqb
        rw [if_pos rfl, if_pos rfl]
        refine ⟨by push_cast; ring, by push_cast; omega⟩
      · rw [if_neg hqb, if_neg hqb]
        refine ⟨by push_cast; ring, by simpa using hle⟩

/-- After a full period of `total weight` calls every server was returned
`weight` times and every current weight is `0` again. -/
theorem wrr_full_period (S : List Ptr) (w : Ptr → Int) (hnd : S.Nodup) (hne : S ≠ [])
    (hpos : ∀ q ∈ S, 1 ≤ w q) (lb : RoundRobinLoadBalancer) (hst : WrrState S w lb)
    (h0 : ∀ q ∈ S, (lb.mem q).CurrentWeight = 0) :
    ∃ rs lbW, lb.calls (S.map w).sum.toNat = some (rs, lbW) ∧ WrrState S w lbW ∧
      (∀ q ∈ S, (lbW.mem q).CurrentWeight = 0) ∧
      ∀ q ∈ S, ((rs.count (some q) : Nat) : Int) = w q := by
  have hW := sum_pos_of_ne_nil S w hne hpos
  have hcast : (((S.map w).sum.toNat : Nat) : Int) = (S.map w).sum := Int.toNat_of_nonneg (by omega)
  obtain ⟨rs, lbW, hcalls, hstW, hsum, hall⟩ := wrr_period_inv S w hnd hne hpos lb hst h0
    (S.map w).sum.toNat (by rw [hcast])
  rw [hcast] at hall
  have hform : ∀ q ∈ S, (lbW.mem q).CurrentWeight =
      (S.map w).sum * (w q - (rs.count (some q) : Nat)) := by
    intro q hq
    rw [(hall q hq).1]; ring
  have hzero := eq_zero_of_sum_zero S (fun q => (lbW.mem q).CurrentWeight) (fun q hq => by
    dsimp only
    rw [hform q hq]
    exact mul_nonneg (by omega) (by have := (hall q hq).2; omega)) hsum
  refine ⟨rs, lbW, hcalls, hstW, hzero, ?_⟩
  intro q hq
  have h1 := hzero q hq
  dsimp only at h1
  rw [hform q hq] at h1
  rcases mul_eq_zero.1 h1 with h | h
  · omega
  · omega

/-- The sequence of results has the total weight as a period. -/
theorem wrr_periodic (S : List Ptr) (w : Ptr → Int) (hnd : S.Nodup) (hne : S ≠ [])
    (hpos : ∀ q ∈ S, 1 ≤ w q) (lb : RoundRobinLoadBalancer) (hst : WrrState S w lb)
    (h0 : ∀ q ∈ S, (lb.mem q).CurrentWeight = 0) (n : Nat) :
    ∃ rsW rs lbn lbn2, lb.calls n = some (rs, lbn) ∧
      lb.calls ((S.map w).sum.toNat + n) = some (rsW ++ rs, lbn2) ∧
      rsW.length = (S.map w).sum.toNat ∧ rs.length = n ∧
      WrrState S w lbn ∧ WrrState S w lbn2 ∧
      (∀ q ∈ S, ((rsW.count (some q) : Nat) : Int) = w q) ∧
      ∀ q ∈ S, (lbn2.mem q).CurrentWeight = (lbn.mem q).CurrentWeight := by
  obtain ⟨rsW, lbW, hcW, hstW, hzero, hcount⟩ := wrr_full_period S w hnd hne hpos lb hst h0
  obtain ⟨rs, lbn2, lbn, hc2, hc1, hs2, hs1, hcw⟩ := wrr_calls_congr S w hnd hne n lbW lb hstW hst
    (fun q hq => by rw [hzero q hq, h0 q hq])
  obtain ⟨rsW2, lbW2, hcW2, hlenW, _⟩ := wrr_calls S w hnd hne (S.map w).sum.toNat lb hst
  rw [hcW] at hcW2
  cases hcW2
  obtain ⟨rs2, lbn3, hc3, hlen, _⟩ := wrr_calls S w hnd hne n lb hst
  rw [hc1] at hc3
  cases hc3
  exact ⟨rsW, rs, lbn, lbn2, hc1, calls_add _ _ lb lbW lbn2 rsW rs hcW hc2, hlenW, hlen, hs1, hs2,
    hcount, hcw⟩

/-- Every window of `total weight` consecutive calls returns each server
`weight` times. -/
theorem wrr_window (S : List Ptr) (w : Ptr → Int) (hnd : S.Nodup) (hne : S ≠ [])
    (hpos : ∀ q ∈ S, 1 ≤ w q) (lb : RoundRobinLoadBalancer) (hst : WrrState S w lb)
    (h0 : ∀ q ∈ S, (lb.mem q).CurrentWeight = 0) (n : Nat) :
    ∃ rs lb2, lb.calls (n + (S.map w).sum.toNat) = some (rs, lb2) ∧
      ∀ q ∈ S, (((rs.drop n).count (some q) : Nat) : Int) = w q := by
  obtain ⟨rsW, rs, lbn, lbn2, hc1, hc2, _, hlen, hs1, _, hcount, _⟩ :=
    wrr_periodic S w hnd hne hpos lb hst h0 n
  obtain ⟨win, lb3, hc3, _, _⟩ := wrr_calls S w hnd hne (S.map w).sum.toNat lbn hs1
  have hsplit := calls_add n _ lb lbn lb3 rs win hc1 hc3
  rw [Nat.add_comm] at hc2
  rw [hsplit] at hc2
  have heq : rs ++ win = rsW ++ rs := by
    have := Option.some.inj hc2
    exact congrArg Prod.fst this
  refine ⟨rs ++ win, lb3, hsplit, ?_⟩
  intro q hq
  have hdrop : (rs ++ win).drop n = win := by
    rw [← hlen]; exact List.drop_left _ _
  rw [hdrop, ← hcount q hq]
  have := congrArg (fun l => l.count (some q)) heq
  simp only [List.count_append] at this
  omega

theorem wrrFold_best (l : List Ptr) (acc : WrrAcc) :
    (l ≠ [] ∨ acc.bestServer ≠ none) →
    ∃ b, (l.foldl wrrStep acc).bestServer = some b ∧ (acc.bestServer = some b ∨ b ∈ l) := by
  induction l generalizing acc with
  | nil =>
    intro h
    rcases h with h | h
    · exact absurd rfl h
    · cases hb : acc.bestServer with
      | none => exact absurd hb h
      | some b => exact ⟨b, hb, Or.inl rfl⟩
  | cons p rest ih =>
    intro _
    have hstep : ∃ b, (wrrStep acc p).bestServer = some b ∧ (acc.bestServer = some b ∨ b = p) := by
      rw [wrrStep_best]
      cases acc.bestServer with
      | none => exact ⟨p, rfl, Or.inr rfl⟩
      | some b0 =>
        dsimp only
        split_ifs
        · exact ⟨p, rfl, Or.inr rfl⟩
        · exact ⟨b0, rfl, Or.inl rfl⟩
    obtain ⟨b1, hb1, hfrom1⟩ := hstep
    obtain ⟨b, hb, hfrom⟩ := ih (wrrStep acc p) (Or.inr (by rw [hb1]; simp))
    refine ⟨b, hb, ?_⟩
    rcases hfrom with h | h
    · rw [hb1] at h
      cases h
      rcases hfrom1 with h1 | h1
      · exact Or.inl h1
      · exact Or.inr (h1 ▸ List.mem_cons_self _ _)
    · exact Or.inr (List.mem_cons_of_mem _ h)

theorem exampleRr_state : WrrState [0, 1, 2] (fun p => (exampleRr.mem p).Weight) exampleRr := by
  refine ⟨rfl, rfl, fun _ _ => rfl, ?_⟩
  decide

/-- The results and current weights of `exampleRr` repeat with period 6. -/
theorem exampleRr_periodic (n : Nat) :
    ∃ rsW rs cw, rsW.length = 6 ∧ rs.length = n ∧ exampleRr.results n = some rs ∧
      exampleRr.results (6 + n) = some (rsW ++ rs) ∧
      exampleRr.currentWeightsAfter n = some cw ∧
      exampleRr.currentWeightsAfter (6 + n) = some cw := by
  obtain ⟨rsW, rs, lbn, lbn2, hc1, hc2, hlW, hl, hs1, hs2, _, hcw⟩ :=
    wrr_periodic [0, 1, 2] (fun p => (exampleRr.mem p).Weight) (by decide) (by decide)
      (by decide) exampleRr exampleRr_state (by decide) n
  have hsum : ([0, 1, 2].map fun p => (exampleRr.mem p).Weight).sum.toNat = 6 := by decide
  rw [hsum] at hc2 hlW
  refine ⟨rsW, rs, [0, 1, 2].map fun p => (lbn.mem p).CurrentWeight, hlW, hl, ?_, ?_, ?_, ?_⟩
  · simp only [RoundRobinLoadBalancer.results, hc1, Option.map_some']
  · simp only [RoundRobinLoadBalancer.results, hc2, Option.map_some']
  · simp only [RoundRobinLoadBalancer.currentWeightsAfter, hc1, Option.map_some', hs1.servers]
  · simp only [RoundRobinLoadBalancer.currentWeightsAfter, hc2, Option.map_some', hs2.servers]
    congr 1
    exact List.map_congr_left hcw

theorem exampleRr_shift (n : Nat) (hn : 1 ≤ n) (h : RepeatOnlyWhenTied exampleRr n) :
    RepeatOnlyWhenTied exampleRr (n + 6) := by
  obtain ⟨rs, cw, hrs, hcw, himp⟩ := h
  obtain ⟨rsW, rs2, _, hlW, _, hr1, hr2, _, _⟩ := exampleRr_periodic (n + 1)
  obtain ⟨_, _, cw2, _, _, _, _, hw1, hw2⟩ := exampleRr_periodic n
  rw [hrs] at hr1
  cases hr1
  rw [hcw] at hw1
  cases hw1
  refine ⟨rsW ++ rs, cw, ?_, ?_, ?_⟩
  · rw [← hr2]; congr 1; omega
  · rw [← hw2]; congr 1; omega
  · intro heq
    apply himp
    rw [List.getElem?_append_right (by omega), List.getElem?_append_right (by omega)] at heq
    rw [hlW] at heq
    have e1 : n + 6 - 1 - 6 = n - 1 := by omega
    have e2 : n + 6 - 6 = n := by omega
    rw [e1, e2] at heq
    exact heq

theorem exampleRr_base (r : Nat) (h1 : 1 ≤ r) (h6 : r ≤ 6) : RepeatOnlyWhenTied exampleRr r := by
  interval_cases r
  · exact ⟨_, _, rfl, rfl, by decide⟩
  · exact ⟨_, _, rfl, rfl, by decide⟩
  · exact ⟨_, _, rfl, rfl, by decide⟩
  · exact ⟨_, _, rfl, rfl, by decide⟩
  · exact ⟨_, _, rfl, rfl, by decide⟩
  · exact ⟨_, _, rfl, rfl, by decide⟩

theorem exampleRr_all (k r : Nat) (h1 : 1 ≤ r) (h6 : r ≤ 6) :
    RepeatOnlyWhenTied exampleRr (r + 6 * k) := by
  induction k with
  | zero => exact exampleRr_base r h1 h6
  | succ k ih =>
    have := exampleRr_shift (r + 6 * k) (by omega) ih
    rw [show r + 6 * (k + 1) = r + 6 * k + 6 by ring]
    exact this

/-- In both modes the round-robin `GetServer` returns `nil` exactly when the
pool is empty; with a non-empty pool it returns a pooled server: no weight is
tested. -/
theorem rr_getServer_pooled (lb : RoundRobinLoadBalancer) (key : String)
    (hidx : 0 ≤ lb.currentIndex) :
    ∃ r lb2, lb.GetServer key = some (r, lb2) ∧ (r = none ↔ lb.Servers = []) ∧
      ∀ p, r = some p → p ∈ lb.Servers := by
  unfold RoundRobinLoadBalancer.GetServer
  by_cases h0 : lb.Servers.length = 0
  · rw [if_pos h0]
    exact ⟨none, lb, rfl, ⟨fun _ => List.length_eq_zero.1 h0, fun _ => rfl⟩, fun p hp => by cases hp⟩
  · have hne : lb.Servers ≠ [] := fun h => h0 (by rw [h]; rfl)
    rw [if_neg h0]
    cases hw : lb.weighted with
    | false =>
      simp only [Bool.not_false, if_true]
      have hlen : (0 : Int) < (lb.Servers.length : Int) := by omega
      obtain ⟨x, hx, hidx2⟩ := indexInt_of_range lb.Servers
        (Int.tmod (lb.currentIndex + 1) (lb.Servers.length : Int))
        (Int.tmod_nonneg _ (by omega)) (Int.tmod_lt_of_pos _ hlen)
      rw [hidx2]
      exact ⟨some x, _, rfl, ⟨fun h => (by cases h), fun h => absurd h hne⟩,
        fun p hp => by cases hp; exact hx⟩
    | true =>
      simp only [Bool.not_true, Bool.false_eq_true, if_false]
      obtain ⟨b, hb, hfrom⟩ := wrrFold_best lb.Servers
        { mem := lb.mem, totalWeight := 0, bestServer := none } (Or.inl hne)
      have hbS : b ∈ lb.Servers := by
        rcases hfrom with h | h
        · cases h
        · exact h
      unfold RoundRobinLoadBalancer.getWeighted
      dsimp only
      rw [hb]
      exact ⟨some b, _, rfl, ⟨fun h => (by cases h), fun h => absurd h hne⟩,
        fun p hp => by cases hp; exact hbS⟩

/-! ## Lemmas on `float64` rounding -/

theorem roundHalfEven_ge_floor (x : ℚ) : ⌊x⌋ ≤ roundHalfEven x := by
  unfold roundHalfEven
  split_ifs <;> omega

theorem roundHalfEven_le_floor_succ (x : ℚ) : roundHalfEven x ≤ ⌊x⌋ + 1 := by
  unfold roundHalfEven
  split_ifs <;> omega

theorem roundHalfEven_intCast (n : Int) : roundHalfEven (n : ℚ) = n := by
  unfold roundHalfEven
  rw [Int.floor_intCast]
  simp

theorem roundHalfEven_mono {x y : ℚ} (h : x ≤ y) : roundHalfEven x ≤ roundHalfEven y := by
  rcases lt_or_eq_of_le (Int.floor_mono h) with hlt | heq
  · calc roundHalfEven x ≤ ⌊x⌋ + 1 := roundHalfEven_le_floor_succ x
      _ ≤ ⌊y⌋ := hlt
      _ ≤ roundHalfEven y := roundHalfEven_ge_floor y
  · unfold roundHalfEven
    rw [heq]
    have hxy : 2 * (x - ⌊y⌋) ≤ 2 * (y - ⌊y⌋) := by linarith
    split_ifs <;> first | omega | (exfalso; linarith)

/-- A number within less than one half of an integer rounds to it. -/
theorem roundHalfEven_of_near (t : ℚ) (m : Int) (h1 : (m : ℚ) - 1 / 2 < t)
    (h2 : t < (m : ℚ) + 1 / 2) : roundHalfEven t = m := by
  rcases le_or_lt (m : ℚ) t with hge | hlt
  · have hf : ⌊t⌋ = m := Int.floor_eq_iff.2 ⟨hge, by linarith⟩
    unfold roundHalfEven
    rw [hf, if_pos (by linarith)]
  · have hf : ⌊t⌋ = m - 1 := Int.floor_eq_iff.2 ⟨by push_cast; linarith, by push_cast; linarith⟩
    unfold roundHalfEven
    rw [hf]
    have : ¬ 2 * (t - ((m - 1 : Int) : ℚ)) < 1 := by push_cast; linarith
    rw [if_neg this, if_pos (by push_cast; linarith)]
    omega


theorem two_zpow_pos (k : Int) : (0 : ℚ) < 2 ^ k := zpow_pos (by norm_num) k

/-- The quantum of the binade of exponent `e`, times `2 ^ 52`, is `2 ^ e`. -/
theorem quantum_mul (e : Int) : (2 : ℚ) ^ (e - 52) * 2 ^ (52 : Nat) = 2 ^ e := by
  rw [← zpow_natCast, ← zpow_add₀ (by norm_num : (2 : ℚ) ≠ 0)]
  congr 1
  omega

theorem log_bounds {x : ℚ} (hx : 0 < x) :
    (2 : ℚ) ^ Int.log 2 x ≤ x ∧ x < 2 ^ (Int.log 2 x + 1) := by
  have h1 := Int.zpow_log_le_self (b := 2) (r := x) (by norm_num) hx
  have h2 := Int.lt_zpow_succ_log_self (b := 2) (by norm_num) x
  simp only [Nat.cast_ofNat] at h1 h2
  exact ⟨h1, h2⟩

theorem log_eq_of_bounds {x : ℚ} (e : Int) (h1 : (2 : ℚ) ^ e ≤ x) (h2 : x < 2 ^ (e + 1)) :
    Int.log 2 x = e := by
  have hx : 0 < x := lt_of_lt_of_le (two_zpow_pos e) h1
  have a := (Int.zpow_le_iff_le_log (b := 2) (by norm_num) hx (x := e)).1
    (by simpa using h1)
  have b := (Int.lt_zpow_iff_log_lt (b := 2) (by norm_num) hx (x := e + 1)).1
    (by simpa using h2)
  omega

/-- The scaled significand of a positive number lies in `[2 ^ 52, 2 ^ 53)`. -/
theorem significand_bounds {x : ℚ} (hx : 0 < x) :
    (2 : ℚ) ^ (52 : Nat) ≤ x / 2 ^ (Int.log 2 x - 52) ∧
      x / 2 ^ (Int.log 2 x - 52) < 2 ^ (53 : Nat) := by
  obtain ⟨h1, h2⟩ := log_bounds hx
  have hu := two_zpow_pos (Int.log 2 x - 52)
  have hq := quantum_mul (Int.log 2 x)
  have h3 : (2 : ℚ) ^ (Int.log 2 x + 1) = 2 ^ (Int.log 2 x) * 2 := by
    rw [zpow_add₀ (by norm_num : (2 : ℚ) ≠ 0), zpow_one]
  constructor
  · rw [le_div_iff₀ hu]
    calc (2 : ℚ) ^ (52 : Nat) * 2 ^ (Int.log 2 x - 52) = 2 ^ Int.log 2 x := by
          rw [mul_comm]; exact hq
      _ ≤ x := h1
  · rw [div_lt_iff₀ hu]
    calc x < 2 ^ (Int.log 2 x) * 2 := by rw [← h3]; exact h2
      _ = 2 ^ (53 : Nat) * 2 ^ (Int.log 2 x - 52) := by
          rw [← hq]; ring

theorem roundF64_of_pos {x : ℚ} (hx : 0 < x) :
    roundF64 x =
      (roundHalfEven (x / 2 ^ (Int.log 2 x - 52)) : ℚ) * 2 ^ (Int.log 2 x - 52) := by
  unfold roundF64
  rw [if_neg (ne_of_gt hx), if_pos hx]

theorem roundF64_neg (x : ℚ) : roundF64 (-x) = -roundF64 x := by
  rcases lt_trichotomy x 0 with h | h | h
  · have hn : 0 < -x := by linarith
    rw [roundF64_of_pos hn]
    unfold roundF64
    rw [if_neg (ne_of_lt h), if_neg (not_lt.2 (le_of_lt h)), neg_neg]
  · subst h
    simp [roundF64]
  · have hn : -x < 0 := by linarith
    rw [roundF64_of_pos h]
    unfold roundF64
    rw [if_neg (ne_of_lt hn), if_neg (not_lt.2 (le_of_lt hn)), neg_neg]

/-- A positive number and its rounding lie in the same closed binade. -/
theorem roundF64_pos_bounds {x : ℚ} (hx : 0 < x) :
    (2 : ℚ) ^ Int.log 2 x ≤ roundF64 x ∧ roundF64 x ≤ 2 ^ (Int.log 2 x + 1) := by
  obtain ⟨h1, h2⟩ := significand_bounds hx
  have hu := two_zpow_pos (Int.log 2 x - 52)
  have hq := quantum_mul (Int.log 2 x)
  have hlo : ((2 ^ (52 : Nat) : Int) : ℚ) ≤ x / 2 ^ (Int.log 2 x - 52) := by
    push_cast; exact h1
  have hhi : x / 2 ^ (Int.log 2 x - 52) ≤ ((2 ^ (53 : Nat) : Int) : ℚ) := by
    push_cast; exact le_of_lt h2
  have r1 := roundHalfEven_mono hlo
  have r2 := roundHalfEven_mono hhi
  rw [roundHalfEven_intCast] at r1 r2
  have r1q : (2 : ℚ) ^ (52 : Nat) ≤ (roundHalfEven (x / 2 ^ (Int.log 2 x - 52)) : ℚ) := by
    exact_mod_cast r1
  have r2q : (roundHalfEven (x / 2 ^ (Int.log 2 x - 52)) : ℚ) ≤ 2 ^ (53 : Nat) := by
    exact_mod_cast r2
  rw [roundF64_of_pos hx]
  constructor
  · calc (2 : ℚ) ^ Int.log 2 x = 2 ^ (52 : Nat) * 2 ^ (Int.log 2 x - 52) := by
          rw [mul_comm]; exact hq.symm
      _ ≤ _ := mul_le_mul_of_nonneg_right r1q (le_of_lt hu)
  · calc (roundHalfEven (x / 2 ^ (Int.log 2 x - 52)) : ℚ) * 2 ^ (Int.log 2 x - 52)
        ≤ 2 ^ (53 : Nat) * 2 ^ (Int.log 2 x - 52) :=
          mul_le_mul_of_nonneg_right r2q (le_of_lt hu)
      _ = 2 ^ (Int.log 2 x + 1) := by
          rw [zpow_add₀ (by norm_num : (2 : ℚ) ≠ 0), zpow_one, ← hq]; ring

theorem roundF64_pos {x : ℚ} (hx : 0 < x) : 0 < roundF64 x :=
  lt_of_lt_of_le (two_zpow_pos _) (roundF64_pos_bounds hx).1

theorem roundF64_mono_pos {x y : ℚ} (hx : 0 < x) (h : x ≤ y) : roundF64 x ≤ roundF64 y := by
  have hy : 0 < y := lt_of_lt_of_le hx h
  rcases lt_or_eq_of_le (Int.log_mono_right (b := 2) hx h) with hlt | heq
  · calc roundF64 x ≤ 2 ^ (Int.log 2 x + 1) := (roundF64_pos_bounds hx).2
      _ ≤ 2 ^ Int.log 2 y := zpow_le_zpow_right₀ (by norm_num) hlt
      _ ≤ roundF64 y := (roundF64_pos_bounds hy).1
  · rw [roundF64_of_pos hx, roundF64_of_pos hy, heq]
    have hu := two_zpow_pos (Int.log 2 y - 52)
    apply mul_le_mul_of_nonneg_right _ (le_of_lt hu)
    have : x / 2 ^ (Int.log 2 y - 52) ≤ y / 2 ^ (Int.log 2 y - 52) :=
      div_le_div_of_nonneg_right h (le_of_lt hu)
    exact_mod_cast roundHalfEven_mono this

/-- Rounding to `float64` is monotone. -/
theorem roundF64_mono {x y : ℚ} (h : x ≤ y) : roundF64 x ≤ roundF64 y := by
  rcases lt_trichotomy 0 x with hx | hx | hx
  · exact roundF64_mono_pos hx h
  · subst hx
    rcases lt_or_eq_of_le h with hy | hy
    · have : roundF64 0 = 0 := by simp [roundF64]
      rw [this]
      exact le_of_lt (roundF64_pos hy)
    · rw [← hy]
  · rcases lt_trichotomy 0 y with hy | hy | hy
    · have h1 : roundF64 x < 0 := by
        have := roundF64_pos (x := -x) (by linarith)
        rw [roundF64_neg] at this
        linarith
      exact le_of_lt (lt_trans h1 (roundF64_pos hy))
    · subst hy
      have h1 : roundF64 x < 0 := by
        have := roundF64_pos (x := -x) (by linarith)
        rw [roundF64_neg] at this
        linarith
      have : roundF64 0 = 0 := by simp [roundF64]
      rw [this]
      exact le_of_lt h1
    · have := roundF64_mono_pos (x := -y) (y := -x) (by linarith) (by linarith)
      rw [roundF64_neg, roundF64_neg] at this
      linarith


/-- Evaluation of a rounding: the binade `e` and the nearest significand `m`. -/
theorem roundF64_of_near (x : ℚ) (e m : Int) (h1 : (2 : ℚ) ^ e ≤ x) (h2 : x < 2 ^ (e + 1))
    (hm1 : (m : ℚ) - 1 / 2 < x / 2 ^ (e - 52)) (hm2 : x / 2 ^ (e - 52) < (m : ℚ) + 1 / 2) :
    roundF64 x = (m : ℚ) * 2 ^ (e - 52) := by
  have hx : 0 < x := lt_of_lt_of_le (two_zpow_pos e) h1
  rw [roundF64_of_pos hx, log_eq_of_bounds e h1 h2, roundHalfEven_of_near _ m hm1 hm2]

/-- A positive number whose scaled significand is an integer is a `float64`. -/
theorem roundF64_exact {x : ℚ} (hx : 0 < x) (m : Int)
    (hm : x / 2 ^ (Int.log 2 x - 52) = (m : ℚ)) : roundF64 x = x := by
  rw [roundF64_of_pos hx, hm, roundHalfEven_intCast, ← hm,
    div_mul_cancel₀ _ (ne_of_gt (two_zpow_pos _))]

/-- The naturals up to `2 ^ 53` are `float64` values. -/
theorem roundF64_natCast (n : Nat) (h : n ≤ 2 ^ 53) : roundF64 (n : ℚ) = n := by
  rcases Nat.eq_zero_or_pos n with h0 | hpos
  · subst h0
    simp [roundF64]
  have hx : (0 : ℚ) < (n : ℚ) := by exact_mod_cast hpos
  obtain ⟨b1, b2⟩ := log_bounds hx
  have hle : Int.log 2 (n : ℚ) ≤ 53 := by
    by_contra hgt
    have h54 : (54 : Int) ≤ Int.log 2 (n : ℚ) := by omega
    have : (2 : ℚ) ^ (54 : Int) ≤ 2 ^ Int.log 2 (n : ℚ) :=
      zpow_le_zpow_right₀ (by norm_num) h54
    have hn : (n : ℚ) ≤ 2 ^ 53 := by exact_mod_cast h
    have : (2 : ℚ) ^ (54 : Int) ≤ 2 ^ 53 := le_trans (le_trans this b1) hn
    norm_num at this
  have h0le : 0 ≤ Int.log 2 (n : ℚ) := by
    rw [Int.log_natCast]
    exact Int.natCast_nonneg _
  rcases lt_or_eq_of_le hle with hlt | heq
  · obtain ⟨k, hk⟩ : ∃ k : Nat, Int.log 2 (n : ℚ) - 52 = -(k : Int) :=
      ⟨(52 - Int.log 2 (n : ℚ)).toNat, by omega⟩
    apply roundF64_exact hx ((n * 2 ^ k : Nat) : Int)
    rw [hk, zpow_neg, zpow_natCast, div_inv_eq_mul]
    push_cast
    ring
  · have hn : (n : ℚ) = 2 ^ 53 := by
      rw [heq] at b1
      have hn : (n : ℚ) ≤ 2 ^ 53 := by exact_mod_cast h
      have : (2 : ℚ) ^ (53 : Int) = 2 ^ 53 := by norm_num
      linarith
    apply roundF64_exact hx ((2 ^ 52 : Nat) : Int)
    rw [heq, hn]
    norm_num

/-- The integers of magnitude up to `2 ^ 53` are `float64` values. -/
theorem roundF64_intCast (n : Int) (h1 : -(2 ^ 53) ≤ n) (h2 : n ≤ 2 ^ 53) :
    roundF64 (n : ℚ) = n := by
  rcases le_or_lt 0 n with hn | hn
  · obtain ⟨k, rfl⟩ := Int.eq_ofNat_of_zero_le hn
    have := roundF64_natCast k (by omega)
    simpa using this
  · obtain ⟨k, hk⟩ := Int.eq_ofNat_of_zero_le (show 0 ≤ -n by omega)
    have := roundF64_natCast k (by omega)
    have e : (n : ℚ) = -((k : Nat) : ℚ) := by
      have : ((-n : Int) : ℚ) = ((k : Int) : ℚ) := by rw [hk]
      push_cast at this
      linarith
    rw [e, roundF64_neg, this]

theorem roundF64_two_pow_53 : roundF64 (2 ^ 53) = 2 ^ 53 := by
  have := roundF64_natCast (2 ^ 53) (le_refl _)
  simpa using this

theorem roundF64_one : roundF64 1 = 1 := by
  have := roundF64_natCast 1 (by norm_num)
  simpa using this

theorem roundF64_zero : roundF64 0 = 0 := by
  simp [roundF64]

/-! ## Lemmas on the least-connections balancer -/

theorem ensureCounter_count (connections : Ptr → Option Int) (server q : Ptr) :
    connCount (ensureCounter connections server) q = connCount connections q := by
  unfold ensureCounter
  cases h : connections server with
  | none =>
    simp only [connCount]
    by_cases hq : q = server
    · subst hq; simp [h]
    · simp [hq]
  | some c => rfl

theorem lcStep_connections (mem : Mem) (weighted : Bool) (acc : LcAcc) (server : Ptr) :
    (lcStep mem weighted acc server).connections = ensureCounter acc.connections server := by
  unfold lcStep
  dsimp only
  split_ifs
  · rfl
  · cases acc.selectedServer with
    | none => rfl
    | some sel =>
      dsimp only
      split_ifs <;> rfl

theorem currentValueOf_weighted (mem : Mem) (acc : LcAcc) (server : Ptr)
    (hw : (mem server).Weight > 0) (connections : Ptr → Option Int)
    (hc : ∀ q, connCount acc.connections q = connCount connections q) :
    currentValueOf mem true (ensureCounter acc.connections server) server =
      floatQuotient mem connections server := by
  unfold currentValueOf
  dsimp only
  rw [if_pos rfl, if_pos hw]
  have := ensureCounter_count acc.connections server server
  unfold connCount at this
  rw [this]
  have := hc server
  unfold connCount at this
  rw [this]
  rfl

/-- With a count below `2 ^ 53` and a positive weight the `float64` quotient is
at most `2 ^ 53`. -/
theorem floatQuotient_le (mem : Mem) (connections : Ptr → Option Int) (p : Ptr)
    (hw : (mem p).Weight > 0) (hc : connCount connections p < 2 ^ 53) :
    floatQuotient mem connections p ≤ 2 ^ 53 := by
  unfold floatQuotient divF64 toF64
  have ha : roundF64 ((connCount connections p : Int) : ℚ) ≤ 2 ^ 53 := by
    rw [← roundF64_two_pow_53]
    apply roundF64_mono
    have : ((connCount connections p : Int) : ℚ) < 2 ^ 53 := by exact_mod_cast hc
    exact le_of_lt this
  have hb : 1 ≤ roundF64 (((mem p).Weight : Int) : ℚ) := by
    rw [← roundF64_one]
    apply roundF64_mono
    exact_mod_cast hw
  rw [← roundF64_two_pow_53]
  apply roundF64_mono
  rcases le_or_lt (roundF64 ((connCount connections p : Int) : ℚ)) 0 with h0 | h0
  · have : roundF64 ((connCount connections p : Int) : ℚ) /
        roundF64 (((mem p).Weight : Int) : ℚ) ≤ 0 :=
      div_nonpos_of_nonpos_of_nonneg h0 (by linarith)
    have h53 : (0 : ℚ) ≤ 2 ^ 53 := by norm_num
    linarith
  · exact le_trans (div_le_self (le_of_lt h0) hb) ha

theorem floatQuotient_lt_maxValue (mem : Mem) (connections : Ptr → Option Int) (p : Ptr)
    (hw : (mem p).Weight > 0) (hc : connCount connections p < 2 ^ 53) :
    floatQuotient mem connections p < maxValue := by
  have := floatQuotient_le mem connections p hw hc
  unfold maxValue
  have h : (2 : ℚ) ^ 53 < 2 ^ 63 - 1 := by norm_num
  linarith

/-- With a count and a weight that `float64` represents, the `float64`
quotient is the rounding of the exact ratio. -/
theorem floatQuotient_eq_round (mem : Mem) (connections : Ptr → Option Int) (p : Ptr)
    (hc1 : -(2 ^ 53) ≤ connCount connections p) (hc2 : connCount connections p ≤ 2 ^ 53)
    (hw1 : -(2 ^ 53) ≤ (mem p).Weight) (hw2 : (mem p).Weight ≤ 2 ^ 53) :
    floatQuotient mem connections p = roundF64 (connQuotient mem connections p) := by
  unfold floatQuotient connQuotient divF64 toF64
  rw [roundF64_intCast _ hc1 hc2, roundF64_intCast _ hw1 hw2]

/-- The first server looked at is selected. -/
theorem lcStep_first (mem : Mem) (connections : Ptr → Option Int) (server : Ptr)
    (hw : (mem server).Weight > 0) (hc : connCount connections server < 2 ^ 53) :
    LcInv mem connections [server]
      (lcStep mem true
        { connections := connections, selectedServer := none, minValue := maxValue } server) := by
  have hv := currentValueOf_weighted mem
    { connections := connections, selectedServer := none, minValue := maxValue } server hw
    connections (fun _ => rfl)
  refine ⟨fun q => by rw [lcStep_connections]; exact ensureCounter_count _ _ _, ?_⟩
  unfold lcStep
  dsimp only at hv ⊢
  rw [hv, if_pos (floatQuotient_lt_maxValue mem connections server hw hc)]
  refine ⟨server, List.mem_singleton_self _, rfl, rfl, ?_⟩
  intro q hq
  rw [List.mem_singleton.1 hq]
  exact ⟨le_refl _, fun _ => le_refl _⟩

/-- A later step of the loop keeps the invariant. -/
theorem lcStep_inv (mem : Mem) (connections : Ptr → Option Int) (seen : List Ptr) (acc : LcAcc)
    (server : Ptr) (hw : (mem server).Weight > 0) (h : LcInv mem connections seen acc) :
    LcInv mem connections (seen ++ [server]) (lcStep mem true acc server) := by
  obtain ⟨hc, s, hs, hsel, hmin, hall⟩ := h
  have hv := currentValueOf_weighted mem acc server hw connections hc
  refine ⟨fun q => by rw [lcStep_connections, ensureCounter_count]; exact hc q, ?_⟩
  unfold lcStep
  dsimp only
  rw [hv, hsel, hmin]
  by_cases hlt : floatQuotient mem connections server < floatQuotient mem connections s
  · rw [if_pos hlt]
    refine ⟨server, by simp, rfl, rfl, ?_⟩
    intro q hq
    rcases List.mem_append.1 hq with hq | hq
    · have := (hall q hq).1
      exact ⟨le_trans (le_of_lt hlt) this, fun heq => absurd (heq ▸ this) (not_le.2 hlt)⟩
    · rw [List.mem_singleton.1 hq]
      exact ⟨le_refl _, fun _ => le_refl _⟩
  · rw [if_neg hlt]
    dsimp only
    by_cases htie : floatQuotient mem connections server = floatQuotient mem connections s ∧
        (mem server).Weight > (mem s).Weight
    · rw [if_pos htie]
      refine ⟨server, by simp, rfl, htie.1.symm, ?_⟩
      intro q hq
      rcases List.mem_append.1 hq with hq | hq
      · have := hall q hq
        refine ⟨by rw [htie.1]; exact this.1, fun heq => ?_⟩
        have := this.2 (by rw [heq, htie.1])
        omega
      · rw [List.mem_singleton.1 hq]
        exact ⟨le_refl _, fun _ => le_refl _⟩
    · rw [if_neg htie]
      refine ⟨s, List.mem_append_left _ hs, rfl, rfl, ?_⟩
      intro q hq
      rcases List.mem_append.1 hq with hq | hq
      · exact hall q hq
      · rw [List.mem_singleton.1 hq]
        refine ⟨not_lt.1 hlt, fun heq => ?_⟩
        by_contra hgt
        exact htie ⟨heq, by omega⟩

theorem lcFold_inv (mem : Mem) (connections : Ptr → Option Int) (rest : List Ptr)
    (hw : ∀ p ∈ rest, (mem p).Weight > 0) (seen : List Ptr) (acc : LcAcc)
    (h : LcInv mem connections seen acc) :
    LcInv mem connections (seen ++ rest) (rest.foldl (lcStep mem true) acc) := by
  induction rest generalizing seen acc with
  | nil => simpa using h
  | cons p rest ih =>
    have := ih (fun q hq => hw q (List.mem_cons_of_mem _ hq)) (seen ++ [p]) _
      (lcStep_inv mem connections seen acc p (hw p (List.mem_cons_self _ _)) h)
    simpa using this

/-- The weighted selection loop over the available servers. -/
theorem lc_weighted_loop (lb : LeastConnectionsLoadBalancer)
    (hc : ∀ p ∈ lb.Servers, connCount lb.connections p < 2 ^ 53)
    (hav : ∃ p ∈ lb.Servers, (lb.mem p).Weight > 0) :
    LcInv lb.mem lb.connections (lb.Servers.filter fun server => (lb.mem server).Weight > 0)
      ((lb.Servers.filter fun server => (lb.mem server).Weight > 0).foldl (lcStep lb.mem true)
        { connections := lb.connections, selectedServer := none, minValue := maxValue }) := by
  have hmem : ∀ p ∈ lb.Servers.filter fun server => (lb.mem server).Weight > 0,
      p ∈ lb.Servers ∧ (lb.mem p).Weight > 0 := by
    intro p hp
    have := List.mem_filter.1 hp
    exact ⟨this.1, by simpa using this.2⟩
  cases hf : (lb.Servers.filter fun server => (lb.mem server).Weight > 0) with
  | nil =>
    obtain ⟨p, hp, hw⟩ := hav
    have : p ∈ lb.Servers.filter fun server => (lb.mem server).Weight > 0 :=
      List.mem_filter.2 ⟨hp, by simpa using hw⟩
    rw [hf] at this
    cases this
  | cons p rest =>
    rw [hf] at hmem
    have hp := hmem p (List.mem_cons_self _ _)
    have := lcFold_inv lb.mem lb.connections rest
      (fun q hq => (hmem q (List.mem_cons_of_mem _ hq)).2) [p] _
      (lcStep_first lb.mem lb.connections p hp.2 (hc p hp.1))
    simpa using this

/-- The result of the weighted mode when some pooled server is available. -/
theorem lc_weighted_result (lb : LeastConnectionsLoadBalancer) (key : String)
    (hweighted : lb.weighted = true)
    (hc : ∀ p ∈ lb.Servers, connCount lb.connections p < 2 ^ 53)
    (hav : ∃ p ∈ lb.Servers, (lb.mem p).Weight > 0) :
    ∃ s, (lb.GetServer key).1 = some s ∧ s ∈ lb.Servers ∧ (lb.mem s).Weight > 0 ∧
      ∀ q ∈ lb.Servers, (lb.mem q).Weight > 0 →
        floatQuotient lb.mem lb.connections s ≤ floatQuotient lb.mem lb.connections q ∧
        (floatQuotient lb.mem lb.connections q = floatQuotient lb.mem lb.connections s →
          (lb.mem q).Weight ≤ (lb.mem s).Weight) := by
  obtain ⟨_, s, hs, hsel, _, hall⟩ := lc_weighted_loop lb hc hav
  have hsf := List.mem_filter.1 hs
  have hne : ¬ (lb.Servers.filter fun server => (lb.mem server).Weight > 0).length = 0 :=
    Nat.ne_of_gt (List.length_pos_of_mem hs)
  refine ⟨s, ?_, hsf.1, by simpa using hsf.2, ?_⟩
  · unfold LeastConnectionsLoadBalancer.GetServer
    dsimp only
    rw [if_neg hne, hweighted, hsel]
  · intro q hq hwq
    exact hall q (List.mem_filter.2 ⟨hq, by simpa using hwq⟩)

/-! ## The rebuilt table as a function of the pool -/

theorem forall2_positions {R : Ptr → Ptr → Prop} {l1 l2 : List Ptr} (h : List.Forall₂ R l1 l2) :
    List.Forall₂ (fun a b => R a b ∧ ∃ k : Nat, l1[k]? = some a ∧ l2[k]? = some b) l1 l2 := by
  induction h with
  | nil => exact List.Forall₂.nil
  | cons hab _ ih =>
    refine List.Forall₂.cons ⟨hab, 0, by simp, by simp⟩ (ih.imp ?_)
    rintro a b ⟨hr, k, h1, h2⟩
    exact ⟨hr, k + 1, by simpa using h1, by simpa using h2⟩

theorem forall2_filter {R : Ptr → Ptr → Prop} {l1 l2 : List Ptr} (f g : Ptr → Bool)
    (h : List.Forall₂ R l1 l2) (hfg : ∀ a b, R a b → f a = g b) :
    List.Forall₂ R (l1.filter f) (l2.filter g) := by
  induction h with
  | nil => exact List.Forall₂.nil
  | @cons a b l1 l2 hab _ ih =>
    have := hfg a b hab
    cases hg : g b with
    | true =>
      rw [hg] at this
      rw [List.filter_cons_of_pos this, List.filter_cons_of_pos hg]
      exact List.Forall₂.cons hab ih
    | false =>
      rw [hg] at this
      rw [List.filter_cons_of_neg (by simp [this]), List.filter_cons_of_neg (by simp [hg])]
      exact ih

theorem forall2_mem {R : Ptr → Ptr → Prop} {l1 l2 : List Ptr} (h : List.Forall₂ R l1 l2) :
    List.Forall₂ (fun a b => R a b ∧ a ∈ l1 ∧ b ∈ l2) l1 l2 := by
  induction h with
  | nil => exact List.Forall₂.nil
  | cons hab _ ih =>
    refine List.Forall₂.cons ⟨hab, List.mem_cons_self _ _, List.mem_cons_self _ _⟩ (ih.imp ?_)
    rintro a b ⟨hr, h1, h2⟩
    exact ⟨hr, List.mem_cons_of_mem _ h1, List.mem_cons_of_mem _ h2⟩

theorem forall2_getElem? {R : Ptr → Ptr → Prop} {l1 l2 : List Ptr} (h : List.Forall₂ R l1 l2)
    (i : Nat) : (l1[i]? = none ∧ l2[i]? = none) ∨
      ∃ x y, l1[i]? = some x ∧ l2[i]? = some y ∧ R x y := by
  induction h generalizing i with
  | nil => exact Or.inl ⟨rfl, rfl⟩
  | @cons a b l1 l2 hab _ ih =>
    cases i with
    | zero => exact Or.inr ⟨a, b, by simp, by simp, hab⟩
    | succ i => simpa using ih i

theorem nodup_index_unique {l : List Ptr} (hnd : l.Nodup) {i j : Nat} {a : Ptr}
    (hi : l[i]? = some a) (hj : l[j]? = some a) : i = j := by
  obtain ⟨hi1, hi2⟩ := List.getElem?_eq_some.1 hi
  obtain ⟨hj1, hj2⟩ := List.getElem?_eq_some.1 hj
  exact (List.Nodup.getElem_inj_iff hnd).1 (hi2.trans hj2.symm)

/-- The available servers of two pools that agree position by position, and
hold no server object twice, correspond one to one. -/
theorem avail_related (lb1 lb2 : MaglevHashLoadBalancer) (hn1 : lb1.Servers.Nodup)
    (hn2 : lb2.Servers.Nodup) (hsame : SamePools lb1 lb2) :
    List.Forall₂
      (SameServer lb1 lb2 (scanServers lb1.mem lb1.Servers 0 Scan.empty)
        (scanServers lb2.mem lb2.Servers 0 Scan.empty))
      (scanServers lb1.mem lb1.Servers 0 Scan.empty).availableServers
      (scanServers lb2.mem lb2.Servers 0 Scan.empty).availableServers := by
  have h1 := forall2_positions hsame
  have h2 := forall2_filter (fun server => decide ((lb1.mem server).Weight > 0))
    (fun server => decide ((lb2.mem server).Weight > 0)) h1
    (fun a b hab => by simp only [hab.1.2])
  rw [← scan_available, ← scan_available] at h2
  refine (forall2_mem h2).imp ?_
  rintro p q ⟨⟨⟨ha, hw⟩, k, hk1, hk2⟩, hp, hq⟩
  have hs1 := scan_sound_index (scan_sound lb1.mem lb1.Servers) hp
  have hs2 := scan_sound_index (scan_sound lb2.mem lb2.Servers) hq
  have e1 := nodup_index_unique hn1 hs1 hk1
  have e2 := nodup_index_unique hn2 hs2 hk2
  exact ⟨ha, hw, by rw [e1, e2], hs1, hs2⟩

theorem permutation_congr (H : HashFns) (lb1 lb2 : MaglevHashLoadBalancer)
    (hts : lb1.tableSize = lb2.tableSize) (i : Nat) (p q : Ptr)
    (hp : lb1.Servers[i]? = some p) (hq : lb2.Servers[i]? = some q)
    (ha : (lb1.mem p).Address = (lb2.mem q).Address)
    (hw : (lb1.mem p).Weight = (lb2.mem q).Weight) :
    permutation H lb1 i = permutation H lb2 i := by
  unfold permutation
  rw [hp, hq]
  dsimp only
  rw [ha, hw, hts]

theorem buildPerms_congr (H : HashFns) (lb1 lb2 : MaglevHashLoadBalancer) (sc1 sc2 : Scan)
    (hts : lb1.tableSize = lb2.tableSize) (l1 l2 : List Ptr)
    (h : List.Forall₂ (SameServer lb1 lb2 sc1 sc2) l1 l2) :
    buildPerms H lb1 sc1 l1 = buildPerms H lb2 sc2 l2 := by
  induction h with
  | nil => rfl
  | @cons p q l1 l2 hpq _ ih =>
    obtain ⟨ha, hw, hi, hp, hq⟩ := hpq
    unfold buildPerms
    rw [ih, permutation_congr H lb1 lb2 hts _ p q hp (hi ▸ hq) ha hw, hi]

theorem pickHeaviest_congr (lb1 lb2 : MaglevHashLoadBalancer) (sc1 sc2 : Scan)
    (l1 l2 : List Ptr) (h : List.Forall₂ (SameServer lb1 lb2 sc1 sc2) l1 l2)
    (cs : List Nat) (maxWeight selectedIndex : Int) :
    pickHeaviest lb1.mem l1 cs maxWeight selectedIndex =
      pickHeaviest lb2.mem l2 cs maxWeight selectedIndex := by
  induction cs generalizing maxWeight selectedIndex with
  | nil => rfl
  | cons c rest ih =>
    unfold pickHeaviest
    rcases forall2_getElem? h c with ⟨h1, h2⟩ | ⟨x, y, h1, h2, hxy⟩
    · rw [h1, h2]
    · rw [h1, h2]
      dsimp only
      rw [hxy.2.1, ih, ih]

theorem selectIndex_congr (lb1 lb2 : MaglevHashLoadBalancer) (sc1 sc2 : Scan)
    (l1 l2 : List Ptr) (h : List.Forall₂ (SameServer lb1 lb2 sc1 sc2) l1 l2) (cs : List Nat) :
    selectIndex lb1.mem l1 cs = selectIndex lb2.mem l2 cs := by
  unfold selectIndex
  rw [pickHeaviest_congr lb1 lb2 sc1 sc2 l1 l2 h]

theorem indexInt_congr (lb1 lb2 : MaglevHashLoadBalancer) (sc1 sc2 : Scan)
    (l1 l2 : List Ptr) (h : List.Forall₂ (SameServer lb1 lb2 sc1 sc2) l1 l2) (i : Int) :
    (indexInt l1 i).map sc1.indexOf = (indexInt l2 i).map sc2.indexOf := by
  unfold indexInt
  split_ifs
  · rfl
  · rcases forall2_getElem? h i.toNat with ⟨h1, h2⟩ | ⟨x, y, h1, h2, hxy⟩
    · rw [h1, h2]
      rfl
    · rw [h1, h2]
      simp only [Option.map_some', hxy.2.2.1]

theorem indexInt_related (lb1 lb2 : MaglevHashLoadBalancer) (sc1 sc2 : Scan)
    (l1 l2 : List Ptr) (h : List.Forall₂ (SameServer lb1 lb2 sc1 sc2) l1 l2) (i : Int) :
    (indexInt l1 i = none ∧ indexInt l2 i = none) ∨
      ∃ x y, indexInt l1 i = some x ∧ indexInt l2 i = some y ∧ SameServer lb1 lb2 sc1 sc2 x y := by
  unfold indexInt
  split_ifs
  · exact Or.inl ⟨rfl, rfl⟩
  · exact forall2_getElem? h i.toNat

theorem greedyLoop_congr (lb1 lb2 : MaglevHashLoadBalancer) (sc1 sc2 : Scan)
    (h : List.Forall₂ (SameServer lb1 lb2 sc1 sc2) sc1.availableServers sc2.availableServers)
    (tableSize : Nat) (perms : List (List Nat)) (fuel : Nat) (g : Greedy) :
    greedyLoop lb1.mem tableSize sc1 perms fuel g =
      greedyLoop lb2.mem tableSize sc2 perms fuel g := by
  induction fuel generalizing g with
  | zero => rfl
  | succ fuel ih =>
    unfold greedyLoop
    rw [h.length_eq]
    split_ifs with hf
    · cases findMinPos tableSize perms g.next (List.range sc2.availableServers.length)
          tableSize with
      | none => rfl
      | some minPos =>
        dsimp only
        split_ifs with hm
        · rfl
        · cases findCandidates tableSize perms g.next minPos
              (List.range sc2.availableServers.length) [] with
          | none => rfl
          | some candidates =>
            dsimp only
            split_ifs with hc
            · rw [selectIndex_congr lb1 lb2 sc1 sc2 _ _ h]
              cases selectIndex lb2.mem sc2.availableServers candidates with
              | none => rfl
              | some selectedIndex =>
                dsimp only
                rcases indexInt_related lb1 lb2 sc1 sc2 _ _ h selectedIndex with
                  ⟨h1, h2⟩ | ⟨x, y, h1, h2, hxy⟩
                · rw [h1, h2]
                · rw [h1, h2]
                  cases indexInt g.next selectedIndex with
                  | none => rfl
                  | some n =>
                    dsimp only
                    rw [hxy.2.2.1]
                    cases assignAt g.lookupTable minPos (sc2.indexOf y : Int) with
                    | none => rfl
                    | some table => exact ih _
            · exact ih g
    · rfl

theorem totalWeightOf_congr (lb1 lb2 : MaglevHashLoadBalancer) (sc1 sc2 : Scan)
    (l1 l2 : List Ptr) (h : List.Forall₂ (SameServer lb1 lb2 sc1 sc2) l1 l2) :
    totalWeightOf lb1.mem l1 = totalWeightOf lb2.mem l2 := by
  induction h with
  | nil => rfl
  | cons hab _ ih =>
    unfold totalWeightOf
    rw [hab.2.1, ih]

theorem pickCumulative_congr (lb1 lb2 : MaglevHashLoadBalancer) (sc1 sc2 : Scan)
    (l1 l2 : List Ptr) (h : List.Forall₂ (SameServer lb1 lb2 sc1 sc2) l1 l2)
    (randomWeight cum : Int) :
    (pickCumulative lb1.mem randomWeight l1 cum).map sc1.indexOf =
      (pickCumulative lb2.mem randomWeight l2 cum).map sc2.indexOf := by
  induction h generalizing cum with
  | nil => rfl
  | cons hab _ ih =>
    unfold pickCumulative
    rw [hab.2.1]
    split_ifs
    · simp only [Option.map_some', hab.2.2.1]
    · exact ih _

theorem fillSlot_congr (H : HashFns) (lb1 lb2 : MaglevHashLoadBalancer) (sc1 sc2 : Scan)
    (h : List.Forall₂ (SameServer lb1 lb2 sc1 sc2) sc1.availableServers sc2.availableServers)
    (i : Nat) (v : Int) :
    fillSlot H lb1.mem sc1 i v = fillSlot H lb2.mem sc2 i v := by
  unfold fillSlot
  split_ifs with hv
  · dsimp only
    rw [totalWeightOf_congr lb1 lb2 sc1 sc2 _ _ h]
    split_ifs with ht
    · have := pickCumulative_congr lb1 lb2 sc1 sc2 _ _ h
        (Int.tmod ((H.murmur3Sum32 (runeString i) % 2 ^ 32 : Nat) : Int)
          (totalWeightOf lb2.mem sc2.availableServers)) 0
      cases h1 : pickCumulative lb1.mem
          (Int.tmod ((H.murmur3Sum32 (runeString i) % 2 ^ 32 : Nat) : Int)
            (totalWeightOf lb2.mem sc2.availableServers)) sc1.availableServers 0 with
      | none =>
        cases h2 : pickCumulative lb2.mem
            (Int.tmod ((H.murmur3Sum32 (runeString i) % 2 ^ 32 : Nat) : Int)
              (totalWeightOf lb2.mem sc2.availableServers)) sc2.availableServers 0 with
        | none => rfl
        | some y => rw [h1, h2] at this; cases this
      | some x =>
        cases h2 : pickCumulative lb2.mem
            (Int.tmod ((H.murmur3Sum32 (runeString i) % 2 ^ 32 : Nat) : Int)
              (totalWeightOf lb2.mem sc2.availableServers)) sc2.availableServers 0 with
        | none => rw [h1, h2] at this; cases this
        | some y =>
          rw [h1, h2] at this
          simp only [Option.map_some', Option.some.injEq] at this
          simp only [this]
    · rcases forall2_getElem? h 0 with ⟨h1, h2⟩ | ⟨x, y, h1, h2, hxy⟩
      · rw [h1, h2]
      · rw [h1, h2]
        simp only [hxy.2.2.1]
  · rfl

theorem fillTable_congr (H : HashFns) (lb1 lb2 : MaglevHashLoadBalancer) (sc1 sc2 : Scan)
    (h : List.Forall₂ (SameServer lb1 lb2 sc1 sc2) sc1.availableServers sc2.availableServers)
    (l : List Int) (i : Nat) :
    fillTable H lb1.mem sc1 l i = fillTable H lb2.mem sc2 l i := by
  induction l generalizing i with
  | nil => rfl
  | cons v rest ih =>
    unfold fillTable
    rw [fillSlot_congr H lb1 lb2 sc1 sc2 h, ih]

/-- Two balancers whose pools agree position by position on address and weight,
and hold no server object twice, get the same table from a rebuild. -/
theorem updateLookupTable_congr (H : HashFns) (lb1 lb2 : MaglevHashLoadBalancer)
    (hts : lb1.tableSize = lb2.tableSize)
    (hlen : lb1.lookupTable.length = lb2.lookupTable.length)
    (hn1 : lb1.Servers.Nodup) (hn2 : lb2.Servers.Nodup) (hsame : SamePools lb1 lb2) :
    (updateLookupTable H lb1).map (fun lb => lb.lookupTable) =
      (updateLookupTable H lb2).map fun lb => lb.lookupTable := by
  have hrel := avail_related lb1 lb2 hn1 hn2 hsame
  have hmap : (lb1.lookupTable.map fun _ => (-1 : Int)) = lb2.lookupTable.map fun _ => (-1 : Int) := by
    rw [List.map_const', List.map_const', hlen]
  unfold updateLookupTable
  rw [hsame.length_eq]
  split_ifs with h0
  · simp only [Option.map_some', hmap]
  · dsimp only
    rw [hrel.length_eq]
    split_ifs with h1
    · simp only [Option.map_some', hmap]
    · rw [buildPerms_congr H lb1 lb2 _ _ hts _ _ hrel]
      cases buildPerms H lb2 (scanServers lb2.mem lb2.Servers 0 Scan.empty)
          (scanServers lb2.mem lb2.Servers 0 Scan.empty).availableServers with
      | none => rfl
      | some perms =>
        dsimp only
        rw [greedyLoop_congr lb1 lb2 _ _ hrel, hts, hmap]
        cases greedyLoop lb2.mem lb2.tableSize (scanServers lb2.mem lb2.Servers 0 Scan.empty)
            perms (lb2.tableSize * 3 / 4 + 1)
            { lookupTable := lb2.lookupTable.map fun _ => -1
              next := List.replicate
                (scanServers lb2.mem lb2.Servers 0 Scan.empty).availableServers.length 0
              filled := 0 } with
        | none => rfl
        | some g =>
          dsimp only
          rw [fillTable_congr H lb1 lb2 _ _ hrel]
          cases fillTable H lb2.mem (scanServers lb2.mem lb2.Servers 0 Scan.empty)
              g.lookupTable 0 with
          | none => rfl
          | some table => rfl

/-- The state left by `AddServer` or `RemoveServer` is the rebuild of a state
with the same pool and the same server objects. -/
theorem rebuild_of_op (H : HashFns) (lb r : MaglevHashLoadBalancer) (s : Ptr)
    (hinv : TableInv lb) (h : lb.AddServer H s = some r ∨ lb.RemoveServer H s = some r) :
    ∃ pre, updateLookupTable H pre = some r ∧ pre.mem = r.mem ∧ pre.Servers = r.Servers ∧
      pre.tableSize = lookupTableSize ∧ pre.lookupTable.length = lookupTableSize := by
  rcases h with h | h
  · unfold MaglevHashLoadBalancer.AddServer at h
    dsimp only at h
    obtain ⟨lb2, h2, hmem, hsrv, _⟩ := updateLookupTable_spec H
      { lb with
        mem := if (lb.mem s).EffectiveWeight = 0 then
            lb.mem.set s { lb.mem s with EffectiveWeight := (lb.mem s).Weight }
          else lb.mem
        Servers := lb.Servers ++ [s] } hinv.len
    rw [h] at h2
    cases h2
    exact ⟨_, h, hmem.symm, hsrv.symm, hinv.size, by rw [← hinv.size]; exact hinv.len⟩
  · unfold MaglevHashLoadBalancer.RemoveServer at h
    obtain ⟨lb2, h2, hmem, hsrv, _⟩ := updateLookupTable_spec H
      { lb with Servers := lb.Servers.erase s } hinv.len
    rw [h] at h2
    cases h2
    exact ⟨_, h, hmem.symm, hsrv.symm, hinv.size, by rw [← hinv.size]; exact hinv.len⟩

/-! ## Lemmas on the plain least-connections mode -/

theorem currentValueOf_plain (mem : Mem) (acc : LcAcc) (server : Ptr)
    (connections : Ptr → Option Int)
    (hc : ∀ q, connCount acc.connections q = connCount connections q) :
    currentValueOf mem false (ensureCounter acc.connections server) server =
      (connCount connections server : ℚ) := by
  unfold currentValueOf
  dsimp only
  have h1 := ensureCounter_count acc.connections server server
  have h2 := hc server
  unfold connCount at h1 h2
  rw [h1, h2]
  simp [connCount]

theorem lcStep_plain_first (mem : Mem) (connections : Ptr → Option Int) (server : Ptr)
    (hc : connCount connections server < 2 ^ 53) :
    LcPlainInv mem connections [server]
      (lcStep mem false
        { connections := connections, selectedServer := none, minValue := maxValue } server) := by
  have hv := currentValueOf_plain mem
    { connections := connections, selectedServer := none, minValue := maxValue } server
    connections (fun _ => rfl)
  refine ⟨fun q => by rw [lcStep_connections]; exact ensureCounter_count _ _ _, ?_⟩
  have hlt : ((connCount connections server : Int) : ℚ) < maxValue := by
    have h2 : ((connCount connections server : Int) : ℚ) < 2 ^ 53 := by exact_mod_cast hc
    unfold maxValue
    linarith
  unfold lcStep
  dsimp only at hv ⊢
  rw [hv, if_pos hlt]
  refine ⟨[], server, [], rfl, rfl, rfl, ?_, ?_⟩
  · intro q hq
    rw [List.mem_singleton.1 hq]
    exact ⟨le_refl _, fun _ => le_refl _⟩
  · intro q hq
    cases hq

theorem lcStep_plain_inv (mem : Mem) (connections : Ptr → Option Int) (seen : List Ptr)
    (acc : LcAcc) (server : Ptr) (h : LcPlainInv mem connections seen acc) :
    LcPlainInv mem connections (seen ++ [server]) (lcStep mem false acc server) := by
  obtain ⟨hc, l1, s, l2, hseen, hsel, hmin, hall, hfirst⟩ := h
  have hv := currentValueOf_plain mem acc server connections hc
  refine ⟨fun q => by rw [lcStep_connections, ensureCounter_count]; exact hc q, ?_⟩
  unfold lcStep
  dsimp only
  rw [hv, hsel, hmin]
  by_cases hlt : ((connCount connections server : Int) : ℚ) < (connCount connections s : ℚ)
  · rw [if_pos hlt]
    have hlt2 : connCount connections server < connCount connections s := by exact_mod_cast hlt
    refine ⟨seen, server, [], rfl, rfl, rfl, ?_, ?_⟩
    · intro q hq
      rcases List.mem_append.1 hq with hq | hq
      · have := (hall q hq).1
        exact ⟨by omega, fun heq => by omega⟩
      · rw [List.mem_singleton.1 hq]
        exact ⟨le_refl _, fun _ => le_refl _⟩
    · intro q hq hcon
      have := (hall q hq).1
      omega
  · rw [if_neg hlt]
    dsimp only
    have hge : connCount connections s ≤ connCount connections server := by
      have := not_lt.1 hlt
      exact_mod_cast this
    by_cases htie : ((connCount connections server : Int) : ℚ) = (connCount connections s : ℚ) ∧
        (mem server).Weight > (mem s).Weight
    · rw [if_pos htie]
      have heq2 : connCount connections server = connCount connections s := by
        exact_mod_cast htie.1
      refine ⟨seen, server, [], rfl, rfl, htie.1.symm, ?_, ?_⟩
      · intro q hq
        rcases List.mem_append.1 hq with hq | hq
        · have := hall q hq
          refine ⟨by omega, fun heq => ?_⟩
          have := this.2 (by omega)
          omega
        · rw [List.mem_singleton.1 hq]
          exact ⟨le_refl _, fun _ => le_refl _⟩
      · intro q hq hcon
        have := (hall q hq).2 (by omega)
        omega
    · rw [if_neg htie]
      refine ⟨l1, s, l2 ++ [server], by rw [hseen]; simp, rfl, rfl, ?_, hfirst⟩
      intro q hq
      rcases List.mem_append.1 hq with hq | hq
      · exact hall q hq
      · rw [List.mem_singleton.1 hq]
        refine ⟨hge, fun heq => ?_⟩
        by_contra hgt
        exact htie ⟨by exact_mod_cast heq, by omega⟩

theorem lcFold_plain_inv (mem : Mem) (connections : Ptr → Option Int) (rest : List Ptr)
    (seen : List Ptr) (acc : LcAcc) (h : LcPlainInv mem connections seen acc) :
    LcPlainInv mem connections (seen ++ rest) (rest.foldl (lcStep mem false) acc) := by
  induction rest generalizing seen acc with
  | nil => simpa using h
  | cons p rest ih =>
    have := ih (seen ++ [p]) _ (lcStep_plain_inv mem connections seen acc p h)
    simpa using this

/-- The plain selection loop over the available servers. -/
theorem lc_plain_loop (lb : LeastConnectionsLoadBalancer)
    (hc : ∀ p ∈ lb.Servers, connCount lb.connections p < 2 ^ 53)
    (hav : ∃ p ∈ lb.Servers, (lb.mem p).Weight > 0) :
    LcPlainInv lb.mem lb.connections (lb.Servers.filter fun server => (lb.mem server).Weight > 0)
      ((lb.Servers.filter fun server => (lb.mem server).Weight > 0).foldl (lcStep lb.mem false)
        { connections := lb.connections, selectedServer := none, minValue := maxValue }) := by
  cases hf : (lb.Servers.filter fun server => (lb.mem server).Weight > 0) with
  | nil =>
    obtain ⟨p, hp, hw⟩ := hav
    have : p ∈ lb.Servers.filter fun server => (lb.mem server).Weight > 0 :=
      List.mem_filter.2 ⟨hp, by simpa using hw⟩
    rw [hf] at this
    cases this
  | cons p rest =>
    have hp : p ∈ lb.Servers := by
      have : p ∈ lb.Servers.filter fun server => (lb.mem server).Weight > 0 := by
        rw [hf]; exact List.mem_cons_self _ _
      exact (List.mem_filter.1 this).1
    have := lcFold_plain_inv lb.mem lb.connections rest [p] _
      (lcStep_plain_first lb.mem lb.connections p (hc p hp))
    simpa using this

theorem filter_split {α : Type} (f : α → Bool) (l l1 l2 : List α) (s : α)
    (h : l.filter f = l1 ++ s :: l2) :
    ∃ m1 m2, l = m1 ++ s :: m2 ∧ m1.filter f = l1 := by
  obtain ⟨a, b, hab, ha, hb⟩ := List.filter_eq_append_iff.1 h
  obtain ⟨c, d, hcd, hc, _, _⟩ := List.filter_eq_cons_iff.1 hb
  refine ⟨a ++ c, d, by rw [hab, hcd]; simp, ?_⟩
  rw [List.filter_append, ha]
  have : c.filter f = [] := by
    rw [List.filter_eq_nil_iff]
    exact hc
  rw [this]; simp

theorem ensureCounter_self (connections : Ptr → Option Int) (server : Ptr) :
    ensureCounter connections server server ≠ none := by
  unfold ensureCounter
  cases h : connections server with
  | none => simp
  | some c => simp [h]

theorem ensureCounter_keeps (connections : Ptr → Option Int) (server q : Ptr)
    (h : connections q ≠ none) : ensureCounter connections server q ≠ none := by
  unfold ensureCounter
  cases hs : connections server with
  | none =>
    dsimp only
    by_cases hq : q = server
    · simp [hq]
    · simpa [hq] using h
  | some c => exact h

/-- After the selection loop every server it looked at has a counter. -/
theorem lcFold_counter (mem : Mem) (weighted : Bool) (rest : List Ptr) (acc : LcAcc) (p : Ptr)
    (h : p ∈ rest ∨ acc.connections p ≠ none) :
    (rest.foldl (lcStep mem weighted) acc).connections p ≠ none := by
  induction rest generalizing acc with
  | nil =>
    rcases h with h | h
    · cases h
    · exact h
  | cons x rest ih =>
    rw [List.foldl_cons]
    apply ih
    rw [lcStep_connections]
    rcases h with h | h
    · rcases List.mem_cons.1 h with h | h
      · right; rw [h]; exact ensureCounter_self _ _
      · left; exact h
    · right; exact ensureCounter_keeps _ _ _ h

/-! ## Lemmas on the counters of the least-connections balancer -/

theorem ensureCounter_nonneg (connections : Ptr → Option Int) (server : Ptr)
    (h : CountersNonneg connections) : CountersNonneg (ensureCounter connections server) := by
  unfold ensureCounter
  cases hs : connections server with
  | none =>
    intro p c hp
    dsimp only at hp
    by_cases hq : p = server
    · rw [if_pos hq] at hp
      cases hp
      exact le_refl _
    · rw [if_neg hq] at hp
      exact h p c hp
  | some c => exact h

theorem lcFold_nonneg (mem : Mem) (weighted : Bool) (rest : List Ptr) (acc : LcAcc)
    (h : CountersNonneg acc.connections) :
    CountersNonneg (rest.foldl (lcStep mem weighted) acc).connections := by
  induction rest generalizing acc with
  | nil => exact h
  | cons x rest ih =>
    rw [List.foldl_cons]
    apply ih
    rw [lcStep_connections]
    exact ensureCounter_nonneg _ _ h

theorem GetServer_nonneg (lb : LeastConnectionsLoadBalancer) (key : String)
    (h : CountersNonneg lb.connections) : CountersNonneg (lb.GetServer key).2.connections := by
  unfold LeastConnectionsLoadBalancer.GetServer
  dsimp only
  split_ifs with hlen
  · exact h
  · have hacc := lcFold_nonneg lb.mem lb.weighted
      (lb.Servers.filter fun server => (lb.mem server).Weight > 0)
      { connections := lb.connections, selectedServer := none, minValue := maxValue } h
    generalize (lb.Servers.filter fun server => (lb.mem server).Weight > 0).foldl
      (lcStep lb.mem lb.weighted)
      { connections := lb.connections, selectedServer := none, minValue := maxValue } = acc
      at hacc ⊢
    cases hsel : acc.selectedServer with
    | none => exact hacc
    | some selected =>
      intro p c hp
      dsimp only at hp
      by_cases hq : p = selected
      · rw [if_pos hq] at hp
        cases hc : acc.connections p with
        | none => rw [hc] at hp; cases hp
        | some d =>
          rw [hc] at hp
          have := hacc p d hc
          simp only [Option.map_some', Option.some.injEq] at hp
          omega
      · rw [if_neg hq] at hp
        exact hacc p c hp

theorem ReleaseConnection_nonneg (lb : LeastConnectionsLoadBalancer) (server : Option Ptr)
    (h : CountersNonneg lb.connections) :
    CountersNonneg (lb.ReleaseConnection server).connections := by
  unfold LeastConnectionsLoadBalancer.ReleaseConnection
  cases server with
  | none => exact h
  | some s =>
    dsimp only
    cases hs : lb.connections s with
    | none => exact h
    | some c =>
      dsimp only
      by_cases hc : c > 0
      · rw [if_pos hc]
        intro p d hp
        dsimp only at hp
        by_cases hq : p = s
        · rw [if_pos hq] at hp
          cases hp
          omega
        · rw [if_neg hq] at hp
          exact h p d hp
      · rw [if_neg hc]
        exact h

theorem LcReachable.nonneg {lb : LeastConnectionsLoadBalancer} (hr : LcReachable lb) :
    CountersNonneg lb.connections := by
  induction hr with
  | new mem weighted => intro p c hp; cases hp
  | addServer server _ ih =>
    intro p c hp
    unfold LeastConnectionsLoadBalancer.AddServer at hp
    dsimp only at hp
    by_cases hq : p = server
    · rw [if_pos hq] at hp
      cases hp
      exact le_refl _
    · rw [if_neg hq] at hp
      exact ih p c hp
  | @removeServer lb server _ ih =>
    intro p c hp
    unfold LeastConnectionsLoadBalancer.RemoveServer at hp
    by_cases hm : server ∈ lb.Servers
    · rw [if_pos hm] at hp
      dsimp only at hp
      by_cases hq : p = server
      · rw [if_pos hq] at hp
        cases hp
      · rw [if_neg hq] at hp
        exact ih p c hp
    · rw [if_neg hm] at hp
      exact ih p c hp
  | getServer key _ ih => exact GetServer_nonneg _ key ih
  | releaseConnection server _ ih => exact ReleaseConnection_nonneg _ server ih
  | mutate mem _ ih => exact ih

/-! ## Lemmas on the plain round-robin mode and on agreeing balancers -/

/-- One `GetServer` call in plain mode at a non-negative index. -/
theorem plain_GetServer (lb : RoundRobinLoadBalancer) (key : String) (c : Nat)
    (hplain : lb.weighted = false) (hne : lb.Servers ≠ []) (hi : lb.currentIndex = (c : Int)) :
    ∃ s, lb.Servers[(c + 1) % lb.Servers.length]? = some s ∧
      lb.GetServer key = some (some s, { lb with currentIndex := ((c + 1 : Nat) : Int) }) := by
  have hpos : 0 < lb.Servers.length := List.length_pos.2 hne
  have hlt : (c + 1) % lb.Servers.length < lb.Servers.length := Nat.mod_lt _ hpos
  refine ⟨lb.Servers[(c + 1) % lb.Servers.length], List.getElem?_eq_getElem hlt, ?_⟩
  unfold RoundRobinLoadBalancer.GetServer
  rw [if_neg (Nat.ne_of_gt hpos), hplain]
  simp only [Bool.not_false, if_true]
  have hmod : Int.tmod (lb.currentIndex + 1) (lb.Servers.length : Int) =
      (((c + 1) % lb.Servers.length : Nat) : Int) := by
    rw [hi]
    have : ((c : Int) + 1) = ((c + 1 : Nat) : Int) := by push_cast; rfl
    rw [this, Int.ofNat_tmod]
  rw [hmod, indexInt_natCast, List.getElem?_eq_getElem hlt, hi]
  rfl

/-- The calls of the plain mode: call `j + 1` returns the server at position
`(c + j + 1) mod n`, where `c` is the index at the start. -/
theorem plain_calls (k : Nat) (lb : RoundRobinLoadBalancer) (c : Nat)
    (hplain : lb.weighted = false) (hne : lb.Servers ≠ []) (hi : lb.currentIndex = (c : Int)) :
    ∃ lb2, lb.calls k = some ((List.range k).map
      (fun j => lb.Servers[(c + j + 1) % lb.Servers.length]?), lb2) ∧
      lb2.Servers = lb.Servers ∧ lb2.weighted = false ∧ lb2.currentIndex = ((c + k : Nat) : Int) := by
  induction k generalizing lb c with
  | zero => exact ⟨lb, rfl, rfl, hplain, by simpa using hi⟩
  | succ k ih =>
    obtain ⟨s, hs, hget⟩ := plain_GetServer lb "" c hplain hne hi
    obtain ⟨lb2, hcalls, h1, h2, h3⟩ := ih { lb with currentIndex := ((c + 1 : Nat) : Int) }
      (c + 1) hplain hne rfl
    refine ⟨lb2, ?_, h1, h2, by rw [h3]; congr 1; omega⟩
    rw [calls_succ lb _ (some s) k hget, hcalls]
    simp only [Option.map_some', Option.some.injEq, Prod.mk.injEq, and_true]
    rw [List.range_succ_eq_map, List.map_cons, List.map_map, ← hs]
    congr 1
    apply List.map_congr_left
    intro j _
    simp only [Function.comp]
    congr 2
    omega

/-- The positions visited by `n` consecutive calls are all the positions. -/
theorem window_positions (n m : Nat) :
    ((List.range n).map (fun j => (m + 1 + j) % n)).Perm (List.range n) := by
  rcases Nat.eq_zero_or_pos n with h0 | hpos
  · subst h0; exact List.Perm.refl _
  have hnd : ((List.range n).map (fun j => (m + 1 + j) % n)).Nodup := by
    apply List.Nodup.map_on _ (List.nodup_range n)
    intro i hi j hj hij
    have hi2 := List.mem_range.1 hi
    have hj2 := List.mem_range.1 hj
    have h1 : i ≡ j [MOD n] := Nat.ModEq.add_left_cancel' (m + 1) hij
    have h2 : i % n = j % n := h1
    rwa [Nat.mod_eq_of_lt hi2, Nat.mod_eq_of_lt hj2] at h2
  have hsub : (List.range n).map (fun j => (m + 1 + j) % n) ⊆ List.range n := by
    intro a ha
    obtain ⟨j, _, rfl⟩ := List.mem_map.1 ha
    exact List.mem_range.2 (Nat.mod_lt _ hpos)
  exact (List.subperm_of_subset hnd hsub).perm_of_length_le (by simp)

theorem bumped_agree (s1 s2 : Server) (h : ServerAgree s1 s2) :
    ServerAgree (bumped s1) (bumped s2) := by
  obtain ⟨h1, h2, h3⟩ := h
  refine ⟨?_, ?_, h3⟩
  · show s1.CurrentWeight + effWeight s1 = s2.CurrentWeight + effWeight s2
    rw [h1, h2]
  · show (if effWeight s1 = 0 then s1.Weight else effWeight s1) =
      (if effWeight s2 = 0 then s2.Weight else effWeight s2)
    rw [h2, h3]

/-- One iteration of the smooth weighted loop on two agreeing memories. -/
theorem wrrStep_agree (S : List Ptr) (a1 a2 : WrrAcc) (server : Ptr) (hs : server ∈ S)
    (hmem : ∀ p ∈ S, ServerAgree (a1.mem p) (a2.mem p))
    (htot : a1.totalWeight = a2.totalWeight) (hbest : a1.bestServer = a2.bestServer)
    (hin : ∀ b, a1.bestServer = some b → b ∈ S) :
    (∀ p ∈ S, ServerAgree ((wrrStep a1 server).mem p) ((wrrStep a2 server).mem p)) ∧
    (wrrStep a1 server).totalWeight = (wrrStep a2 server).totalWeight ∧
    (wrrStep a1 server).bestServer = (wrrStep a2 server).bestServer ∧
    ∀ b, (wrrStep a1 server).bestServer = some b → b ∈ S := by
  have hm : ∀ p ∈ S, ServerAgree ((wrrStep a1 server).mem p) ((wrrStep a2 server).mem p) := by
    intro p hp
    rw [wrrStep_mem, wrrStep_mem]
    by_cases hq : p = server
    · rw [hq, Mem.set_same, Mem.set_same]
      exact bumped_agree _ _ (hmem server hs)
    · rw [Mem.set_other _ _ _ _ hq, Mem.set_other _ _ _ _ hq]
      exact hmem p hp
  refine ⟨hm, ?_, ?_, ?_⟩
  · rw [wrrStep_total, wrrStep_total, htot, (hmem server hs).2.1]
  · rw [wrrStep_best, wrrStep_best, ← hbest]
    cases hb : a1.bestServer with
    | none => rfl
    | some best =>
      dsimp only
      rw [(hm server hs).1, (hm best (hin best hb)).1]
  · intro b hb
    rw [wrrStep_best] at hb
    cases hb1 : a1.bestServer with
    | none =>
      rw [hb1] at hb
      cases hb
      exact hs
    | some best =>
      rw [hb1] at hb
      dsimp only at hb
      split_ifs at hb
      · cases hb; exact hs
      · cases hb; exact hin _ hb1

theorem wrrFold_agree (S : List Ptr) (l : List Ptr) (hl : ∀ p ∈ l, p ∈ S) (a1 a2 : WrrAcc)
    (hmem : ∀ p ∈ S, ServerAgree (a1.mem p) (a2.mem p))
    (htot : a1.totalWeight = a2.totalWeight) (hbest : a1.bestServer = a2.bestServer)
    (hin : ∀ b, a1.bestServer = some b → b ∈ S) :
    (∀ p ∈ S, ServerAgree ((l.foldl wrrStep a1).mem p) ((l.foldl wrrStep a2).mem p)) ∧
    (l.foldl wrrStep a1).totalWeight = (l.foldl wrrStep a2).totalWeight ∧
    (l.foldl wrrStep a1).bestServer = (l.foldl wrrStep a2).bestServer ∧
    ∀ b, (l.foldl wrrStep a1).bestServer = some b → b ∈ S := by
  induction l generalizing a1 a2 with
  | nil => exact ⟨hmem, htot, hbest, hin⟩
  | cons x l ih =>
    obtain ⟨h1, h2, h3, h4⟩ :=
      wrrStep_agree S a1 a2 x (hl x (List.mem_cons_self _ _)) hmem htot hbest hin
    exact ih (fun p hp => hl p (List.mem_cons_of_mem _ hp)) _ _ h1 h2 h3 h4

/-- One `GetServer` call on two agreeing balancers: both panic, or both return
the same server and agree afterwards. -/
theorem GetServer_agree (lb1 lb2 : RoundRobinLoadBalancer) (key : String)
    (h : RrAgree lb1 lb2) :
    (lb1.GetServer key = none ∧ lb2.GetServer key = none) ∨
    ∃ r lb3 lb4, lb1.GetServer key = some (r, lb3) ∧ lb2.GetServer key = some (r, lb4) ∧
      RrAgree lb3 lb4 := by
  obtain ⟨m1, S1, i1, w1⟩ := lb1
  obtain ⟨m2, S2, i2, w2⟩ := lb2
  obtain ⟨hS, hw, hi, hmem⟩ := h
  dsimp only at hS hw hi hmem
  subst hS hw hi
  unfold RoundRobinLoadBalancer.GetServer
  dsimp only
  by_cases hlen : S1.length = 0
  · rw [if_pos hlen, if_pos hlen]
    exact Or.inr ⟨none, _, _, rfl, rfl, rfl, rfl, rfl, hmem⟩
  · rw [if_neg hlen, if_neg hlen]
    cases w1 with
    | false =>
      simp only [Bool.not_false, if_true]
      cases hidx : indexInt S1 (Int.tmod (i1 + 1) (S1.length : Int)) with
      | none => exact Or.inl ⟨rfl, rfl⟩
      | some server => exact Or.inr ⟨some server, _, _, rfl, rfl, rfl, rfl, rfl, hmem⟩
    | true =>
      simp only [Bool.not_true, Bool.false_eq_true, if_false]
      right
      obtain ⟨h1, h2, h3, h4⟩ := wrrFold_agree S1 S1 (fun p hp => hp)
        { mem := m1, totalWeight := 0, bestServer := none }
        { mem := m2, totalWeight := 0, bestServer := none } hmem rfl rfl
        (fun b hb => by cases hb)
      unfold RoundRobinLoadBalancer.getWeighted
      dsimp only
      rw [← h3]
      cases hb : (S1.foldl wrrStep
        { mem := m1, totalWeight := 0, bestServer := none }).bestServer with
      | none =>
        exact ⟨none, _, _, rfl, rfl, rfl, rfl, rfl, h1⟩
      | some best =>
        refine ⟨some best, _, _, rfl, rfl, rfl, rfl, rfl, ?_⟩
        intro p hp
        dsimp only
        by_cases hq : p = best
        · rw [hq, Mem.set_same, Mem.set_same]
          obtain ⟨c1, c2, c3⟩ := h1 best (h4 best hb)
          refine ⟨?_, c2, c3⟩
          show _ - _ = _ - _
          rw [c1, h2]
        · rw [Mem.set_other _ _ _ _ hq, Mem.set_other _ _ _ _ hq]
          exact h1 p hp

/-- Agreeing balancers return the same sequence of servers. -/
theorem results_agree (n : Nat) (lb1 lb2 : RoundRobinLoadBalancer) (h : RrAgree lb1 lb2) :
    lb1.results n = lb2.results n := by
  induction n generalizing lb1 lb2 with
  | zero => rfl
  | succ n ih =>
    unfold RoundRobinLoadBalancer.results
    rcases GetServer_agree lb1 lb2 "" h with ⟨h1, h2⟩ | ⟨r, lb3, lb4, h1, h2, h3⟩
    · rw [RoundRobinLoadBalancer.calls, RoundRobinLoadBalancer.calls, h1, h2]
    · rw [calls_succ lb1 lb3 r n h1, calls_succ lb2 lb4 r n h2]
      have := ih lb3 lb4 h3
      unfold RoundRobinLoadBalancer.results at this
      rw [Option.map_map, Option.map_map]
      cases h5 : lb3.calls n with
      | none =>
        rw [h5] at this
        cases h6 : lb4.calls n with
        | none => rfl
        | some y => rw [h6] at this; cases this
      | some x =>
        rw [h5] at this
        cases h6 : lb4.calls n with
        | none => rw [h6] at this; cases this
        | some y =>
          rw [h6] at this
          simp only [Option.map_some', Option.some.injEq] at this
          simp [this]

/-- The memory after `ResetWeights`. -/
theorem resetFold_mem (l : List Ptr) (mem : Mem) (p : Ptr) :
    (l.foldl resetServer mem) p =
      if p ∈ l then { mem p with CurrentWeight := 0, EffectiveWeight := (mem p).Weight }
      else mem p := by
  induction l generalizing mem with
  | nil => rfl
  | cons x l ih =>
    rw [List.foldl_cons, ih]
    by_cases hx : p = x
    · subst hx
      simp [resetServer, Mem.set]
    · by_cases hl : p ∈ l
      · simp [resetServer, Mem.set, hx, hl]
      · simp [resetServer, Mem.set, hx, hl]

theorem AddServer_agree (lb : RoundRobinLoadBalancer) (server q : Ptr) :
    ServerAgree ((lb.AddServer server).mem q) (lb.mem q) := by
  unfold RoundRobinLoadBalancer.AddServer
  dsimp only
  by_cases h0 : (lb.mem server).EffectiveWeight = 0
  · rw [if_pos h0]
    by_cases hq : q = server
    · subst hq
      rw [Mem.set_same]
      refine ⟨rfl, ?_, rfl⟩
      unfold effWeight
      dsimp only
      rw [if_pos h0]
      split_ifs <;> rfl
    · rw [Mem.set_other _ _ _ _ hq]
      exact ⟨rfl, rfl, rfl⟩
  · rw [if_neg h0]
    exact ⟨rfl, rfl, rfl⟩

/-- A balancer built by successive `AddServer` calls. -/
theorem addFold_spec (l : List Ptr) (lb : RoundRobinLoadBalancer) :
    (l.foldl RoundRobinLoadBalancer.AddServer lb).Servers = lb.Servers ++ l ∧
    (l.foldl RoundRobinLoadBalancer.AddServer lb).weighted = lb.weighted ∧
    (l.foldl RoundRobinLoadBalancer.AddServer lb).currentIndex = lb.currentIndex ∧
    ∀ q, ServerAgree ((l.foldl RoundRobinLoadBalancer.AddServer lb).mem q) (lb.mem q) := by
  induction l generalizing lb with
  | nil => exact ⟨by simp, rfl, rfl, fun q => ⟨rfl, rfl, rfl⟩⟩
  | cons x l ih =>
    obtain ⟨h1, h2, h3, h4⟩ := ih (lb.AddServer x)
    rw [List.foldl_cons]
    refine ⟨by rw [h1]; simp [RoundRobinLoadBalancer.AddServer], by rw [h2]; rfl,
      by rw [h3]; rfl, fun q => ?_⟩
    obtain ⟨a1, a2, a3⟩ := h4 q
    obtain ⟨b1, b2, b3⟩ := AddServer_agree lb x q
    exact ⟨a1.trans b1, a2.trans b2, a3.trans b3⟩

/-- Every sequence of calls completes in weighted mode, and in plain mode from a
non-negative index. -/
theorem calls_total (n : Nat) (lb : RoundRobinLoadBalancer)
    (h : lb.weighted = true ∨ 0 ≤ lb.currentIndex) : ∃ x, lb.calls n = some x := by
  induction n generalizing lb with
  | zero => exact ⟨_, rfl⟩
  | succ n ih =>
    by_cases hlen : lb.Servers.length = 0
    · have hget : lb.GetServer "" = some (none, lb) := by
        unfold RoundRobinLoadBalancer.GetServer
        rw [if_pos hlen]
      obtain ⟨x, hx⟩ := ih lb h
      exact ⟨_, by rw [calls_succ lb lb none n hget, hx]; rfl⟩
    · cases hw : lb.weighted with
      | true =>
        have hget : lb.GetServer "" = some lb.getWeighted := by
          unfold RoundRobinLoadBalancer.GetServer
          rw [if_neg hlen, hw]
          rfl
        have hw2 : lb.getWeighted.2.weighted = true := by
          unfold RoundRobinLoadBalancer.getWeighted
          dsimp only
          split <;> exact hw
        obtain ⟨x, hx⟩ := ih lb.getWeighted.2 (Or.inl hw2)
        exact ⟨_, by rw [calls_succ lb lb.getWeighted.2 lb.getWeighted.1 n hget, hx]; rfl⟩
      | false =>
        have hi : 0 ≤ lb.currentIndex := by
          rcases h with h | h
          · rw [hw] at h; cases h
          · exact h
        have hne : lb.Servers ≠ [] := fun h0 => hlen (by rw [h0]; rfl)
        obtain ⟨lb2, hcalls, _⟩ := plain_calls (n + 1) lb lb.currentIndex.toNat hw hne
          (Int.toNat_of_nonneg hi).symm
        exact ⟨_, hcalls⟩

/-! ## Lemmas on rebuilding the table of an unchanged pool -/

/-- The scan reads the weights only. -/
theorem scanServers_congr (mem1 mem2 : Mem) (l : List Ptr) (i : Nat) (acc : Scan)
    (h : ∀ p ∈ l, (mem1 p).Weight = (mem2 p).Weight) :
    scanServers mem1 l i acc = scanServers mem2 l i acc := by
  induction l generalizing i acc with
  | nil => rfl
  | cons p rest ih =>
    unfold scanServers
    rw [h p (List.mem_cons_self _ _)]
    split_ifs
    · exact ih _ _ (fun q hq => h q (List.mem_cons_of_mem _ hq))
    · exact ih _ _ (fun q hq => h q (List.mem_cons_of_mem _ hq))

/-- The rebuild reads the pool, the table size, the length of the old table and,
of the available servers, the address, the weight and the pool position. -/
theorem updateLookupTable_congr_rel (H : HashFns) (lb1 lb2 : MaglevHashLoadBalancer)
    (hts : lb1.tableSize = lb2.tableSize)
    (hlen : lb1.lookupTable.length = lb2.lookupTable.length)
    (hpool : lb1.Servers.length = lb2.Servers.length)
    (hrel : List.Forall₂
      (SameServer lb1 lb2 (scanServers lb1.mem lb1.Servers 0 Scan.empty)
        (scanServers lb2.mem lb2.Servers 0 Scan.empty))
      (scanServers lb1.mem lb1.Servers 0 Scan.empty).availableServers
      (scanServers lb2.mem lb2.Servers 0 Scan.empty).availableServers) :
    (updateLookupTable H lb1).map (fun lb => lb.lookupTable) =
      (updateLookupTable H lb2).map fun lb => lb.lookupTable := by
  have hmap : (lb1.lookupTable.map fun _ => (-1 : Int)) = lb2.lookupTable.map fun _ => (-1 : Int) := by
    rw [List.map_const', List.map_const', hlen]
  unfold updateLookupTable
  rw [hpool]
  split_ifs with h0
  · simp only [Option.map_some', hmap]
  · dsimp only
    rw [hrel.length_eq]
    split_ifs with h1
    · simp only [Option.map_some', hmap]
    · rw [buildPerms_congr H lb1 lb2 _ _ hts _ _ hrel]
      cases buildPerms H lb2 (scanServers lb2.mem lb2.Servers 0 Scan.empty)
          (scanServers lb2.mem lb2.Servers 0 Scan.empty).availableServers with
      | none => rfl
      | some perms =>
        dsimp only
        rw [greedyLoop_congr lb1 lb2 _ _ hrel, hts, hmap]
        cases greedyLoop lb2.mem lb2.tableSize (scanServers lb2.mem lb2.Servers 0 Scan.empty)
            perms (lb2.tableSize * 3 / 4 + 1)
            { lookupTable := lb2.lookupTable.map fun _ => -1
              next := List.replicate
                (scanServers lb2.mem lb2.Servers 0 Scan.empty).availableServers.length 0
              filled := 0 } with
        | none => rfl
        | some g =>
          dsimp only
          rw [fillTable_congr H lb1 lb2 _ _ hrel]
          cases fillTable H lb2.mem (scanServers lb2.mem lb2.Servers 0 Scan.empty)
              g.lookupTable 0 with
          | none => rfl
          | some table => rfl

/-- Two balancers over the same pool whose pooled servers have the same
addresses and weights get the same table from a rebuild. -/
theorem updateLookupTable_same_pool (H : HashFns) (lb1 lb2 : MaglevHashLoadBalancer)
    (hts : lb1.tableSize = lb2.tableSize)
    (hlen : lb1.lookupTable.length = lb2.lookupTable.length)
    (hpool : lb1.Servers = lb2.Servers)
    (hmem : ∀ p ∈ lb1.Servers, (lb1.mem p).Address = (lb2.mem p).Address ∧
      (lb1.mem p).Weight = (lb2.mem p).Weight) :
    (updateLookupTable H lb1).map (fun lb => lb.lookupTable) =
      (updateLookupTable H lb2).map fun lb => lb.lookupTable := by
  have hsc : scanServers lb1.mem lb1.Servers 0 Scan.empty =
      scanServers lb2.mem lb2.Servers 0 Scan.empty := by
    rw [← hpool]
    exact scanServers_congr _ _ _ _ _ (fun p hp => (hmem p hp).2)
  apply updateLookupTable_congr_rel H lb1 lb2 hts hlen (by rw [hpool])
  rw [← hsc]
  apply List.forall₂_same.2
  intro p hp
  have hs1 := scan_sound_index (scan_sound lb1.mem lb1.Servers) hp
  have hin : p ∈ lb1.Servers := by
    rw [scan_available] at hp
    exact (List.mem_filter.1 hp).1
  exact ⟨(hmem p hin).1, (hmem p hin).2, rfl, hs1, by rw [← hpool]; exact hs1⟩

/-- A rebuild right after a rebuild, the addresses and weights being the same,
changes nothing. -/
theorem updateLookupTable_idempotent (H : HashFns) (pre lb : MaglevHashLoadBalancer) (mem : Mem)
    (hlen : pre.lookupTable.length = pre.tableSize) (hpre : updateLookupTable H pre = some lb)
    (hmem : ∀ p ∈ lb.Servers, (mem p).Address = (lb.mem p).Address ∧
      (mem p).Weight = (lb.mem p).Weight) :
    updateLookupTable H { lb with mem := mem } = some { lb with mem := mem } := by
  obtain ⟨lb2, h2, e1, e2, e3, e4, _⟩ := updateLookupTable_spec H pre hlen
  rw [hpre] at h2
  cases h2
  obtain ⟨r, hr, r1, r2, r3, _⟩ := updateLookupTable_spec H { lb with mem := mem }
    (by show lb.lookupTable.length = lb.tableSize; rw [e4, e3])
  have hc := updateLookupTable_same_pool H { lb with mem := mem } pre e3
    (by show lb.lookupTable.length = pre.lookupTable.length; rw [e4, hlen]) e2
    (fun p hp => by
      have := hmem p hp
      rw [e1] at this
      exact this)
  rw [hr, hpre] at hc
  simp only [Option.map_some', Option.some.injEq] at hc
  rw [hr]
  congr 1
  obtain ⟨a, b, c, d⟩ := r
  dsimp only at r1 r2 r3 hc
  subst r1 r2 r3 hc
  rfl

theorem exampleMaglev_inv : TableInv exampleMaglev :=
  ⟨rfl, by simp [exampleMaglev], fun v hv => by
    rw [List.eq_of_mem_replicate hv]; decide⟩

/-! ## Lemmas on the weighted random draw -/

theorem totalWeightOf_append (mem : Mem) (a b : List Ptr) :
    totalWeightOf mem (a ++ b) = totalWeightOf mem a + totalWeightOf mem b := by
  induction a with
  | nil => simp [totalWeightOf]
  | cons x a ih =>
    rw [List.cons_append]
    simp only [totalWeightOf]
    rw [ih]
    omega

theorem weightBefore_succ (mem : Mem) (servers : List Ptr) (i : Nat) :
    weightBefore mem servers (i + 1) = weightBefore mem servers i +
      match servers[i]? with
      | some p => if (mem p).Weight > 0 then (mem p).Weight else 0
      | none => 0 := by
  unfold weightBefore
  rw [List.take_succ, List.filter_append, totalWeightOf_append]
  congr 1
  cases servers[i]? with
  | none => rfl
  | some p =>
    by_cases h : (mem p).Weight > 0
    · simp [h, totalWeightOf]
    · simp [h, totalWeightOf]

theorem weightBefore_step_nonneg (mem : Mem) (servers : List Ptr) (i : Nat) :
    weightBefore mem servers i ≤ weightBefore mem servers (i + 1) := by
  rw [weightBefore_succ]
  cases servers[i]? with
  | none => simp
  | some p =>
    dsimp only
    split_ifs with h
    · omega
    · omega

theorem weightBefore_mono (mem : Mem) (servers : List Ptr) (j i : Nat) (h : j ≤ i) :
    weightBefore mem servers j ≤ weightBefore mem servers i := by
  induction i with
  | zero =>
    have : j = 0 := by omega
    rw [this]
  | succ i ih =>
    rcases Nat.lt_or_ge j (i + 1) with hlt | hge
    · exact le_trans (ih (by omega)) (weightBefore_step_nonneg mem servers i)
    · have : j = i + 1 := by omega
      rw [this]

theorem weightBefore_zero (mem : Mem) (servers : List Ptr) : weightBefore mem servers 0 = 0 := by
  simp [weightBefore, totalWeightOf]

theorem weightBefore_length (mem : Mem) (servers : List Ptr) :
    weightBefore mem servers servers.length =
      totalWeightOf mem (servers.filter fun server => (mem server).Weight > 0) := by
  simp [weightBefore]

/-- The cumulative loop, with the position at which it stops. -/
theorem pickCumulative_split (mem : Mem) (r : Int) (l : List Ptr) (cum : Int)
    (hcum : cum ≤ r)
    (hr : r < cum + totalWeightOf mem (l.filter fun server => (mem server).Weight > 0)) :
    ∃ l1 p l2, l = l1 ++ p :: l2 ∧ (mem p).Weight > 0 ∧
      cum + totalWeightOf mem (l1.filter fun server => (mem server).Weight > 0) ≤ r ∧
      r < cum + totalWeightOf mem (l1.filter fun server => (mem server).Weight > 0) +
        (mem p).Weight ∧
      pickCumulative mem r (l.filter fun server => (mem server).Weight > 0) cum = some p := by
  induction l generalizing cum with
  | nil =>
    simp only [List.filter_nil, totalWeightOf] at hr
    omega
  | cons x l ih =>
    by_cases hx : (mem x).Weight > 0
    · have hf : ((x :: l).filter fun server => (mem server).Weight > 0) =
          x :: l.filter fun server => (mem server).Weight > 0 := by
        simp [hx]
      rw [hf] at hr ⊢
      by_cases hlt : r < cum + (mem x).Weight
      · refine ⟨[], x, l, rfl, hx, by simpa [totalWeightOf] using hcum,
          by simpa [totalWeightOf] using hlt, ?_⟩
        unfold pickCumulative
        rw [if_pos hlt]
      · simp only [totalWeightOf] at hr
        obtain ⟨l1, p, l2, h1, h2, h3, h4, h5⟩ := ih (cum + (mem x).Weight) (by omega)
          (by omega)
        refine ⟨x :: l1, p, l2, by rw [h1]; rfl, h2, ?_, ?_, ?_⟩
        · simp only [List.filter_cons, hx, decide_True, if_true, totalWeightOf]
          omega
        · simp only [List.filter_cons, hx, decide_True, if_true, totalWeightOf]
          omega
        · unfold pickCumulative
          rw [if_neg hlt]
          exact h5
    · have hf : ((x :: l).filter fun server => (mem server).Weight > 0) =
          l.filter fun server => (mem server).Weight > 0 := by
        simp [hx]
      rw [hf] at hr ⊢
      obtain ⟨l1, p, l2, h1, h2, h3, h4, h5⟩ := ih cum hcum hr
      refine ⟨x :: l1, p, l2, by rw [h1]; rfl, h2, ?_, ?_, h5⟩
      · simpa [hx] using h3
      · simpa [hx] using h4

theorem totalWeightOf_filter_nonneg (mem : Mem) (l : List Ptr) :
    0 ≤ totalWeightOf mem (l.filter fun server => (mem server).Weight > 0) := by
  induction l with
  | nil => simp [totalWeightOf]
  | cons x l ih =>
    by_cases hx : (mem x).Weight > 0
    · simp only [List.filter_cons, hx, decide_True, if_true, totalWeightOf]
      omega
    · simpa [hx] using ih

theorem totalWeightOf_filter_pos (mem : Mem) (l : List Ptr)
    (h : (l.filter fun server => (mem server).Weight > 0) ≠ []) :
    0 < totalWeightOf mem (l.filter fun server => (mem server).Weight > 0) := by
  induction l with
  | nil => exact absurd rfl h
  | cons x l ih =>
    have hnn := totalWeightOf_filter_nonneg mem l
    by_cases hx : (mem x).Weight > 0
    · simp only [List.filter_cons, hx, decide_True, if_true, totalWeightOf]
      omega
    · have hf : ((x :: l).filter fun server => (mem server).Weight > 0) =
          l.filter fun server => (mem server).Weight > 0 := by
        simp [hx]
      rw [hf] at h ⊢
      exact ih h

/-- The number of naturals below `n` in the interval `[a, b)`. -/
theorem range_filter_interval (n a b : Nat) (hab : a ≤ b) :
    ((List.range n).filter fun x => decide (a ≤ x ∧ x < b)).length = min b n - min a n := by
  induction n with
  | zero => simp
  | succ n ih =>
    rw [List.range_succ, List.filter_append, List.length_append, ih]
    by_cases h : a ≤ n ∧ n < b
    · simp only [List.filter_cons, h, and_self, decide_True, if_true, List.filter_nil,
        List.length_singleton]
      omega
    · simp only [List.filter_cons, h, decide_False, List.filter_nil, List.length_nil]
      simp only [Bool.false_eq_true, if_false, List.length_nil]
      omega

/-- The draws that select a position form an interval of as many values as the
weight of the server there. -/
theorem selects_count (mem : Mem) (servers : List Ptr) (i : Nat) (p : Ptr)
    (hp : servers[i]? = some p) :
    ((List.range
        (totalWeightOf mem (servers.filter fun server => (mem server).Weight > 0)).toNat).filter
      fun x : Nat => selects mem servers (x : Int) i).length =
      if (mem p).Weight > 0 then (mem p).Weight.toNat else 0 := by
  have hlt : i < servers.length := by
    rcases Nat.lt_or_ge i servers.length with h | h
    · exact h
    · rw [List.getElem?_eq_none h] at hp; cases hp
  have h0 : 0 ≤ weightBefore mem servers i := by
    have := weightBefore_mono mem servers 0 i (Nat.zero_le _)
    rwa [weightBefore_zero] at this
  have hT : weightBefore mem servers (i + 1) ≤
      totalWeightOf mem (servers.filter fun server => (mem server).Weight > 0) := by
    rw [← weightBefore_length]
    exact weightBefore_mono mem servers _ _ hlt
  have hs := weightBefore_succ mem servers i
  rw [hp] at hs
  dsimp only at hs
  by_cases hw : (mem p).Weight > 0
  · rw [if_pos hw] at hs ⊢
    have hpred : ∀ x ∈ List.range
        (totalWeightOf mem (servers.filter fun server => (mem server).Weight > 0)).toNat,
        selects mem servers (x : Int) i =
          decide ((weightBefore mem servers i).toNat ≤ x ∧
            x < (weightBefore mem servers (i + 1)).toNat) := by
      intro x _
      unfold selects
      rw [hp]
      dsimp only
      apply decide_eq_decide.2
      constructor
      · rintro ⟨_, h1, h2⟩
        omega
      · rintro ⟨h1, h2⟩
        exact ⟨hw, by omega, by omega⟩
    rw [List.filter_congr hpred, range_filter_interval _ _ _ (by omega)]
    omega
  · rw [if_neg hw]
    have hpred : ∀ x ∈ List.range
        (totalWeightOf mem (servers.filter fun server => (mem server).Weight > 0)).toNat,
        selects mem servers (x : Int) i = false := by
      intro x _
      unfold selects
      rw [hp]
      simp [hw]
    rw [List.filter_congr hpred]
    simp

/-- A value inside the `int` range is not changed by wrapping. -/
theorem wrapInt_of_range (n : Int) (h1 : -(2 ^ 63) ≤ n) (h2 : n < 2 ^ 63) : wrapInt n = n := by
  unfold wrapInt
  omega

theorem totalWeightOf_nonneg (mem : Mem) (l : List Ptr) (hw : ∀ p ∈ l, (mem p).Weight > 0) :
    0 ≤ totalWeightOf mem l := by
  induction l with
  | nil => simp [totalWeightOf]
  | cons x l ih =>
    have h1 := hw x (List.mem_cons_self _ _)
    have h2 := ih (fun p hp => hw p (List.mem_cons_of_mem _ hp))
    simp only [totalWeightOf]
    omega

/-- Without overflow the wrapping sum of `random.go` is the exact sum. -/
theorem sumWeights_eq (mem : Mem) (l : List Ptr) (hw : ∀ p ∈ l, (mem p).Weight > 0)
    (acc : Int) (hacc : 0 ≤ acc) (hlt : acc + totalWeightOf mem l < 2 ^ 63) :
    sumWeights mem l acc = acc + totalWeightOf mem l := by
  induction l generalizing acc with
  | nil => simp [sumWeights, totalWeightOf]
  | cons x l ih =>
    have h1 := hw x (List.mem_cons_self _ _)
    have h2 := totalWeightOf_nonneg mem l (fun p hp => hw p (List.mem_cons_of_mem _ hp))
    simp only [totalWeightOf] at hlt
    simp only [sumWeights, totalWeightOf]
    rw [wrapInt_of_range _ (by omega) (by omega),
      ih (fun p hp => hw p (List.mem_cons_of_mem _ hp)) _ (by omega) (by omega)]
    omega

/-- Without overflow the wrapping cumulative loop of `random.go` is the exact one. -/
theorem pickDraw_eq (mem : Mem) (r : Int) (l : List Ptr) (hw : ∀ p ∈ l, (mem p).Weight > 0)
    (acc : Int) (hacc : 0 ≤ acc) (hlt : acc + totalWeightOf mem l < 2 ^ 63) :
    pickDraw mem r l acc = pickCumulative mem r l acc := by
  induction l generalizing acc with
  | nil => simp [pickDraw, pickCumulative]
  | cons x l ih =>
    have h1 := hw x (List.mem_cons_self _ _)
    have h2 := totalWeightOf_nonneg mem l (fun p hp => hw p (List.mem_cons_of_mem _ hp))
    simp only [totalWeightOf] at hlt
    simp only [pickDraw, pickCumulative]
    rw [wrapInt_of_range _ (by omega) (by omega),
      ih (fun p hp => hw p (List.mem_cons_of_mem _ hp)) _ (by omega) (by omega)]

theorem filter_weight_pos (mem : Mem) (l : List Ptr) :
    ∀ p ∈ l.filter fun server => (mem server).Weight > 0, (mem p).Weight > 0 := by
  intro p hp
  simpa using (List.mem_filter.1 hp).2

/-! ## Lemmas on the phases of the rebuild, on probing and on the permutations -/

/-- With a server available the greedy loop stops only when `filled` has
reached three quarters of the table size; `filled` counts its iterations. -/
theorem greedyLoop_filled (mem : Mem) (tableSize : Nat) (sc : Scan) (perms : List (List Nat))
    (hp : PermsOK tableSize sc.availableServers.length perms)
    (hw : ∀ p ∈ sc.availableServers, (mem p).Weight > 0)
    (hne : sc.availableServers ≠ [])
    (fuel : Nat) (g g' : Greedy) (hg : GreedyInv tableSize sc.availableServers.length g)
    (hfill : g.filled ≤ tableSize * 3 / 4)
    (hrun : greedyLoop mem tableSize sc perms fuel g = some g') :
    g'.filled = tableSize * 3 / 4 := by
  induction fuel generalizing g with
  | zero => simp [greedyLoop] at hrun
  | succ fuel ih =>
    unfold greedyLoop at hrun
    by_cases hlt : g.filled < tableSize * 3 / 4
    · have hf : g.filled < tableSize := by omega
      simp only [hlt, if_true] at hrun
      obtain ⟨m, hm, _, hsrc, hmin⟩ := findMinPos_ok hp hg hf
        (List.range sc.availableServers.length) (fun i hi => List.mem_range.1 hi) tableSize
      simp only [hm] at hrun
      have hpos : 0 < sc.availableServers.length := List.length_pos.2 hne
      obtain ⟨v0, hv0, hv0lt, _⟩ := cursor_ok hp hg hf hpos
      have hmlt : m < tableSize :=
        lt_of_le_of_lt (hmin 0 (List.mem_range.2 hpos) v0 hv0) hv0lt
      have hmt : m ≠ tableSize := Nat.ne_of_lt hmlt
      simp only [hmt, if_false] at hrun
      rcases hsrc with h | ⟨i, hi, hci⟩
      · exact absurd h hmt
      obtain ⟨v, hv, hvlt, perm, hperm, hvperm⟩ := cursor_ok hp hg hf (List.mem_range.1 hi)
      have hvm : v = m := by rw [hv] at hci; simpa using hci
      subst hvm
      obtain ⟨cs, hcs, hsub, _, hall⟩ := findCandidates_ok hp hg hf v
        (List.range sc.availableServers.length) (fun i hi => List.mem_range.1 hi) []
      have hne2 : cs ≠ [] := List.ne_nil_of_mem (hall i hi hci)
      have hcslt : ∀ c ∈ cs, c < sc.availableServers.length := by
        intro c hc
        rcases hsub c hc with h | h
        · simp at h
        · exact List.mem_range.1 h
      have hlen : cs.length > 0 := List.length_pos.2 hne2
      simp only [hcs, hlen, if_true] at hrun
      obtain ⟨c, hc, hsel⟩ := selectIndex_ok mem sc.availableServers cs hw hcslt hne2
      have hca := hcslt c hc
      have hcn : c < g.next.length := by rw [hg.next_len]; exact hca
      have hvt : v < g.lookupTable.length := by rw [hg.table_len]; exact hvlt
      simp only [hsel, indexInt_natCast, List.getElem?_eq_getElem hca,
        List.getElem?_eq_getElem hcn, assignAt, hvt, if_true, Int.toNat_ofNat] at hrun
      have hg2 : GreedyInv tableSize sc.availableServers.length
          { lookupTable := g.lookupTable.set v (sc.indexOf sc.availableServers[c] : Int)
            next := g.next.set c (g.next[c] + 1)
            filled := g.filled + 1 } := by
        refine ⟨by simp [hg.table_len], by simp [hg.next_len], ?_⟩
        intro x hx
        rcases List.mem_or_eq_of_mem_set hx with h | h
        · exact Nat.le_succ_of_le (hg.next_le x h)
        · have := hg.next_le _ (List.getElem_mem hcn)
          simp only [h]; omega
      exact ih _ hg2 (by simp only; omega) hrun
    · simp only [hlt, if_false] at hrun
      cases hrun
      omega

theorem AddServer_eq (H : HashFns) (lb : MaglevHashLoadBalancer) (server : Ptr) :
    lb.AddServer H server = updateLookupTable H (lb.appendServer server) := rfl

/-- The permutations and the greedy loop of a rebuild with a server available:
both complete, the loop within `tableSize * 3 / 4` iterations, which `filled`
counts, and no cursor gets past that number. -/
theorem greedy_phase (H : HashFns) (lb : MaglevHashLoadBalancer)
    (hlen : lb.lookupTable.length = lb.tableSize)
    (hav : (scanServers lb.mem lb.Servers 0 Scan.empty).availableServers ≠ []) :
    ∃ perms g,
      buildPerms H lb (scanServers lb.mem lb.Servers 0 Scan.empty)
        (scanServers lb.mem lb.Servers 0 Scan.empty).availableServers = some perms ∧
      PermsOK lb.tableSize
        (scanServers lb.mem lb.Servers 0 Scan.empty).availableServers.length perms ∧
      greedyLoop lb.mem lb.tableSize (scanServers lb.mem lb.Servers 0 Scan.empty) perms
        (lb.tableSize * 3 / 4 + 1)
        (greedyStart lb (scanServers lb.mem lb.Servers 0 Scan.empty)) = some g ∧
      g.filled = lb.tableSize * 3 / 4 ∧
      (∀ x ∈ g.next, x ≤ lb.tableSize * 3 / 4) ∧
      g.next.length = (scanServers lb.mem lb.Servers 0 Scan.empty).availableServers.length ∧
      g.lookupTable.length = lb.tableSize ∧
      ∀ t, (∀ perm ∈ perms, t ∉ perm) →
        g.lookupTable[t]? = (lb.lookupTable.map fun _ => (-1 : Int))[t]? := by
  have hl : ∀ p ∈ (scanServers lb.mem lb.Servers 0 Scan.empty).availableServers,
      lb.Servers[(scanServers lb.mem lb.Servers 0 Scan.empty).indexOf p]? = some p :=
    fun p hp => scan_sound_index (scan_sound lb.mem lb.Servers) hp
  have hw : ∀ p ∈ (scanServers lb.mem lb.Servers 0 Scan.empty).availableServers,
      (lb.mem p).Weight > 0 := by
    intro p hp
    rw [scan_available] at hp
    simpa using (List.mem_filter.1 hp).2
  obtain ⟨perms, hperms, hok⟩ := buildPerms_ok H lb _ _ hl
  have hg0 : GreedyInv lb.tableSize
      (scanServers lb.mem lb.Servers 0 Scan.empty).availableServers.length
      (greedyStart lb (scanServers lb.mem lb.Servers 0 Scan.empty)) :=
    ⟨by simp [greedyStart, hlen], by simp [greedyStart], fun x hx => by
      rw [List.eq_of_mem_replicate hx]; exact Nat.zero_le _⟩
  obtain ⟨g, hrun, hinv, _, hkeep⟩ := greedyLoop_ok lb.mem lb.tableSize _ perms hok hw
    (lb.tableSize * 3 / 4 + 1) _ hg0 (Nat.zero_le _) (by simp [greedyStart])
  have hfilled := greedyLoop_filled lb.mem lb.tableSize _ perms hok hw hav _ _ g hg0
    (Nat.zero_le _) hrun
  exact ⟨perms, g, hperms, hok, hrun, hfilled, fun x hx => by
    rw [← hfilled]; exact hinv.next_le x hx, hinv.next_len, hinv.table_len, hkeep⟩

/-- One step of the probing loop. -/
theorem probe_cons (lb : MaglevHashLoadBalancer) (hlen : lb.lookupTable.length = lb.tableSize)
    (hts : 0 < lb.tableSize) (index offset : Nat) (rest : List Nat) :
    probe lb index (offset :: rest) =
      match usableOwner lb ((index + offset) % lb.tableSize) with
      | some p => some (some p)
      | none => probe lb index rest := by
  have hi : (index + offset) % lb.tableSize < lb.lookupTable.length := by
    rw [hlen]; exact Nat.mod_lt _ hts
  rw [probe]
  unfold usableOwner
  rw [List.getElem?_eq_getElem hi]
  dsimp only
  split_ifs with hr
  · obtain ⟨x, _, hidx⟩ := indexInt_of_range lb.Servers _ hr.1 hr.2
    rw [hidx]
    dsimp only
    split_ifs <;> rfl
  · rfl

/-- The probing loop returns the owner of the first usable slot it looks at. -/
theorem probe_first (lb : MaglevHashLoadBalancer) (hlen : lb.lookupTable.length = lb.tableSize)
    (hts : 0 < lb.tableSize) (index : Nat) (l1 : List Nat) (offset : Nat) (l2 : List Nat)
    (p : Ptr) (h1 : ∀ o ∈ l1, usableOwner lb ((index + o) % lb.tableSize) = none)
    (h2 : usableOwner lb ((index + offset) % lb.tableSize) = some p) :
    probe lb index (l1 ++ offset :: l2) = some (some p) := by
  induction l1 with
  | nil => rw [List.nil_append, probe_cons lb hlen hts, h2]
  | cons o l1 ih =>
    rw [List.cons_append, probe_cons lb hlen hts, h1 o (List.mem_cons_self _ _)]
    exact ih (fun o2 ho2 => h1 o2 (List.mem_cons_of_mem _ ho2))

theorem probe_none (lb : MaglevHashLoadBalancer) (hlen : lb.lookupTable.length = lb.tableSize)
    (hts : 0 < lb.tableSize) (index : Nat) (l : List Nat)
    (h : ∀ o ∈ l, usableOwner lb ((index + o) % lb.tableSize) = none) :
    probe lb index l = some none := by
  induction l with
  | nil => rfl
  | cons o l ih =>
    rw [probe_cons lb hlen hts, h o (List.mem_cons_self _ _)]
    exact ih (fun o2 ho2 => h o2 (List.mem_cons_of_mem _ ho2))

/-- When the owner at the key's slot is not usable, `GetServer` takes the
probing path. -/
theorem GetServer_unusable (H : HashFns) (lb : MaglevHashLoadBalancer) (key : String)
    (hlen : lb.lookupTable.length = lb.tableSize) (hts : 0 < lb.tableSize)
    (hge : ∀ v ∈ lb.lookupTable, -1 ≤ v) (hne : lb.Servers ≠ [])
    (h : usableOwner lb (u64 (H.murmur3Sum64 key) % lb.tableSize) = none) :
    lb.GetServer H key =
      resolveUnusable lb (u64 (H.murmur3Sum64 key)) (u64 (H.murmur3Sum64 key) % lb.tableSize) := by
  have hi : u64 (H.murmur3Sum64 key) % lb.tableSize < lb.lookupTable.length := by
    rw [hlen]; exact Nat.mod_lt _ hts
  have h0 : ¬ lb.Servers.length = 0 := fun h0 => hne (List.length_eq_zero.1 h0)
  unfold MaglevHashLoadBalancer.GetServer
  rw [if_neg h0]
  dsimp only
  unfold usableOwner at h
  rw [List.getElem?_eq_getElem hi] at h ⊢
  dsimp only at h ⊢
  split_ifs with hbad
  · rfl
  · have hv := hge _ (List.getElem_mem hi)
    have hr : lb.lookupTable[u64 (H.murmur3Sum64 key) % lb.tableSize] ≥ 0 ∧
        lb.lookupTable[u64 (H.murmur3Sum64 key) % lb.tableSize] < lb.Servers.length := by
      constructor <;> omega
    rw [if_pos hr] at h
    obtain ⟨x, _, hidx⟩ := indexInt_of_range lb.Servers _ hr.1 hr.2
    rw [hidx] at h ⊢
    dsimp only at h ⊢
    by_cases hw : (lb.mem x).Weight > 0
    · rw [if_pos hw] at h; cases h
    · rw [if_pos (by omega)]

theorem range'_split (o : Nat) (h1 : 1 ≤ o) (h19 : o ≤ 19) :
    List.range' 1 19 = List.range' 1 (o - 1) ++ o :: List.range' (o + 1) (19 - o) := by
  have h := List.range'_append_1 1 (o - 1) (19 - o + 1)
  have e1 : 19 - o + 1 + (o - 1) = 19 := by omega
  have e2 : 1 + (o - 1) = o := by omega
  rw [e1, e2] at h
  rw [← h, List.range'_succ]

/-- Under such hash functions the permutation of a server whose address has as
many characters as its weight is constantly `0`. -/
theorem constant_permutation (H : HashFns) (hH : DegenerateOnKeys H)
    (lb : MaglevHashLoadBalancer) (idx : Nat) (p : Ptr)
    (hts : lb.tableSize = lookupTableSize) (hp : lb.Servers[idx]? = some p)
    (hw : (lb.mem p).Weight = ((lb.mem p).Address.length : Int))
    (h1 : 1 ≤ (lb.mem p).Address.length) (h2 : (lb.mem p).Address.length ≤ 1000)
    (perm : List Nat) (h : permutation H lb idx = some perm) :
    ∀ v ∈ perm, v = 0 := by
  simp only [permutation, hp, Option.some.injEq] at h
  subst h
  intro v hv
  simp only [List.mem_map, List.mem_range] at hv
  obtain ⟨i, hi, rfl⟩ := hv
  have hkey : ((lb.mem p).Address ++ ":" ++ runeString idx).length =
      (lb.mem p).Address.length + 2 := by
    rw [String.length_append, String.length_append, runeString_length]
    rfl
  have hwpos : ¬ (lb.mem p).Weight ≤ 0 := by rw [hw]; omega
  obtain ⟨e1, e2⟩ := hH ((lb.mem p).Address ++ ":" ++ runeString idx) (by rw [hkey]; omega)
  rw [if_neg hwpos, hw, e1, e2, hkey]
  rw [hts] at hi ⊢
  unfold lookupTableSize at hi ⊢
  have hoff : u64 0 % 65537 = 0 := rfl
  have hskip : u64 (65538 - ((lb.mem p).Address.length + 2)) % (65537 - 1) + 1 =
      65537 - (lb.mem p).Address.length := by
    unfold u64
    omega
  rw [hoff, hskip]
  exact permEntry_degenerate 65537 0 _ i (by omega) (by omega) (by omega)

/-- The rebuild, under such hash functions, of a pool of servers whose address
lengths are their weights: every slot but slot `0` is filled by the fallback. -/
theorem constant_rebuild (H : HashFns) (hH : DegenerateOnKeys H) (mem : Mem)
    (servers : List Ptr) (table : List Int)
    (hlen : table.length = lookupTableSize) (hne : servers ≠ [])
    (hgood : ∀ p ∈ servers, (mem p).Weight = ((mem p).Address.length : Int) ∧
      1 ≤ (mem p).Address.length ∧ (mem p).Address.length ≤ 1000) :
    ∃ table2,
      updateLookupTable H
        { mem := mem, Servers := servers, lookupTable := table, tableSize := lookupTableSize } =
        some { mem := mem, Servers := servers, lookupTable := table2,
               tableSize := lookupTableSize } ∧
      table2.length = lookupTableSize ∧
      ∀ t, 0 < t → t < lookupTableSize → ∃ w, table2[t]? = some w ∧
        fillSlot H mem (scanServers mem servers 0 Scan.empty) t (-1) = some w := by
  have hsub : ∀ p ∈ (scanServers mem servers 0 Scan.empty).availableServers, p ∈ servers := by
    intro p hp
    rw [scan_available] at hp
    exact (List.mem_filter.1 hp).1
  have hav : (scanServers mem servers 0 Scan.empty).availableServers ≠ [] := by
    rw [scan_available]
    cases servers with
    | nil => exact absurd rfl hne
    | cons p rest =>
      have hp := (hgood p (List.mem_cons_self _ _))
      have : (mem p).Weight > 0 := by rw [hp.1]; omega
      exact List.ne_nil_of_mem (List.mem_filter.2 ⟨List.mem_cons_self _ _, by simpa using this⟩)
  obtain ⟨perms, g, table2, hperms, _, hkeep, _, htlen, hfill, hupd⟩ :=
    updateLookupTable_available H
      { mem := mem, Servers := servers, lookupTable := table, tableSize := lookupTableSize }
      hlen hav
  refine ⟨table2, hupd, htlen, fun t ht ht2 => ?_⟩
  have hnot : ∀ perm ∈ perms, t ∉ perm := by
    intro perm hp hmem
    obtain ⟨p, hpa, hpp⟩ := buildPerms_mem H _ _ _ perms hperms perm hp
    have hg := hgood p (hsub p hpa)
    have := constant_permutation H hH _ _ p rfl
      (scan_sound_index (scan_sound mem servers) hpa) hg.1 hg.2.1 hg.2.2 perm hpp t hmem
    omega
  exact hfill t (-1) (hkeep t ht2 hnot)

theorem probeHash_degenerate : DegenerateOnKeys probeHash := by
  intro s hs
  constructor
  · show (if s.length = 1 then 1 else if s.length = 2 then 2 else 0) = 0
    rw [if_neg (by omega), if_neg (by omega)]
  · rfl


/-- `AddServer` on the example memory under `probeHash`: every slot but slot `0`
of the rebuilt table is a fallback slot. -/
theorem probe_AddServer (servers : List Ptr) (table : List Int)
    (hlen : table.length = lookupTableSize) (server : Ptr) :
    ∃ table2,
      MaglevHashLoadBalancer.AddServer probeHash
        { mem := exampleMem, Servers := servers, lookupTable := table,
          tableSize := lookupTableSize } server =
        some { mem := exampleMem, Servers := servers ++ [server], lookupTable := table2,
               tableSize := lookupTableSize } ∧
      table2.length = lookupTableSize ∧
      ∀ t, 0 < t → t < lookupTableSize → ∃ w, table2[t]? = some w ∧
        fillSlot probeHash exampleMem
          (scanServers exampleMem (servers ++ [server]) 0 Scan.empty) t (-1) = some w := by
  obtain ⟨table2, hupd, hl2, hall⟩ := constant_rebuild probeHash probeHash_degenerate exampleMem
    (servers ++ [server]) table hlen (by simp) (fun p _ => exampleMem_good p)
  refine ⟨table2, ?_, hl2, hall⟩
  unfold MaglevHashLoadBalancer.AddServer
  simp only [if_neg (exampleMem_effective server)]
  exact hupd

/-- The fallback draw of a slot other than slot 21 lands on the first server. -/
theorem probe_fill_other (t : Nat) (h1 : 1 ≤ t) (h20 : t ≤ 20) :
    fillSlot probeHash exampleMem (scanServers exampleMem [0, 1, 2] 0 Scan.empty) t (-1) =
      some 0 := by
  interval_cases t <;> decide

/-- The fallback draw of slot 21 lands on the second server. -/
theorem probe_fill_21 :
    fillSlot probeHash exampleMem (scanServers exampleMem [0, 1, 2] 0 Scan.empty) 21 (-1) =
      some 1 := by
  decide

/-- A reachable state for the probing example: the servers `0`, `1`, `2` were
added, then the weight of server `0` was set to `0`; the slots `1` to `20` belong
to server `0`, slot `21` to server `1`. -/
theorem probe_state :
    ∃ lb, Reachable probeHash lb ∧ lb.Servers = [0, 1, 2] ∧ lb.mem = probeMem ∧
      (∀ t, 1 ≤ t → t ≤ 20 → lb.lookupTable[t]? = some 0) ∧
      lb.lookupTable[21]? = some 1 := by
  obtain ⟨ta, ha, hla, _⟩ := probe_AddServer [] (List.replicate lookupTableSize 0)
    (by simp) 0
  obtain ⟨tb, hb, hlb, _⟩ := probe_AddServer [0] ta hla 1
  obtain ⟨tc, hc, hlc, hall⟩ := probe_AddServer [0, 1] tb hlb 2
  have r0 : Reachable probeHash (NewMaglevHashLoadBalancer exampleMem) := Reachable.new _
  have r1 := Reachable.addServer 0 r0 ha
  have r2 := Reachable.addServer 1 r1 hb
  have r3 := Reachable.addServer 2 r2 hc
  refine ⟨_, Reachable.mutate probeMem r3, rfl, rfl, ?_, ?_⟩
  · intro t h1 h20
    obtain ⟨w, hw, hfs⟩ := hall t (by omega) (by unfold lookupTableSize; omega)
    have := probe_fill_other t h1 h20
    simp only [List.nil_append, List.cons_append] at hfs
    rw [this] at hfs
    cases hfs
    exact hw
  · obtain ⟨w, hw, hfs⟩ := hall 21 (by omega) (by unfold lookupTableSize; omega)
    have := probe_fill_21
    simp only [List.nil_append, List.cons_append] at hfs
    rw [this] at hfs
    cases hfs
    exact hw


/-- The usable owners of the probing example. -/
theorem probe_state_owners :
    ∃ lb, Reachable probeHash lb ∧ lb.Servers = [0, 1, 2] ∧ lb.mem = probeMem ∧
      (∀ t, 1 ≤ t → t ≤ 20 → usableOwner lb t = none) ∧ usableOwner lb 21 = some 1 := by
  obtain ⟨lb, hr, hS, hm, h1, h21⟩ := probe_state
  refine ⟨lb, hr, hS, hm, ?_, ?_⟩
  · intro t ht1 ht20
    unfold usableOwner
    rw [h1 t ht1 ht20, hS, hm]
    decide
  · unfold usableOwner
    rw [h21, hS, hm]
    decide

/-- Without wraparound an entry of the permutation is
`(offset + i * (weight + skip)) mod tableSize`. -/
theorem permEntry_eq (tableSize offset skip w i : Nat) (hts : 0 < tableSize)
    (hb1 : offset + i * w < 2 ^ 64) (hb2 : tableSize + i * skip < 2 ^ 64) :
    permEntry tableSize offset skip (w : Int) i = (offset + i * (w + skip)) % tableSize := by
  have hcast : (((i : Int) * (w : Int)) % 2 ^ 64).toNat = i * w := by
    have : ((i : Int) * (w : Int)) % 2 ^ 64 = ((i * w % 2 ^ 64 : Nat) : Int) := by
      push_cast; rfl
    rw [this, Int.toNat_ofNat, Nat.mod_eq_of_lt (by omega)]
  unfold permEntry
  simp only [hcast]
  have hadj : (offset + i * w) % tableSize < tableSize := Nat.mod_lt _ hts
  rw [u64_of_lt hb1, u64_of_lt (by omega : i * skip < 2 ^ 64),
    u64_of_lt (by omega : (offset + i * w) % tableSize + i * skip < 2 ^ 64),
    Nat.mod_add_mod, Nat.add_assoc, ← Nat.mul_add]

theorem prime_lookupTableSize : Nat.Prime 65537 := by norm_num

/-- The entries `(offset + i * d) mod 65537`, `i < 65537`, are pairwise distinct
exactly when `d` is not a multiple of `65537`. -/
theorem stride_distinct (offset d : Nat) :
    (∀ j k, j < 65537 → k < 65537 →
      (offset + j * d) % 65537 = (offset + k * d) % 65537 → j = k) ↔ d % 65537 ≠ 0 := by
  constructor
  · intro h hd
    have := h 0 1 (by omega) (by omega) (by
      rw [Nat.zero_mul, Nat.one_mul, Nat.add_zero, Nat.add_mod, hd, Nat.add_zero, Nat.mod_mod])
    omega
  · intro hd j k hj hk hjk
    have hcop : Nat.Coprime 65537 d :=
      (Nat.Prime.coprime_iff_not_dvd prime_lookupTableSize).2
        (fun h => hd (Nat.mod_eq_zero_of_dvd h))
    have h1 : j * d ≡ k * d [MOD 65537] := Nat.ModEq.add_left_cancel' offset hjk
    have h2 : j ≡ k [MOD 65537] := Nat.ModEq.cancel_right_of_coprime hcop h1
    have h3 : j % 65537 = k % 65537 := h2
    omega

/-! ## Lemmas on the sum of the current weights and on the test sequence -/

theorem effWeight_bumped_eq (s : Server) : effWeight (bumped s) = effWeight s := by
  show (if effWeight s = 0 then s.Weight else effWeight s) = effWeight s
  by_cases h : effWeight s = 0
  · rw [if_pos h, h]
    unfold effWeight at h
    split_ifs at h with h0
    · exact h
    · exact absurd h h0
  · rw [if_neg h]

/-- The smooth weighted loop over any list of servers, a server possibly
occurring several times: each occurrence adds the server's effective weight to
its current weight and to the total. -/
theorem wrrFold_counts (l : List Ptr) (acc : WrrAcc) :
    (∀ p, ((l.foldl wrrStep acc).mem p).CurrentWeight =
      (acc.mem p).CurrentWeight + (l.count p : Int) * effWeight (acc.mem p)) ∧
    (∀ p, effWeight ((l.foldl wrrStep acc).mem p) = effWeight (acc.mem p)) ∧
    (∀ p, ((l.foldl wrrStep acc).mem p).Weight = (acc.mem p).Weight) ∧
    (l.foldl wrrStep acc).totalWeight =
      acc.totalWeight + (l.map fun x => effWeight (acc.mem x)).sum := by
  induction l generalizing acc with
  | nil => simp
  | cons x l ih =>
    obtain ⟨h1, h2, h3, h4⟩ := ih (wrrStep acc x)
    have hmem : ∀ p, (wrrStep acc x).mem p = if p = x then bumped (acc.mem x) else acc.mem p := by
      intro p
      rw [wrrStep_mem]
      rfl
    have heff : ∀ p, effWeight ((wrrStep acc x).mem p) = effWeight (acc.mem p) := by
      intro p
      rw [hmem]
      split_ifs with hp
      · rw [hp, effWeight_bumped_eq]
      · rfl
    rw [List.foldl_cons]
    refine ⟨fun p => ?_, fun p => by rw [h2, heff], fun p => ?_, ?_⟩
    · rw [h1, heff, hmem, List.count_cons]
      by_cases hp : p = x
      · subst hp
        simp only [if_true, beq_self_eq_true]
        show (acc.mem p).CurrentWeight + effWeight (acc.mem p) + _ = _
        push_cast
        ring
      · have hxp : ¬ x = p := fun h => hp h.symm
        simp only [hp, if_false, beq_iff_eq, hxp]
        push_cast
        ring
    · rw [h3, hmem]
      split_ifs with hp
      · rw [hp]; rfl
      · rfl
    · rw [h4, wrrStep_total, List.map_cons, List.sum_cons]
      have : (l.map fun y => effWeight ((wrrStep acc x).mem y)) =
          l.map fun y => effWeight (acc.mem y) :=
        List.map_congr_left (fun y _ => heff y)
      rw [this]
      ring

/-- Summing `count * f` over the distinct elements is summing `f` over the list. -/
theorem sum_dedup_count (S : List Ptr) (f : Ptr → Int) :
    (S.dedup.map fun p => (S.count p : Int) * f p).sum = (S.map f).sum := by
  rw [← List.sum_toFinset _ (List.nodup_dedup S), Finset.sum_list_map_count S f]
  have : S.dedup.toFinset = S.toFinset := by
    ext a
    simp
  rw [this]
  apply Finset.sum_congr rfl
  intro p _
  rw [nsmul_eq_mul]


/-- One `GetServer` call in smooth weighted mode on any non-empty pool. -/
theorem wrr_call (lb : RoundRobinLoadBalancer) (key : String) (hw : lb.weighted = true)
    (hne : lb.Servers ≠ []) :
    ∃ b lb2, lb.GetServer key = some (some b, lb2) ∧ b ∈ lb.Servers ∧
      lb2.Servers = lb.Servers ∧ lb2.weighted = true ∧
      lb2.currentIndex = lb.currentIndex ∧
      (∀ p, (lb2.mem p).Weight = (lb.mem p).Weight) ∧
      (∀ p, (lb2.mem p).CurrentWeight =
        (lb.mem p).CurrentWeight + (lb.Servers.count p : Int) * effWeight (lb.mem p) -
          if p = b then (lb.Servers.map fun x => effWeight (lb.mem x)).sum else 0) ∧
      currentWeightSum lb2 = currentWeightSum lb := by
  obtain ⟨h1, _, h3, h4⟩ := wrrFold_counts lb.Servers
    { mem := lb.mem, totalWeight := 0, bestServer := none }
  obtain ⟨b, hb, hbin⟩ := wrrFold_best lb.Servers
    { mem := lb.mem, totalWeight := 0, bestServer := none } (Or.inl hne)
  have hbS : b ∈ lb.Servers := by
    rcases hbin with h | h
    · cases h
    · exact h
  have hlen : ¬ lb.Servers.length = 0 := fun h => hne (List.length_eq_zero.1 h)
  have hget : lb.GetServer key = some (some b,
      { lb with
        mem := (lb.Servers.foldl wrrStep
            { mem := lb.mem, totalWeight := 0, bestServer := none }).mem.set b
          { (lb.Servers.foldl wrrStep
              { mem := lb.mem, totalWeight := 0, bestServer := none }).mem b with
            CurrentWeight := ((lb.Servers.foldl wrrStep
                { mem := lb.mem, totalWeight := 0, bestServer := none }).mem b).CurrentWeight -
              (lb.Servers.foldl wrrStep
                { mem := lb.mem, totalWeight := 0, bestServer := none }).totalWeight } }) := by
    have hg : lb.GetServer key = some lb.getWeighted := by
      unfold RoundRobinLoadBalancer.GetServer
      rw [if_neg hlen, hw]
      rfl
    rw [hg]
    unfold RoundRobinLoadBalancer.getWeighted
    dsimp only
    rw [hb]
  have hcw : ∀ p, (((lb.Servers.foldl wrrStep
      { mem := lb.mem, totalWeight := 0, bestServer := none }).mem.set b
      { (lb.Servers.foldl wrrStep
          { mem := lb.mem, totalWeight := 0, bestServer := none }).mem b with
        CurrentWeight := ((lb.Servers.foldl wrrStep
            { mem := lb.mem, totalWeight := 0, bestServer := none }).mem b).CurrentWeight -
          (lb.Servers.foldl wrrStep
            { mem := lb.mem, totalWeight := 0, bestServer := none }).totalWeight }) p).CurrentWeight =
      (lb.mem p).CurrentWeight + (lb.Servers.count p : Int) * effWeight (lb.mem p) -
        if p = b then (lb.Servers.map fun x => effWeight (lb.mem x)).sum else 0 := by
    intro p
    by_cases hp : p = b
    · rw [hp, Mem.set_same, if_pos rfl]
      dsimp only
      rw [h1 b, h4]
      simp
    · rw [Mem.set_other _ _ _ _ hp, if_neg hp, h1 p]
      simp
  refine ⟨b, _, hget, hbS, rfl, hw, rfl, ?_, hcw, ?_⟩
  · intro p
    dsimp only
    by_cases hp : p = b
    · rw [hp, Mem.set_same]
      exact h3 b
    · rw [Mem.set_other _ _ _ _ hp]
      exact h3 p
  · unfold currentWeightSum
    dsimp only
    have hfun : (fun p => ((((lb.Servers.foldl wrrStep
        { mem := lb.mem, totalWeight := 0, bestServer := none }).mem.set b
        { (lb.Servers.foldl wrrStep
            { mem := lb.mem, totalWeight := 0, bestServer := none }).mem b with
          CurrentWeight := ((lb.Servers.foldl wrrStep
              { mem := lb.mem, totalWeight := 0, bestServer := none }).mem b).CurrentWeight -
            (lb.Servers.foldl wrrStep
              { mem := lb.mem, totalWeight := 0, bestServer := none }).totalWeight }) p).CurrentWeight)) =
        fun p => (lb.mem p).CurrentWeight + (lb.Servers.count p : Int) * effWeight (lb.mem p) -
          if p = b then (lb.Servers.map fun x => effWeight (lb.mem x)).sum else 0 :=
      funext hcw
    rw [hfun, sum_map_add_sub, sum_dedup_count,
      sum_indicator _ b _ (List.nodup_dedup _) (List.mem_dedup.2 hbS)]
    ring

/-- Any number of calls in smooth weighted mode: they complete and keep the
pool, the weights and the sum of the current weights. -/
theorem wrr_calls_sum (n : Nat) (lb : RoundRobinLoadBalancer) (hw : lb.weighted = true)
    (hne : lb.Servers ≠ []) :
    ∃ rs lbn, lb.calls n = some (rs, lbn) ∧ rs.length = n ∧ lbn.Servers = lb.Servers ∧
      lbn.weighted = true ∧ (∀ p, (lbn.mem p).Weight = (lb.mem p).Weight) ∧
      currentWeightSum lbn = currentWeightSum lb := by
  induction n generalizing lb with
  | zero => exact ⟨[], lb, rfl, rfl, rfl, hw, fun _ => rfl, rfl⟩
  | succ n ih =>
    obtain ⟨b, lb2, hget, _, hS, hw2, _, hwt, _, hsum⟩ := wrr_call lb "" hw hne
    obtain ⟨rs, lbn, hcalls, hlen, hS2, hw3, hwt2, hsum2⟩ := ih lb2 hw2 (by rw [hS]; exact hne)
    refine ⟨some b :: rs, lbn, ?_, by simp [hlen], by rw [hS2, hS], hw3,
      fun p => by rw [hwt2, hwt], by rw [hsum2, hsum]⟩
    rw [calls_succ lb lb2 (some b) n hget, hcalls]
    rfl

theorem currentWeightSum_zero (lb : RoundRobinLoadBalancer)
    (h0 : ∀ p ∈ lb.Servers, (lb.mem p).CurrentWeight = 0) : currentWeightSum lb = 0 := by
  unfold currentWeightSum
  apply List.sum_eq_zero
  intro x hx
  obtain ⟨p, hp, rfl⟩ := List.mem_map.1 hx
  exact h0 p (List.mem_dedup.1 hp)

theorem ServerAgree.symm {s1 s2 : Server} (h : ServerAgree s1 s2) : ServerAgree s2 s1 :=
  ⟨h.1.symm, h.2.1.symm, h.2.2.symm⟩

theorem ServerAgree.trans {s1 s2 s3 : Server} (h : ServerAgree s1 s2) (h2 : ServerAgree s2 s3) :
    ServerAgree s1 s3 :=
  ⟨h.1.trans h2.1, h.2.1.trans h2.2.1, h.2.2.trans h2.2.2⟩

/-- Agreeing balancers go through the same calls: both panic, or both return
the same servers and agree afterwards. -/
theorem calls_agree (n : Nat) (lb1 lb2 : RoundRobinLoadBalancer) (h : RrAgree lb1 lb2) :
    (lb1.calls n = none ∧ lb2.calls n = none) ∨
    ∃ rs lb3 lb4, lb1.calls n = some (rs, lb3) ∧ lb2.calls n = some (rs, lb4) ∧
      RrAgree lb3 lb4 := by
  induction n generalizing lb1 lb2 with
  | zero => exact Or.inr ⟨[], lb1, lb2, rfl, rfl, h⟩
  | succ n ih =>
    rcases GetServer_agree lb1 lb2 "" h with ⟨h1, h2⟩ | ⟨r, lb3, lb4, h1, h2, h3⟩
    · left
      constructor
      · rw [RoundRobinLoadBalancer.calls, h1]
      · rw [RoundRobinLoadBalancer.calls, h2]
    · rw [calls_succ lb1 lb3 r n h1, calls_succ lb2 lb4 r n h2]
      rcases ih lb3 lb4 h3 with ⟨e1, e2⟩ | ⟨rs, lb5, lb6, e1, e2, e3⟩
      · left
        rw [e1, e2]
        exact ⟨rfl, rfl⟩
      · right
        rw [e1, e2]
        exact ⟨r :: rs, lb5, lb6, rfl, rfl, e3⟩

/-- The first six calls on the balancer of `TestWeightedRoundRobin`, and the
state they leave. -/
theorem testRr_six :
    ∃ lb6, testRr.calls 6 = some ([some 0, some 1, some 0, some 2, some 1, some 0], lb6) ∧
      lb6.Servers = [0, 1, 2] ∧ lb6.weighted = true ∧ lb6.currentIndex = 0 ∧
      (∀ p ∈ [0, 1, 2], (lb6.mem p).CurrentWeight = 0 ∧
        effWeight (lb6.mem p) = effWeight (testRr.mem p) ∧
        (lb6.mem p).Weight = (testRr.mem p).Weight) :=
  ⟨_, rfl, rfl, rfl, rfl, by decide⟩


/-- A fresh weighted balancer over servers `0`, `1`, `2` of weights 3, 2, 1 agrees
with the balancer of `TestWeightedRoundRobin`. -/
theorem fresh_agrees_testRr (mem : Mem)
    (hA : (mem 0).Weight = 3 ∧ (mem 0).CurrentWeight = 0 ∧
      ((mem 0).EffectiveWeight = 0 ∨ (mem 0).EffectiveWeight = 3))
    (hB : (mem 1).Weight = 2 ∧ (mem 1).CurrentWeight = 0 ∧
      ((mem 1).EffectiveWeight = 0 ∨ (mem 1).EffectiveWeight = 2))
    (hC : (mem 2).Weight = 1 ∧ (mem 2).CurrentWeight = 0 ∧
      ((mem 2).EffectiveWeight = 0 ∨ (mem 2).EffectiveWeight = 1)) :
    RrAgree ((((NewRoundRobinLoadBalancer mem true).AddServer 0).AddServer 1).AddServer 2)
      testRr := by
  obtain ⟨h1, h2, h3, h4⟩ := addFold_spec [0, 1, 2] (NewRoundRobinLoadBalancer mem true)
  obtain ⟨t1, _, _, t4⟩ := addFold_spec [0, 1, 2] (NewRoundRobinLoadBalancer testMem true)
  have hfresh : ∀ (w : Int) (s : Server), s.Weight = w ∧ s.CurrentWeight = 0 ∧
      (s.EffectiveWeight = 0 ∨ s.EffectiveWeight = w) → w ≠ 0 →
      s.CurrentWeight = 0 ∧ effWeight s = w ∧ s.Weight = w := by
    rintro w s ⟨a, b, c⟩ hw0
    refine ⟨b, ?_, a⟩
    unfold effWeight
    rcases c with c | c
    · rw [if_pos c, a]
    · rw [if_neg (by rw [c]; exact hw0), c]
  refine ⟨h1.trans t1.symm, rfl, rfl, fun p hp => ?_⟩
  have hp2 : p ∈ [0, 1, 2] := by
    have := h1 ▸ hp
    simpa [NewRoundRobinLoadBalancer] using this
  refine (h4 p).trans (ServerAgree.trans ?_ (t4 p).symm)
  simp only [List.mem_cons, List.mem_singleton, List.not_mem_nil, or_false] at hp2
  rcases hp2 with rfl | rfl | rfl
  · obtain ⟨a, b, c⟩ := hfresh 3 _ hA (by decide)
    exact ⟨a, b, c⟩
  · obtain ⟨a, b, c⟩ := hfresh 2 _ hB (by decide)
    exact ⟨a, b, c⟩
  · obtain ⟨a, b, c⟩ := hfresh 1 _ hC (by decide)
    exact ⟨a, b, c⟩

/-! ## Claims on the Maglev balancer -/

/-- C1 (full coverage). From every reachable state `AddServer` and `RemoveServer`
complete, and whenever the pool they leave has a server with `Weight > 0`, every
one of the 65537 slots of the rebuilt table holds a pool position `i` (never the
sentinel `-1`) whose server has `Weight > 0`, whatever the hash functions return. -/
theorem maglev_full_coverage (H : HashFns) (lb : MaglevHashLoadBalancer) (server : Ptr)
    (hr : Reachable H lb) :
    (∃ lb2, lb.AddServer H server = some lb2 ∧ lb2.Servers = lb.Servers ++ [server] ∧
      (∀ p, (lb2.mem p).Weight = (lb.mem p).Weight) ∧
      lb2.lookupTable.length = 65537 ∧
      ((∃ p ∈ lb2.Servers, (lb2.mem p).Weight > 0) → FullyCovered lb2)) ∧
    (∃ lb2, lb.RemoveServer H server = some lb2 ∧ lb2.Servers = lb.Servers.erase server ∧
      (∀ p, (lb2.mem p).Weight = (lb.mem p).Weight) ∧
      lb2.lookupTable.length = 65537 ∧
      ((∃ p ∈ lb2.Servers, (lb2.mem p).Weight > 0) → FullyCovered lb2)) := by
  have hinv := hr.tableInv
  constructor
  · obtain ⟨lb2, h, hsrv, hw, _, _, hl, _, hcov⟩ := AddServer_spec H lb server hinv.len
    refine ⟨lb2, h, hsrv, hw, by rw [hl, hinv.size]; rfl, fun hav slot hslot => ?_⟩
    exact hcov hav slot (by rw [hinv.size]; exact hslot)
  · obtain ⟨lb2, h, hsrv, hmem, _, hl, _, hcov⟩ := RemoveServer_spec H lb server hinv.len
    refine ⟨lb2, h, hsrv, fun p => by rw [hmem], by rw [hl, hinv.size]; rfl,
      fun hav slot hslot => ?_⟩
    exact hcov hav slot (by rw [hinv.size]; exact hslot)

/-- C3 (determinism). A `GetServer` call leaves the balancer as it was, its
result is the same in any two states that agree on the pool, on the weights of
the pooled servers, on the lookup table and its size, and `n` repeated calls
with the same key all return the same result. -/
theorem maglev_getServer_deterministic (H : HashFns) (lb lb2 : MaglevHashLoadBalancer)
    (key : String) (hS : lb2.Servers = lb.Servers) (hT : lb2.lookupTable = lb.lookupTable)
    (hsz : lb2.tableSize = lb.tableSize)
    (hW : ∀ p ∈ lb.Servers, (lb2.mem p).Weight = (lb.mem p).Weight) :
    (lb.GetServerCall H key).2 = lb ∧ lb2.GetServer H key = lb.GetServer H key ∧
      ∀ n, getServerRepeated H key n lb = List.replicate n (lb.GetServer H key) :=
  ⟨rfl, GetServer_congr H lb lb2 key hS hT hsz hW, fun n => getServerRepeated_eq H key n lb⟩

/-- C4 (availability). In every reachable state, weights changed at will by the
caller included, if some pooled server has `Weight > 0` then `GetServer` returns,
for every key, a server of the pool with `Weight > 0`, never `nil`. -/
theorem maglev_getServer_available (H : HashFns) (lb : MaglevHashLoadBalancer) (key : String)
    (hr : Reachable H lb) (hav : ∃ p ∈ lb.Servers, (lb.mem p).Weight > 0) :
    ∃ p, lb.GetServer H key = some (some p) ∧ p ∈ lb.Servers ∧ (lb.mem p).Weight > 0 := by
  have hinv := hr.tableInv
  exact GetServer_available H lb key hinv.len (by rw [hinv.size]; exact lookupTableSize_pos)
    hinv.ge hav

/-- C5 (total unavailability). In every reachable state, if the pool is empty or
every pooled server has `Weight ≤ 0`, `GetServer` returns `nil` for every key,
whatever the lookup table holds. -/
theorem maglev_getServer_unavailable (H : HashFns) (lb : MaglevHashLoadBalancer) (key : String)
    (hr : Reachable H lb) (hnone : lb.Servers = [] ∨ ∀ p ∈ lb.Servers, (lb.mem p).Weight ≤ 0) :
    lb.GetServer H key = some none := by
  have hinv := hr.tableInv
  refine GetServer_unavailable H lb key hinv.len (by rw [hinv.size]; exact lookupTableSize_pos)
    hinv.ge ?_
  rcases hnone with h | h
  · intro p hp; rw [h] at hp; cases hp
  · exact h

/-- C2, counterexample. Servers `"a"` (weight 1), `"bb"` (weight 2), `"ccc"`
(weight 3) are added in that order and the weight-2 server is removed. With
hash values under which slot 1 is filled by the fallback draw, the key `"k"` is
served by `"ccc"` before the removal and by `"a"` after it: it moves from one
still-present server to another. -/
theorem maglev_minimal_disruption_counterexample :
    ∃ lb1 lb2 lb3 lb4 : MaglevHashLoadBalancer,
      (NewMaglevHashLoadBalancer exampleMem).AddServer degenerateHash 0 = some lb1 ∧
      lb1.AddServer degenerateHash 1 = some lb2 ∧
      lb2.AddServer degenerateHash 2 = some lb3 ∧
      lb3.RemoveServer degenerateHash 1 = some lb4 ∧
      lb3.Servers = [0, 1, 2] ∧ lb4.Servers = [0, 2] ∧
      lb3.GetServer degenerateHash "k" = some (some 2) ∧
      lb4.GetServer degenerateHash "k" = some (some 0) := by
  obtain ⟨t1, h1, hl1, _⟩ := example_AddServer [] (List.replicate lookupTableSize 0)
    (List.length_replicate _ _) 0
  obtain ⟨t2, h2, hl2, _⟩ := example_AddServer [0] t1 hl1 1
  obtain ⟨t3, h3, hl3, hs3⟩ := example_AddServer [0, 1] t2 hl2 2
  obtain ⟨t4, h4, _, hs4⟩ := example_RemoveServer [0, 1, 2] t3 hl3 1 (by decide)
  refine ⟨_, _, _, _, h1, h2, h3, h4, rfl, rfl, ?_, ?_⟩
  · exact example_GetServer _ t3 2 2 (by rw [hs3]; decide) (by decide)
  · exact example_GetServer _ t4 0 0 (by rw [hs4]; decide) (by decide)

/-- C7, counterexample. One balancer gets the same server object twice, another
two distinct objects; all have address `"a"` and weight 1, so the pools agree
position by position on `Address` and `Weight`, and yet slot 1 of the first table
holds pool position 1 and slot 1 of the second holds pool position 0. -/
theorem maglev_table_pure_counterexample :
    ∃ a1 a2 b1 b2 : MaglevHashLoadBalancer,
      (NewMaglevHashLoadBalancer exampleMem).AddServer degenerateHash 3 = some a1 ∧
      a1.AddServer degenerateHash 3 = some a2 ∧
      (NewMaglevHashLoadBalancer exampleMem).AddServer degenerateHash 3 = some b1 ∧
      b1.AddServer degenerateHash 4 = some b2 ∧
      a2.Servers = [3, 3] ∧ b2.Servers = [3, 4] ∧
      List.Forall₂ (fun p q => (a2.mem p).Address = (b2.mem q).Address ∧
        (a2.mem p).Weight = (b2.mem q).Weight) a2.Servers b2.Servers ∧
      a2.lookupTable[1]? = some 1 ∧ b2.lookupTable[1]? = some 0 := by
  obtain ⟨t1, h1, hl1, _⟩ := example_AddServer [] (List.replicate lookupTableSize 0)
    (List.length_replicate _ _) 3
  obtain ⟨t2, h2, _, hs2⟩ := example_AddServer [3] t1 hl1 3
  obtain ⟨t3, h3, _, hs3⟩ := example_AddServer [3] t1 hl1 4
  refine ⟨_, _, _, _, h1, h2, h1, h3, rfl, rfl, ?_, ?_, ?_⟩
  · exact List.Forall₂.cons ⟨rfl, rfl⟩ (List.Forall₂.cons ⟨rfl, rfl⟩ List.Forall₂.nil)
  · show t2[1]? = some 1
    rw [hs2]; decide
  · show t3[1]? = some 0
    rw [hs3]; decide

/-- C1, witness: the first server added to a new balancer. -/
theorem maglev_full_coverage_witness :
    Reachable degenerateHash (NewMaglevHashLoadBalancer exampleMem) ∧
    ∃ lb2, (NewMaglevHashLoadBalancer exampleMem).AddServer degenerateHash 0 = some lb2 ∧
      FullyCovered lb2 := by
  have hr : Reachable degenerateHash (NewMaglevHashLoadBalancer exampleMem) := Reachable.new _
  obtain ⟨⟨lb2, h, hsrv, hw, _, hcov⟩, _⟩ :=
    maglev_full_coverage degenerateHash (NewMaglevHashLoadBalancer exampleMem) 0 hr
  exact ⟨hr, lb2, h, hcov ⟨0, by rw [hsrv]; simp [NewMaglevHashLoadBalancer],
    by rw [hw]; decide⟩⟩

/-- C2, amended. From a reachable state whose pooled servers have distinct
addresses, `RemoveServer(s)` completes, and every key that was
served by a server other than `s` is afterwards served by a server that is still
in the pool, is not `s` and has `Weight > 0`; it need not be the same server. -/
theorem maglev_removal_keeps_keys_served (H : HashFns) (lb : MaglevHashLoadBalancer)
    (s p : Ptr) (key : String) (hr : Reachable H lb)
    (hdist : (lb.Servers.map fun q => (lb.mem q).Address).Nodup)
    (hget : lb.GetServer H key = some (some p)) (hps : p ≠ s) :
    ∃ lb2 q, lb.RemoveServer H s = some lb2 ∧ lb2.Servers = lb.Servers.erase s ∧
      lb2.GetServer H key = some (some q) ∧ q ∈ lb2.Servers ∧ q ≠ s ∧ (lb2.mem q).Weight > 0 := by
  have hinv := hr.tableInv
  have hnd : lb.Servers.Nodup := List.Nodup.of_map _ hdist
  obtain ⟨hp, hw⟩ := GetServer_sound H lb key p hinv hget
  obtain ⟨lb2, hrem, hsrv, hmem, hts, hl, hge, _⟩ := RemoveServer_spec H lb s hinv.len
  have hr2 : Reachable H lb2 := Reachable.removeServer s hr hrem
  have hav : ∃ q ∈ lb2.Servers, (lb2.mem q).Weight > 0 := by
    refine ⟨p, ?_, by rw [hmem]; exact hw⟩
    rw [hsrv]
    exact (List.mem_erase_of_ne hps).2 hp
  have hinv2 := hr2.tableInv
  obtain ⟨q, hq, hqmem, hqw⟩ := GetServer_available H lb2 key hinv2.len
    (by rw [hinv2.size]; exact lookupTableSize_pos) hinv2.ge hav
  refine ⟨lb2, q, hrem, hsrv, hq, hqmem, ?_, hqw⟩
  intro hqs
  rw [hsrv, hqs] at hqmem
  exact (List.Nodup.not_mem_erase hnd) hqmem

/-- C2, witness of the amended claim: servers of weights 1, 2, 3, the weight-2
server removed, the key `"k"`. -/
theorem maglev_removal_keeps_keys_served_witness :
    ∃ lb : MaglevHashLoadBalancer, Reachable degenerateHash lb ∧ lb.Servers = [0, 1, 2] ∧
      (lb.Servers.map fun q => (lb.mem q).Address).Nodup ∧
      lb.GetServer degenerateHash "k" = some (some 2) ∧
      ∃ lb2 q, lb.RemoveServer degenerateHash 1 = some lb2 ∧
        lb2.Servers = lb.Servers.erase 1 ∧
        lb2.GetServer degenerateHash "k" = some (some q) ∧ q ∈ lb2.Servers ∧ q ≠ 1 ∧
        (lb2.mem q).Weight > 0 := by
  obtain ⟨t1, h1, hl1, _⟩ := example_AddServer [] (List.replicate lookupTableSize 0)
    (List.length_replicate _ _) 0
  obtain ⟨t2, h2, hl2, _⟩ := example_AddServer [0] t1 hl1 1
  obtain ⟨t3, h3, hl3, hs3⟩ := example_AddServer [0, 1] t2 hl2 2
  have hr : Reachable degenerateHash
      { mem := exampleMem, Servers := [0, 1, 2], lookupTable := t3,
        tableSize := lookupTableSize } :=
    Reachable.addServer 2 (Reachable.addServer 1 (Reachable.addServer 0 (Reachable.new _) h1) h2) h3
  have hget := example_GetServer [0, 1, 2] t3 2 2 (by rw [hs3]; decide) (by decide)
  have hdist : (([0, 1, 2] : List Ptr).map fun q => (exampleMem q).Address).Nodup := by decide
  exact ⟨_, hr, rfl, hdist, hget,
    maglev_removal_keeps_keys_served degenerateHash _ 1 2 "k" hr hdist hget (by decide)⟩

/-- C3, witness: overwriting the round-robin fields of the server objects does
not change what `GetServer` returns. -/
theorem maglev_getServer_deterministic_witness :
    exampleMaglevTouched.Servers = exampleMaglev.Servers ∧
    exampleMaglevTouched.lookupTable = exampleMaglev.lookupTable ∧
    exampleMaglevTouched.tableSize = exampleMaglev.tableSize ∧
    (∀ p ∈ exampleMaglev.Servers,
      (exampleMaglevTouched.mem p).Weight = (exampleMaglev.mem p).Weight) ∧
    ((exampleMaglev.GetServerCall degenerateHash "k").2 = exampleMaglev ∧
      exampleMaglevTouched.GetServer degenerateHash "k" =
        exampleMaglev.GetServer degenerateHash "k" ∧
      ∀ n, getServerRepeated degenerateHash "k" n exampleMaglev =
        List.replicate n (exampleMaglev.GetServer degenerateHash "k")) :=
  ⟨rfl, rfl, rfl, fun _ _ => rfl,
    maglev_getServer_deterministic degenerateHash exampleMaglev exampleMaglevTouched "k" rfl rfl
      rfl (fun _ _ => rfl)⟩

/-- C4, witness: a balancer holding one server of weight 1. -/
theorem maglev_getServer_available_witness :
    ∃ lb : MaglevHashLoadBalancer, Reachable degenerateHash lb ∧
      (∃ p ∈ lb.Servers, (lb.mem p).Weight > 0) ∧
      ∃ p, lb.GetServer degenerateHash "k" = some (some p) ∧ p ∈ lb.Servers ∧
        (lb.mem p).Weight > 0 := by
  obtain ⟨t1, h1, _, _⟩ := example_AddServer [] (List.replicate lookupTableSize 0)
    (List.length_replicate _ _) 0
  have hr : Reachable degenerateHash
      { mem := exampleMem, Servers := [0], lookupTable := t1, tableSize := lookupTableSize } :=
    Reachable.addServer 0 (Reachable.new _) h1
  have hav : ∃ p ∈ ([0] : List Ptr), (exampleMem p).Weight > 0 := ⟨0, by decide, by decide⟩
  exact ⟨_, hr, hav, maglev_getServer_available degenerateHash _ "k" hr hav⟩

/-- C5, witness: the table is built while the server has weight 1, then every
weight drops to 0. -/
theorem maglev_getServer_unavailable_witness :
    ∃ lb : MaglevHashLoadBalancer, Reachable degenerateHash lb ∧ lb.Servers = [0] ∧
      (∀ p ∈ lb.Servers, (lb.mem p).Weight ≤ 0) ∧
      lb.GetServer degenerateHash "k" = some none := by
  obtain ⟨t1, h1, _, _⟩ := example_AddServer [] (List.replicate lookupTableSize 0)
    (List.length_replicate _ _) 0
  have hr : Reachable degenerateHash
      { mem := idleMem, Servers := [0], lookupTable := t1, tableSize := lookupTableSize } :=
    Reachable.mutate idleMem (Reachable.addServer 0 (Reachable.new _) h1)
  have hnone : ∀ p ∈ ([0] : List Ptr), (idleMem p).Weight ≤ 0 := by decide
  exact ⟨_, hr, rfl, hnone, maglev_getServer_unavailable degenerateHash _ "k" hr (Or.inr hnone)⟩

/-- C7, amended. Two balancers, each just left by an `AddServer` or a
`RemoveServer` call, whose pools hold no server object twice and hold, position
by position, servers of the same address and the same weight, have the same
lookup table, whatever calls produced the two pools. -/
theorem maglev_table_pure (H : HashFns) (lb1 lb2 r1 r2 : MaglevHashLoadBalancer) (s1 s2 : Ptr)
    (hr1 : Reachable H lb1) (hr2 : Reachable H lb2)
    (h1 : lb1.AddServer H s1 = some r1 ∨ lb1.RemoveServer H s1 = some r1)
    (h2 : lb2.AddServer H s2 = some r2 ∨ lb2.RemoveServer H s2 = some r2)
    (hn1 : r1.Servers.Nodup) (hn2 : r2.Servers.Nodup) (hsame : SamePools r1 r2) :
    r1.lookupTable = r2.lookupTable := by
  obtain ⟨pre1, hu1, hm1, hs1, ht1, hl1⟩ := rebuild_of_op H lb1 r1 s1 hr1.tableInv h1
  obtain ⟨pre2, hu2, hm2, hs2, ht2, hl2⟩ := rebuild_of_op H lb2 r2 s2 hr2.tableInv h2
  have hsame2 : SamePools pre1 pre2 := by
    unfold SamePools at hsame ⊢
    rw [hm1, hm2, hs1, hs2]
    exact hsame
  have := updateLookupTable_congr H pre1 pre2 (by rw [ht1, ht2]) (by rw [hl1, hl2])
    (hs1 ▸ hn1) (hs2 ▸ hn2) hsame2
  rw [hu1, hu2] at this
  exact Option.some.inj this

/-- C7, witness of the amended claim: the pool `[0, 1]` reached by two
additions, and reached by three additions and a removal. -/
theorem maglev_table_pure_witness :
    ∃ lb1 lb2 r1 r2 : MaglevHashLoadBalancer,
      Reachable degenerateHash lb1 ∧ Reachable degenerateHash lb2 ∧
      lb1.AddServer degenerateHash 1 = some r1 ∧ lb2.RemoveServer degenerateHash 2 = some r2 ∧
      r1.Servers = [0, 1] ∧ r2.Servers = [0, 1] ∧ SamePools r1 r2 ∧
      r1.lookupTable = r2.lookupTable := by
  obtain ⟨t1, h1, hl1, _⟩ := example_AddServer [] (List.replicate lookupTableSize 0)
    (List.length_replicate _ _) 0
  obtain ⟨t2, h2, hl2, _⟩ := example_AddServer [0] t1 hl1 1
  obtain ⟨t3, h3, hl3, _⟩ := example_AddServer [0, 1] t2 hl2 2
  obtain ⟨t4, h4, _, _⟩ := example_RemoveServer [0, 1, 2] t3 hl3 2 (by decide)
  have hr1 : Reachable degenerateHash
      { mem := exampleMem, Servers := [0], lookupTable := t1, tableSize := lookupTableSize } :=
    Reachable.addServer 0 (Reachable.new _) h1
  have hr2 : Reachable degenerateHash
      { mem := exampleMem, Servers := [0, 1, 2], lookupTable := t3,
        tableSize := lookupTableSize } :=
    Reachable.addServer 2 (Reachable.addServer 1 hr1 h2) h3
  have hsame : SamePools
      { mem := exampleMem, Servers := [0, 1], lookupTable := t2, tableSize := lookupTableSize }
      { mem := exampleMem, Servers := [0, 1], lookupTable := t4, tableSize := lookupTableSize } :=
    List.Forall₂.cons ⟨rfl, rfl⟩ (List.Forall₂.cons ⟨rfl, rfl⟩ List.Forall₂.nil)
  have hnd : ([0, 1] : List Ptr).Nodup := by decide
  exact ⟨_, _, _, _, hr1, hr2, h2, h4, rfl, rfl, hsame,
    maglev_table_pure degenerateHash _ _ _ _ 1 2 hr1 hr2 (Or.inl h2) (Or.inr h4) hnd hnd hsame⟩

/-! ## Claims on the round-robin balancer -/

/-- C6, the defect. On a pool whose only server has `Weight = 0` the
round-robin `GetServer` returns that server, in plain mode and in smooth
weighted mode alike, where the claim asks for `nil`; on the same pool the random
strategy and the least-connections strategy, in both of its modes, return
`nil`. -/
theorem round_robin_returns_unavailable_server :
    (∀ p ∈ (idleRr false).Servers, ((idleRr false).mem p).Weight ≤ 0) ∧
    (∀ p ∈ (idleRr true).Servers, ((idleRr true).mem p).Weight ≤ 0) ∧
    ((idleRr false).GetServer "").map (fun x => x.1) = some (some 0) ∧
    ((idleRr true).GetServer "").map (fun x => x.1) = some (some 0) ∧
    (∀ intn : Int → Int, idleRandom.GetServer intn "" = some none) ∧
    ((idleLc false).GetServer "").1 = none ∧
    ((idleLc true).GetServer "").1 = none := by
  refine ⟨by decide, by decide, by decide, by decide, fun _ => rfl, by decide, by decide⟩

/-- C8, counterexample. The server object `3` (weight 1) is registered twice
and the object `4` (weight 1) once. The first four calls return `3, 4, 3, 3`:
server `3` is returned twice among the three calls 1..3, and by both of the two
calls 3..4, although its weight is 1. -/
theorem swrr_fairness_counterexample :
    aliasedRr.weighted = true ∧ aliasedRr.Servers = [3, 3, 4] ∧
    (∀ p ∈ aliasedRr.Servers, (aliasedRr.mem p).Weight = 1 ∧
      (aliasedRr.mem p).CurrentWeight = 0 ∧
      (aliasedRr.mem p).EffectiveWeight = (aliasedRr.mem p).Weight) ∧
    aliasedRr.results 4 = some [some 3, some 4, some 3, some 3] ∧
    (aliasedRr.results 3).map (fun rs => rs.count (some 3)) = some 2 ∧
    (aliasedRr.results 4).map (fun rs => (rs.drop 2).count (some 3)) = some 2 := by
  decide

/-- C8, amended. A non-empty pool of pairwise distinct server objects, in smooth
weighted mode, all with `Weight ≥ 1`, `CurrentWeight = 0` and `EffectiveWeight`
equal to `0` or to `Weight`: with `W` the sum of the weights, the calls
`n+1 .. n+W` return each server exactly `Weight` times, for every `n`. -/
theorem swrr_fairness (lb : RoundRobinLoadBalancer) (hweighted : lb.weighted = true)
    (hne : lb.Servers ≠ []) (hnd : lb.Servers.Nodup)
    (hpos : ∀ p ∈ lb.Servers, 1 ≤ (lb.mem p).Weight)
    (hcw : ∀ p ∈ lb.Servers, (lb.mem p).CurrentWeight = 0)
    (hew : ∀ p ∈ lb.Servers,
      (lb.mem p).EffectiveWeight = 0 ∨ (lb.mem p).EffectiveWeight = (lb.mem p).Weight)
    (n : Nat) :
    ∃ rs lb2,
      lb.calls (n + (lb.Servers.map fun p => (lb.mem p).Weight).sum.toNat) = some (rs, lb2) ∧
      ∀ p ∈ lb.Servers, (((rs.drop n).count (some p) : Nat) : Int) = (lb.mem p).Weight := by
  have hst : WrrState lb.Servers (fun p => (lb.mem p).Weight) lb := by
    refine ⟨rfl, hweighted, fun _ _ => rfl, ?_⟩
    intro p hp
    unfold effWeight
    rcases hew p hp with h | h
    · rw [if_pos h]
    · split_ifs <;> simp [h]
  exact wrr_window lb.Servers (fun p => (lb.mem p).Weight) hnd hne hpos lb hst hcw n

/-- C8, witness: servers of weights 1, 2, 3, where the six calls 5..10 return
them 1, 2 and 3 times; and the servers of weights 3, 2, 1 of
`TestWeightedRoundRobin`, returned 6, 4 and 2 times by twelve calls. -/
theorem swrr_fairness_witness :
    (exampleRr.weighted = true ∧ exampleRr.Servers ≠ [] ∧ exampleRr.Servers.Nodup ∧
      (∀ p ∈ exampleRr.Servers, 1 ≤ (exampleRr.mem p).Weight) ∧
      (∀ p ∈ exampleRr.Servers, (exampleRr.mem p).CurrentWeight = 0) ∧
      ∃ rs lb2,
        exampleRr.calls
          (4 + (exampleRr.Servers.map fun p => (exampleRr.mem p).Weight).sum.toNat) =
          some (rs, lb2) ∧
        ∀ p ∈ exampleRr.Servers,
          (((rs.drop 4).count (some p) : Nat) : Int) = (exampleRr.mem p).Weight) ∧
    (testRr.results 12).map (fun rs => testRr.Servers.map fun p => rs.count (some p)) =
      some [6, 4, 2] :=
  ⟨⟨by decide, by decide, by decide, by decide, by decide,
    swrr_fairness exampleRr (by decide) (by decide) (by decide) (by decide) (by decide)
      (by decide) 4⟩, by decide⟩

/-- C9, counterexample. With servers of weights 1, 2, 3 the sixth and the seventh
call both return the server of weight 3, and the selection of the seventh call
compares the current weights 1, 2, 3: two other pooled servers have a lower
current weight than the server selected. -/
theorem swrr_no_repeat_counterexample :
    exampleRr.results 7 =
      some [some 2, some 1, some 0, some 2, some 1, some 2, some 2] ∧
    exampleRr.comparedWeightsAfter 6 = some [1, 2, 3] := by
  decide

/-- C9, amended. With servers of weights 1, 2, 3 on a fresh smooth weighted
balancer, whenever call `n` and call `n + 1` return the same server, all
current weights are `0` when call `n + 1` begins: no pooled server then has a
lower current weight than another. -/
theorem swrr_repeat_only_when_tied (n : Nat) (hn : 1 ≤ n) :
    ∃ rs cw, exampleRr.results (n + 1) = some rs ∧ exampleRr.currentWeightsAfter n = some cw ∧
      (rs[n - 1]? = rs[n]? → ∀ c ∈ cw, c = 0) := by
  have := exampleRr_all ((n - 1) / 6) ((n - 1) % 6 + 1) (by omega) (by omega)
  rw [show (n - 1) % 6 + 1 + 6 * ((n - 1) / 6) = n by omega] at this
  exact this

/-- C9, witness of the amended claim at the repeated calls 6 and 7. -/
theorem swrr_repeat_only_when_tied_witness :
    1 ≤ 6 ∧ ∃ rs cw, exampleRr.results (6 + 1) = some rs ∧
      exampleRr.currentWeightsAfter 6 = some cw ∧ (rs[6 - 1]? = rs[6]? → ∀ c ∈ cw, c = 0) :=
  ⟨by decide, swrr_repeat_only_when_tied 6 (by decide)⟩

/-! ## Claims on the least-connections balancer -/

/-- C10, counterexample: a weighted balancer with the servers `0` (weight
100000000, 50000001 connections) and `1` (weight 149999999, 75000001
connections).  The exact ratio of server `0` is the smaller one, but both
ratios round to the same `float64`, the loop sees a tie, and `GetServer`
returns server `1`, the one of greater weight. -/
theorem weighted_least_connections_counterexample :
    roundedLc.weighted = true ∧
    (∀ p ∈ roundedLc.Servers, connCount roundedLc.connections p < 2 ^ 53) ∧
    (∀ p ∈ roundedLc.Servers, (roundedLc.mem p).Weight > 0) ∧
    connQuotient roundedLc.mem roundedLc.connections 0 <
      connQuotient roundedLc.mem roundedLc.connections 1 ∧
    (roundedLc.GetServer "").1 = some 1 := by
  have hc : ∀ p ∈ roundedLc.Servers, connCount roundedLc.connections p < 2 ^ 53 := by decide
  have hq0 : connQuotient roundedLc.mem roundedLc.connections 0 = 50000001 / 100000000 := by
    norm_num [connQuotient, connCount, roundedLc, roundedMem]
  have hq1 : connQuotient roundedLc.mem roundedLc.connections 1 = 75000001 / 149999999 := by
    norm_num [connQuotient, connCount, roundedLc, roundedMem]
  have hf0 : floatQuotient roundedLc.mem roundedLc.connections 0 =
      ((4503599717442489 : Int) : ℚ) * 2 ^ ((-1 : Int) - 52) := by
    rw [floatQuotient_eq_round _ _ _ (by decide) (by decide) (by decide) (by decide), hq0]
    apply roundF64_of_near <;> norm_num
  have hf1 : floatQuotient roundedLc.mem roundedLc.connections 1 =
      ((4503599717442489 : Int) : ℚ) * 2 ^ ((-1 : Int) - 52) := by
    rw [floatQuotient_eq_round _ _ _ (by decide) (by decide) (by decide) (by decide), hq1]
    apply roundF64_of_near <;> norm_num
  refine ⟨rfl, hc, by decide, by rw [hq0, hq1]; norm_num, ?_⟩
  obtain ⟨s, hget, hs, _, hall⟩ :=
    lc_weighted_result roundedLc "" rfl hc ⟨0, by decide, by decide⟩
  have hcases : s = 0 ∨ s = 1 := by
    have : s ∈ [0, 1] := hs
    simpa using this
  rcases hcases with rfl | rfl
  · have := (hall 1 (by decide) (by decide)).2 (by rw [hf0, hf1])
    revert this
    decide
  · exact hget

/-- C10 (weighted least connections), amended: the ratios are compared after
rounding to `float64`. In weighted mode, with every count below `2 ^ 53`: if
some pooled server has `Weight > 0`, `GetServer` returns a pooled server `s`
with `Weight > 0` whose `float64` quotient (the rounded division of the converted
count by the converted weight) is least among the pooled servers with
`Weight > 0` and whose weight is greatest among those of that least quotient;
when no count is negative and no weight exceeds `2 ^ 53`, a pooled server of
`Weight > 0` whose exact ratio is below that of `s` has a ratio that rounds to
the same `float64` as that of `s`, and a weight not above that of `s`; `nil` is
returned exactly when no pooled server has `Weight > 0`; a server with
`Weight ≤ 0` is never returned. -/
theorem weighted_least_connections_selection (lb : LeastConnectionsLoadBalancer) (key : String)
    (hweighted : lb.weighted = true)
    (hc : ∀ p ∈ lb.Servers, connCount lb.connections p < 2 ^ 53) :
    ((∃ p ∈ lb.Servers, (lb.mem p).Weight > 0) →
      ∃ s, (lb.GetServer key).1 = some s ∧ s ∈ lb.Servers ∧ (lb.mem s).Weight > 0 ∧
        (∀ q ∈ lb.Servers, (lb.mem q).Weight > 0 →
          floatQuotient lb.mem lb.connections s ≤ floatQuotient lb.mem lb.connections q ∧
          (floatQuotient lb.mem lb.connections q = floatQuotient lb.mem lb.connections s →
            (lb.mem q).Weight ≤ (lb.mem s).Weight)) ∧
        ((∀ p ∈ lb.Servers, 0 ≤ connCount lb.connections p ∧ (lb.mem p).Weight ≤ 2 ^ 53) →
          ∀ q ∈ lb.Servers, (lb.mem q).Weight > 0 →
            connQuotient lb.mem lb.connections q < connQuotient lb.mem lb.connections s →
            roundF64 (connQuotient lb.mem lb.connections q) =
              roundF64 (connQuotient lb.mem lb.connections s) ∧
            (lb.mem q).Weight ≤ (lb.mem s).Weight)) ∧
    ((lb.GetServer key).1 = none ↔ ∀ p ∈ lb.Servers, ¬ (lb.mem p).Weight > 0) ∧
    (∀ s, (lb.GetServer key).1 = some s → (lb.mem s).Weight > 0) := by
  have hsome : (∃ p ∈ lb.Servers, (lb.mem p).Weight > 0) →
      ∃ s, (lb.GetServer key).1 = some s ∧ s ∈ lb.Servers ∧ (lb.mem s).Weight > 0 ∧
        ∀ q ∈ lb.Servers, (lb.mem q).Weight > 0 →
          floatQuotient lb.mem lb.connections s ≤ floatQuotient lb.mem lb.connections q ∧
          (floatQuotient lb.mem lb.connections q = floatQuotient lb.mem lb.connections s →
            (lb.mem q).Weight ≤ (lb.mem s).Weight) := by
    intro hav
    exact lc_weighted_result lb key hweighted hc hav
  have hnone : (∀ p ∈ lb.Servers, ¬ (lb.mem p).Weight > 0) → (lb.GetServer key).1 = none := by
    intro h
    have : (lb.Servers.filter fun server => (lb.mem server).Weight > 0) = [] := by
      rw [List.filter_eq_nil_iff]
      intro p hp
      simpa using h p hp
    unfold LeastConnectionsLoadBalancer.GetServer
    dsimp only
    rw [this]
    rfl
  refine ⟨?_, ⟨?_, hnone⟩, ?_⟩
  · intro hav
    obtain ⟨s, hget, hs, hws, hmin⟩ := hsome hav
    refine ⟨s, hget, hs, hws, hmin, ?_⟩
    intro hex q hq hwq hlt
    have hround : ∀ p ∈ lb.Servers, (lb.mem p).Weight > 0 →
        floatQuotient lb.mem lb.connections p =
          roundF64 (connQuotient lb.mem lb.connections p) := by
      intro p hp hwp
      have h1 := (hex p hp).1
      have h2 := le_of_lt (hc p hp)
      have h3 := (hex p hp).2
      exact floatQuotient_eq_round lb.mem lb.connections p (by omega) h2 (by omega) h3
    have hle := (hmin q hq hwq).1
    rw [hround q hq hwq, hround s hs hws] at hle
    have heq : roundF64 (connQuotient lb.mem lb.connections q) =
        roundF64 (connQuotient lb.mem lb.connections s) :=
      le_antisymm (roundF64_mono (le_of_lt hlt)) hle
    refine ⟨heq, (hmin q hq hwq).2 ?_⟩
    rw [hround q hq hwq, hround s hs hws, heq]
  · intro hres p hp hw
    obtain ⟨s, hs, _⟩ := hsome ⟨p, hp, hw⟩
    rw [hres] at hs
    cases hs
  · intro s hs
    by_cases hav : ∃ p ∈ lb.Servers, (lb.mem p).Weight > 0
    · obtain ⟨s2, hs2, _, hw2, _⟩ := hsome hav
      rw [hs] at hs2
      cases hs2
      exact hw2
    · have := hnone (fun p hp hw => hav ⟨p, hp, hw⟩)
      rw [hs] at this
      cases this

/-- C10, witness: with counts 5, 8, 9 on the servers of weights 1, 2, 3 (the
quotients 5, 4, 3 are `float64` values) the weighted mode selects the server of
weight 3. -/
theorem weighted_least_connections_selection_witness :
    exampleLc.weighted = true ∧
    (∀ p ∈ exampleLc.Servers, connCount exampleLc.connections p < 2 ^ 53) ∧
    (exampleLc.GetServer "").1 = some 2 := by
  have hw : exampleLc.weighted = true := rfl
  have hc : ∀ p ∈ exampleLc.Servers, connCount exampleLc.connections p < 2 ^ 53 := by decide
  refine ⟨hw, hc, ?_⟩
  obtain ⟨s, hs, hmem, _, hmin, _⟩ :=
    (weighted_least_connections_selection exampleLc "" hw hc).1 ⟨2, by decide, by decide⟩
  have h2 := (hmin 2 (by decide) (by decide)).1
  have hr0 : floatQuotient exampleLc.mem exampleLc.connections 0 = 5 := by
    rw [floatQuotient_eq_round _ _ _ (by decide) (by decide) (by decide) (by decide)]
    have : connQuotient exampleLc.mem exampleLc.connections 0 = ((5 : Nat) : ℚ) := by
      norm_num [connQuotient, connCount, exampleLc, exampleMem]
    rw [this, roundF64_natCast 5 (by norm_num)]
    norm_num
  have hr1 : floatQuotient exampleLc.mem exampleLc.connections 1 = 4 := by
    rw [floatQuotient_eq_round _ _ _ (by decide) (by decide) (by decide) (by decide)]
    have : connQuotient exampleLc.mem exampleLc.connections 1 = ((4 : Nat) : ℚ) := by
      norm_num [connQuotient, connCount, exampleLc, exampleMem]
    rw [this, roundF64_natCast 4 (by norm_num)]
    norm_num
  have hr2 : floatQuotient exampleLc.mem exampleLc.connections 2 = 3 := by
    rw [floatQuotient_eq_round _ _ _ (by decide) (by decide) (by decide) (by decide)]
    have : connQuotient exampleLc.mem exampleLc.connections 2 = ((3 : Nat) : ℚ) := by
      norm_num [connQuotient, connCount, exampleLc, exampleMem]
    rw [this, roundF64_natCast 3 (by norm_num)]
    norm_num
  have hcases : s = 0 ∨ s = 1 ∨ s = 2 := by
    have : s ∈ [0, 1, 2] := hmem
    simpa using this
  rcases hcases with rfl | rfl | rfl
  · rw [hr0, hr2] at h2; norm_num at h2
  · rw [hr1, hr2] at h2; norm_num at h2
  · exact hs

/-! ## Claims on the plain least-connections mode and on the counters -/

/-- C11, counterexample: a plain least-connections balancer whose only server
has `Weight > 0` and a counter at the greatest `int64` value, which is also the
initial `minValue`: no server is selected and `GetServer` returns `nil`. -/
theorem plain_least_connections_counterexample :
    saturatedLc.weighted = false ∧
    (∃ p ∈ saturatedLc.Servers, (saturatedLc.mem p).Weight > 0) ∧
    (saturatedLc.GetServer "").1 = none := by
  refine ⟨rfl, ⟨0, by decide, by decide⟩, ?_⟩
  have hf : (saturatedLc.Servers.filter fun server => (saturatedLc.mem server).Weight > 0) = [0] := by
    decide
  unfold LeastConnectionsLoadBalancer.GetServer
  dsimp only
  rw [hf]
  have hstep : (lcStep saturatedLc.mem saturatedLc.weighted
      { connections := saturatedLc.connections, selectedServer := none, minValue := maxValue }
      0).selectedServer = none := by
    unfold lcStep
    dsimp only
    have hv : currentValueOf saturatedLc.mem saturatedLc.weighted
        (ensureCounter saturatedLc.connections 0) 0 = maxValue := by
      norm_num [currentValueOf, ensureCounter, saturatedLc, maxValue]
    rw [hv, if_neg (lt_irrefl _)]
  simp only [List.length_singleton, one_ne_zero, if_false, List.foldl_cons, List.foldl_nil]
  rw [hstep]

/-- C11 (plain least connections), amended with the bound on the counts. In
non-weighted mode, with every count below `2 ^ 53` and some pooled server of
`Weight > 0`, `GetServer` returns a pooled server `s` with `Weight > 0` whose
count is least among the pooled servers with `Weight > 0`, whose weight is
greatest among those of that least count, and which is the earliest such server
in pool order; after the call the count of `s` is one higher and every other
count is unchanged. -/
theorem plain_least_connections_selection (lb : LeastConnectionsLoadBalancer) (key : String)
    (hplain : lb.weighted = false)
    (hc : ∀ p ∈ lb.Servers, connCount lb.connections p < 2 ^ 53)
    (hav : ∃ p ∈ lb.Servers, (lb.mem p).Weight > 0) :
    ∃ s before after, (lb.GetServer key).1 = some s ∧ lb.Servers = before ++ s :: after ∧
      (lb.mem s).Weight > 0 ∧
      (∀ q ∈ lb.Servers, (lb.mem q).Weight > 0 →
        connCount lb.connections s ≤ connCount lb.connections q ∧
        (connCount lb.connections q = connCount lb.connections s →
          (lb.mem q).Weight ≤ (lb.mem s).Weight)) ∧
      (∀ q ∈ before, (lb.mem q).Weight > 0 →
        ¬ (connCount lb.connections q = connCount lb.connections s ∧
          (lb.mem q).Weight = (lb.mem s).Weight)) ∧
      connCount (lb.GetServer key).2.connections s = connCount lb.connections s + 1 ∧
      ∀ q, q ≠ s →
        connCount (lb.GetServer key).2.connections q = connCount lb.connections q := by
  obtain ⟨hcnt, l1, s, l2, hseen, hsel, _, hall, hfirst⟩ := lc_plain_loop lb hc hav
  have hs : s ∈ lb.Servers.filter fun server => (lb.mem server).Weight > 0 := by
    rw [hseen]; simp
  have hsf := List.mem_filter.1 hs
  have hne : ¬ (lb.Servers.filter fun server => (lb.mem server).Weight > 0).length = 0 :=
    Nat.ne_of_gt (List.length_pos_of_mem hs)
  obtain ⟨m1, m2, hpool, hm1⟩ := filter_split _ _ _ _ _ hseen
  have hget : lb.GetServer key = (some s,
      { lb with
        connections := fun q =>
          if q = s then
            (((lb.Servers.filter fun server => (lb.mem server).Weight > 0).foldl
              (lcStep lb.mem false)
              { connections := lb.connections, selectedServer := none,
                minValue := maxValue }).connections q).map (· + 1)
          else
            ((lb.Servers.filter fun server => (lb.mem server).Weight > 0).foldl
              (lcStep lb.mem false)
              { connections := lb.connections, selectedServer := none,
                minValue := maxValue }).connections q
        mem := lb.mem.set s
          { lb.mem s with CurrentConnections := (lb.mem s).CurrentConnections + 1 } }) := by
    unfold LeastConnectionsLoadBalancer.GetServer
    dsimp only
    rw [if_neg hne, hplain, hsel]
  refine ⟨s, m1, m2, by rw [hget], hpool, by simpa using hsf.2, ?_, ?_, ?_, ?_⟩
  · intro q hq hwq
    exact hall q (List.mem_filter.2 ⟨hq, by simpa using hwq⟩)
  · intro q hq hwq
    apply hfirst q
    rw [← hm1]
    exact List.mem_filter.2 ⟨hq, by simpa using hwq⟩
  · rw [hget]
    have hsome := lcFold_counter lb.mem false
      (lb.Servers.filter fun server => (lb.mem server).Weight > 0)
      { connections := lb.connections, selectedServer := none, minValue := maxValue } s
      (Or.inl hs)
    have hval := hcnt s
    obtain ⟨c, hcs⟩ := Option.ne_none_iff_exists'.1 hsome
    simp only [connCount, hcs, Option.getD_some] at hval ⊢
    simp [hcs, hval]
  · intro q hq
    rw [hget]
    simp only [connCount, if_neg hq]
    exact hcnt q

/-- C11, witness: with counts 5, 5, 9 on the servers of weights 1, 2, 3 the plain
mode selects the server of weight 2, whose count becomes 6. -/
theorem plain_least_connections_selection_witness :
    plainLc.weighted = false ∧
    (∀ p ∈ plainLc.Servers, connCount plainLc.connections p < 2 ^ 53) ∧
    (plainLc.GetServer "").1 = some 1 ∧
    connCount (plainLc.GetServer "").2.connections 1 = 6 := by
  have hw : plainLc.weighted = false := rfl
  have hc : ∀ p ∈ plainLc.Servers, connCount plainLc.connections p < 2 ^ 53 := by decide
  obtain ⟨s, before, after, hs, hpool, _, hmin, _, hinc, _⟩ :=
    plain_least_connections_selection plainLc "" hw hc ⟨0, by decide, by decide⟩
  have hmem : s ∈ plainLc.Servers := by rw [hpool]; simp
  have h0 := hmin 0 (by decide) (by decide)
  have h1 := hmin 1 (by decide) (by decide)
  have hcases : s = 0 ∨ s = 1 ∨ s = 2 := by
    have : s ∈ [0, 1, 2] := hmem
    simpa using this
  rcases hcases with rfl | rfl | rfl
  · exact absurd (h1.2 (by decide)) (by decide)
  · exact ⟨hw, hc, hs, hinc⟩
  · exact absurd h0.1 (by decide)

/-- C12 (release clamped at zero). In every state reached from a new balancer
by `AddServer`, `RemoveServer`, `GetServer` and `ReleaseConnection` (the server
objects being rewritten freely in between) every counter is `≥ 0`, and in such a
state: `ReleaseConnection(nil)` changes nothing; `ReleaseConnection(s)` changes
nothing when `s` has no counter, sets the counter `c` of `s` to `max (c - 1) 0`
when it has one, leaves the pool unchanged and leaves every other counter
unchanged. -/
theorem release_connection_clamped (lb : LeastConnectionsLoadBalancer) (hr : LcReachable lb) :
    (∀ p c, lb.connections p = some c → 0 ≤ c) ∧
    lb.ReleaseConnection none = lb ∧
    ∀ s,
      (lb.connections s = none → lb.ReleaseConnection (some s) = lb) ∧
      (∀ c, lb.connections s = some c →
        (lb.ReleaseConnection (some s)).connections s = some (max (c - 1) 0)) ∧
      (lb.ReleaseConnection (some s)).Servers = lb.Servers ∧
      ∀ q, q ≠ s → (lb.ReleaseConnection (some s)).connections q = lb.connections q := by
  have hnn := hr.nonneg
  refine ⟨hnn, rfl, fun s => ⟨?_, ?_, ?_, ?_⟩⟩
  · intro hs
    unfold LeastConnectionsLoadBalancer.ReleaseConnection
    dsimp only
    rw [hs]
  · intro c hs
    have hc := hnn s c hs
    unfold LeastConnectionsLoadBalancer.ReleaseConnection
    dsimp only
    rw [hs]
    dsimp only
    by_cases hpos : c > 0
    · rw [if_pos hpos]
      dsimp only
      rw [if_pos rfl, max_eq_left (by omega)]
    · rw [if_neg hpos, hs]
      have : c = 0 := by omega
      subst this
      rfl
  · unfold LeastConnectionsLoadBalancer.ReleaseConnection
    dsimp only
    cases hs : lb.connections s with
    | none => rfl
    | some c =>
      dsimp only
      by_cases hc : c > 0
      · rw [if_pos hc]
      · rw [if_neg hc]
  · intro q hq
    unfold LeastConnectionsLoadBalancer.ReleaseConnection
    dsimp only
    cases hs : lb.connections s with
    | none => rfl
    | some c =>
      dsimp only
      by_cases hc : c > 0
      · rw [if_pos hc]
        dsimp only
        rw [if_neg hq]
      · rw [if_neg hc]

/-- C12, witness: a server just added has its counter at `0`, and releasing a
connection of it leaves the counter at `0`. -/
theorem release_connection_clamped_witness :
    LcReachable ((NewLeastConnectionsLoadBalancer exampleMem false).AddServer 0) ∧
    (((NewLeastConnectionsLoadBalancer exampleMem false).AddServer 0).ReleaseConnection
      (some 0)).connections 0 = some 0 :=
  ⟨LcReachable.addServer 0 (LcReachable.new exampleMem false),
    ((release_connection_clamped _
      (LcReachable.addServer 0 (LcReachable.new exampleMem false))).2.2 0).2.1 0 rfl⟩

/-! ## Claims on the weight reset and on the plain round-robin mode -/

/-- C13 (round-trip weight reset). For every round-robin balancer, in either mode
and in any state: after `ResetWeights` the pool is unchanged, every pooled server
has `CurrentWeight = 0` and `EffectiveWeight = Weight`, its weight is unchanged,
and the index is `0`; and every sequence of subsequent `GetServer` calls completes
and returns the same servers as the same calls on a balancer of the same mode
built by `NewRoundRobinLoadBalancer` and `AddServer` of the same servers in the
same order, taken as fresh objects (`mem0`: same weights, `CurrentWeight = 0`,
`EffectiveWeight` unset or equal to the weight). -/
theorem reset_round_trip (lb : RoundRobinLoadBalancer) (mem0 : Mem)
    (hfresh : ∀ p ∈ lb.Servers, (mem0 p).Weight = (lb.mem p).Weight ∧
      (mem0 p).CurrentWeight = 0 ∧
      ((mem0 p).EffectiveWeight = 0 ∨ (mem0 p).EffectiveWeight = (mem0 p).Weight)) :
    lb.ResetWeights.Servers = lb.Servers ∧
    (∀ p ∈ lb.Servers, (lb.ResetWeights.mem p).CurrentWeight = 0 ∧
      (lb.ResetWeights.mem p).EffectiveWeight = (lb.ResetWeights.mem p).Weight ∧
      (lb.ResetWeights.mem p).Weight = (lb.mem p).Weight) ∧
    lb.ResetWeights.currentIndex = 0 ∧
    ∀ n, ∃ rs, lb.ResetWeights.results n = some rs ∧
      (lb.Servers.foldl RoundRobinLoadBalancer.AddServer
        (NewRoundRobinLoadBalancer mem0 lb.weighted)).results n = some rs := by
  have hreset : ∀ p ∈ lb.Servers, lb.ResetWeights.mem p =
      { lb.mem p with CurrentWeight := 0, EffectiveWeight := (lb.mem p).Weight } := by
    intro p hp
    show (lb.Servers.foldl resetServer lb.mem) p = _
    rw [resetFold_mem, if_pos hp]
  refine ⟨rfl, fun p hp => by rw [hreset p hp]; exact ⟨rfl, rfl, rfl⟩, rfl, fun n => ?_⟩
  obtain ⟨x, hx⟩ := calls_total n lb.ResetWeights (Or.inr (le_refl _))
  have hres : lb.ResetWeights.results n = some x.1 := by
    unfold RoundRobinLoadBalancer.results
    rw [hx]
    rfl
  refine ⟨x.1, hres, ?_⟩
  rw [← hres]
  symm
  apply results_agree
  obtain ⟨h1, h2, h3, h4⟩ := addFold_spec lb.Servers (NewRoundRobinLoadBalancer mem0 lb.weighted)
  refine ⟨by rw [h1]; rfl, h2.symm, h3.symm, fun p hp => ?_⟩
  obtain ⟨a1, a2, a3⟩ := h4 p
  obtain ⟨f1, f2, f3⟩ := hfresh p hp
  rw [hreset p hp]
  refine ⟨?_, ?_, ?_⟩
  · rw [a1]; exact f2.symm
  · rw [a2]
    show (if (lb.mem p).Weight = 0 then (lb.mem p).Weight else (lb.mem p).Weight) =
      effWeight (mem0 p)
    unfold effWeight
    rcases f3 with f3 | f3
    · rw [if_pos f3, f1]; split_ifs <;> rfl
    · rw [f3, f1]
  · rw [a3]; exact f1.symm

/-- C13, witness: the example balancer (weights 1, 2, 3) after one `GetServer`
call, reset, against the fresh balancer over the same servers. -/
theorem reset_round_trip_witness :
    (∀ p ∈ exampleRr.getWeighted.2.Servers,
      (exampleMem p).Weight = (exampleRr.getWeighted.2.mem p).Weight ∧
      (exampleMem p).CurrentWeight = 0 ∧
      ((exampleMem p).EffectiveWeight = 0 ∨
        (exampleMem p).EffectiveWeight = (exampleMem p).Weight)) ∧
    exampleRr.getWeighted.2.ResetWeights.currentIndex = 0 ∧
    ∃ rs, exampleRr.getWeighted.2.ResetWeights.results 6 = some rs ∧
      (exampleRr.getWeighted.2.Servers.foldl RoundRobinLoadBalancer.AddServer
        (NewRoundRobinLoadBalancer exampleMem exampleRr.getWeighted.2.weighted)).results 6 =
          some rs :=
  have h : ∀ p ∈ exampleRr.getWeighted.2.Servers,
      (exampleMem p).Weight = (exampleRr.getWeighted.2.mem p).Weight ∧
      (exampleMem p).CurrentWeight = 0 ∧
      ((exampleMem p).EffectiveWeight = 0 ∨
        (exampleMem p).EffectiveWeight = (exampleMem p).Weight) := by decide
  ⟨h, (reset_round_trip exampleRr.getWeighted.2 exampleMem h).2.2.1,
    (reset_round_trip exampleRr.getWeighted.2 exampleMem h).2.2.2 6⟩

/-- C17 (plain round-robin order). In non-weighted mode, with a non-empty pool of
`n` servers and the index at `0` (as at construction and after `ResetWeights`),
whatever the weights: every sequence of `k` calls completes, and its `j`-th call
(`1 ≤ j ≤ k`) returns the server at pool position `j mod n`; and for every `m`
the `n` calls `m + 1, ..., m + n` return the servers at the positions
`(m + 1) mod n, ..., (m + n) mod n`, which are the positions `0, ..., n - 1`,
each exactly once. -/
theorem plain_round_robin_order (lb : RoundRobinLoadBalancer) (hplain : lb.weighted = false)
    (hne : lb.Servers ≠ []) (hi : lb.currentIndex = 0) :
    (∀ k, ∃ rs lb2, lb.calls k = some (rs, lb2) ∧ rs.length = k ∧
      ∀ j, 1 ≤ j → j ≤ k →
        ∃ s, lb.Servers[j % lb.Servers.length]? = some s ∧ rs[j - 1]? = some (some s)) ∧
    (∀ m, ∃ rs lb2, lb.calls (m + lb.Servers.length) = some (rs, lb2) ∧
      rs.drop m = ((List.range lb.Servers.length).map
        (fun j => (m + 1 + j) % lb.Servers.length)).map (fun i => lb.Servers[i]?) ∧
      ((List.range lb.Servers.length).map
        (fun j => (m + 1 + j) % lb.Servers.length)).Perm (List.range lb.Servers.length)) := by
  have hpos : 0 < lb.Servers.length := List.length_pos.2 hne
  constructor
  · intro k
    obtain ⟨lb2, hcalls, _⟩ := plain_calls k lb 0 hplain hne (by simpa using hi)
    refine ⟨_, lb2, hcalls, by simp, ?_⟩
    intro j h1 hjk
    have hlt : j % lb.Servers.length < lb.Servers.length := Nat.mod_lt _ hpos
    refine ⟨lb.Servers[j % lb.Servers.length], List.getElem?_eq_getElem hlt, ?_⟩
    rw [List.getElem?_map, List.getElem?_range (by omega)]
    simp only [Option.map_some', zero_add]
    rw [show j - 1 + 1 = j by omega, List.getElem?_eq_getElem hlt]
  · intro m
    obtain ⟨lb2, hcalls, _⟩ := plain_calls (m + lb.Servers.length) lb 0 hplain hne
      (by simpa using hi)
    refine ⟨_, lb2, hcalls, ?_, window_positions _ m⟩
    rw [List.range_add, List.map_append, List.drop_left' (by simp), List.map_map, List.map_map]
    apply List.map_congr_left
    intro j _
    simp only [Function.comp, zero_add]
    congr 2
    omega

/-- C17, witness: four calls on a fresh plain balancer over three servers. -/
theorem plain_round_robin_order_witness :
    plainRr.weighted = false ∧ plainRr.Servers ≠ [] ∧ plainRr.currentIndex = 0 ∧
    ∃ rs lb2, plainRr.calls 4 = some (rs, lb2) ∧ rs.length = 4 ∧
      ∀ j, 1 ≤ j → j ≤ 4 →
        ∃ s, plainRr.Servers[j % plainRr.Servers.length]? = some s ∧
          rs[j - 1]? = some (some s) :=
  ⟨rfl, by decide, rfl, (plain_round_robin_order plainRr rfl (by decide) rfl).1 4⟩

/-! ## Claims on removing servers -/

/-- C14 (removing an unknown identity). `BaseLoadBalancer.RemoveServer(address)`
with an address of no pooled server changes nothing, and with an address of a
pooled server removes the first server of that address only, keeping the order of
the others. `LeastConnectionsLoadBalancer.RemoveServer(server)` with a server not
in the pool changes nothing (pool and counters), and with a pooled server removes
its first occurrence only. `MaglevHashLoadBalancer.RemoveServer(server)`
completes; it leaves the pool unchanged when the server is not in it and removes
the first occurrence only when it is; and on a state left by a rebuild, the
addresses and weights of the pooled servers being what they were at that rebuild,
removing a server not in the pool leaves the whole state, the lookup table
included, as it was. -/
theorem remove_unknown_noop (H : HashFns) :
    (∀ (b : BaseLoadBalancer) (address : String),
      ((∀ p ∈ b.Servers, (b.mem p).Address ≠ address) → b.RemoveServer address = b) ∧
      ((∃ p ∈ b.Servers, (b.mem p).Address = address) →
        ∃ l1 p l2, b.Servers = l1 ++ p :: l2 ∧ (b.mem p).Address = address ∧
          (∀ q ∈ l1, (b.mem q).Address ≠ address) ∧
          (b.RemoveServer address).Servers = l1 ++ l2 ∧
          (b.RemoveServer address).mem = b.mem)) ∧
    (∀ (lb : LeastConnectionsLoadBalancer) (server : Ptr),
      (server ∉ lb.Servers → lb.RemoveServer server = lb) ∧
      (server ∈ lb.Servers →
        ∃ l1 l2, lb.Servers = l1 ++ server :: l2 ∧ server ∉ l1 ∧
          (lb.RemoveServer server).Servers = l1 ++ l2)) ∧
    (∀ (lb : MaglevHashLoadBalancer) (server : Ptr), TableInv lb →
      ∃ lb2, lb.RemoveServer H server = some lb2 ∧
        (server ∉ lb.Servers → lb2.Servers = lb.Servers) ∧
        (server ∈ lb.Servers →
          ∃ l1 l2, lb.Servers = l1 ++ server :: l2 ∧ server ∉ l1 ∧ lb2.Servers = l1 ++ l2)) ∧
    (∀ (pre lb : MaglevHashLoadBalancer) (mem : Mem) (server : Ptr),
      pre.lookupTable.length = pre.tableSize → updateLookupTable H pre = some lb →
      (∀ p ∈ lb.Servers, (mem p).Address = (lb.mem p).Address ∧
        (mem p).Weight = (lb.mem p).Weight) →
      server ∉ lb.Servers →
      MaglevHashLoadBalancer.RemoveServer H { lb with mem := mem } server =
        some { lb with mem := mem }) := by
  refine ⟨fun b address => ⟨?_, ?_⟩, fun lb server => ⟨?_, ?_⟩, ?_, ?_⟩
  · intro h
    unfold BaseLoadBalancer.RemoveServer
    rw [List.eraseP_of_forall_not]
    intro p hp
    simpa using h p hp
  · rintro ⟨p, hp, ha⟩
    obtain ⟨a, l1, l2, h1, h2, h3, h4⟩ := @List.exists_of_eraseP _
      (fun server => decide ((b.mem server).Address = address)) _ _ hp (by simpa using ha)
    refine ⟨l1, a, l2, h3, by simpa using h2, fun q hq => by simpa using h1 q hq, h4, rfl⟩
  · intro h
    unfold LeastConnectionsLoadBalancer.RemoveServer
    rw [if_neg h]
  · intro h
    obtain ⟨l1, l2, h1, h2, h3⟩ := List.exists_erase_eq h
    refine ⟨l1, l2, h2, h1, ?_⟩
    unfold LeastConnectionsLoadBalancer.RemoveServer
    rw [if_pos h]
    exact h3
  · intro lb server hinv
    obtain ⟨lb2, h2, hsrv, _⟩ := RemoveServer_spec H lb server hinv.len
    refine ⟨lb2, h2, ?_, ?_⟩
    · intro h
      rw [hsrv, List.erase_of_not_mem h]
    · intro h
      obtain ⟨l1, l2, h1, h3, h4⟩ := List.exists_erase_eq h
      exact ⟨l1, l2, h3, h1, by rw [hsrv, h4]⟩
  · intro pre lb mem server hlen hpre hmem hs
    unfold MaglevHashLoadBalancer.RemoveServer
    have : ({ lb with mem := mem } : MaglevHashLoadBalancer).Servers.erase server = lb.Servers :=
      List.erase_of_not_mem hs
    rw [this]
    exact updateLookupTable_idempotent H pre lb mem hlen hpre hmem

/-- C14, witness: the address `"zz"` and the server `7` are unknown to the example
pools, which stay as they are; the Maglev example completes the removal. -/
theorem remove_unknown_noop_witness :
    (∀ p ∈ exampleBase.Servers, (exampleBase.mem p).Address ≠ "zz") ∧
    exampleBase.RemoveServer "zz" = exampleBase ∧
    7 ∉ exampleLc.Servers ∧ exampleLc.RemoveServer 7 = exampleLc ∧
    TableInv exampleMaglev ∧
    ∃ lb2, exampleMaglev.RemoveServer degenerateHash 0 = some lb2 ∧
      (0 ∉ exampleMaglev.Servers → lb2.Servers = exampleMaglev.Servers) ∧
      (0 ∈ exampleMaglev.Servers →
        ∃ l1 l2, exampleMaglev.Servers = l1 ++ 0 :: l2 ∧ 0 ∉ l1 ∧ lb2.Servers = l1 ++ l2) :=
  ⟨by decide, ((remove_unknown_noop degenerateHash).1 exampleBase "zz").1 (by decide),
    by decide, ((remove_unknown_noop degenerateHash).2.1 exampleLc 7).1 (by decide),
    exampleMaglev_inv,
    (remove_unknown_noop degenerateHash).2.2.1 exampleMaglev 0 exampleMaglev_inv⟩

/-! ## Claims on the random balancer -/

/-- C16, counterexample: a pool of two servers of weight `2 ^ 62`. Both have
`Weight > 0`, but the sum `totalWeight` wraps to `-2 ^ 63`, and `Intn` panics
on it whatever the generator: `GetServer` returns no server. -/
theorem random_weighted_draw_counterexample :
    (∃ p ∈ heavyRandom.Servers, (heavyRandom.mem p).Weight > 0) ∧
    sumWeights heavyRandom.mem
      (heavyRandom.Servers.filter fun server => (heavyRandom.mem server).Weight > 0) 0 =
      -(2 ^ 63) ∧
    ∀ intn : Int → Int, heavyRandom.GetServer intn "" = none := by
  have hf : (heavyRandom.Servers.filter fun server => (heavyRandom.mem server).Weight > 0) =
      [0, 1] := by decide
  have hsum : sumWeights heavyRandom.mem [0, 1] 0 = -(2 ^ 63) := by decide
  refine ⟨⟨0, by decide, by decide⟩, by rw [hf, hsum], ?_⟩
  intro intn
  unfold RandomLoadBalancer.GetServer
  dsimp only
  rw [hf, hsum]
  rfl

/-- C16 (weighted random draw), amended with the bound on the total weight.
With `T` the total weight of the pooled servers with `Weight > 0`: `GetServer`
returns `nil` exactly when no pooled server has `Weight > 0`; when `T` is below
`2 ^ 63` (the additions of `int` values do not wrap) and the generator answers
`Intn(T)` with a value `r` in `[0, T)`, the cumulative loop itself returns (the
final `return` of the last server is not reached), and it returns the server at
the pool position that `r` selects, a server with `Weight > 0` whose cumulative
weight exceeds `r` while the cumulative weight of every earlier server with
`Weight > 0` does not; and for each pool position the number of values `r` in
`[0, T)` that select it is the weight of the server there when that is `> 0`,
and `0` otherwise. -/
theorem random_weighted_draw (r : RandomLoadBalancer) (intn : Int → Int) (key : String) :
    (r.GetServer intn key = some none ↔ ∀ p ∈ r.Servers, ¬ (r.mem p).Weight > 0) ∧
    ((∃ p ∈ r.Servers, (r.mem p).Weight > 0) →
      totalWeightOf r.mem (r.Servers.filter fun server => (r.mem server).Weight > 0) < 2 ^ 63 →
      0 ≤ intn (totalWeightOf r.mem (r.Servers.filter fun server => (r.mem server).Weight > 0)) →
      intn (totalWeightOf r.mem (r.Servers.filter fun server => (r.mem server).Weight > 0)) <
        totalWeightOf r.mem (r.Servers.filter fun server => (r.mem server).Weight > 0) →
      ∃ i p, r.Servers[i]? = some p ∧ (r.mem p).Weight > 0 ∧
        selects r.mem r.Servers
          (intn (totalWeightOf r.mem
            (r.Servers.filter fun server => (r.mem server).Weight > 0))) i = true ∧
        (∀ j q, j < i → r.Servers[j]? = some q → (r.mem q).Weight > 0 →
          weightBefore r.mem r.Servers (j + 1) ≤
            intn (totalWeightOf r.mem
              (r.Servers.filter fun server => (r.mem server).Weight > 0))) ∧
        pickDraw r.mem
          (intn (totalWeightOf r.mem (r.Servers.filter fun server => (r.mem server).Weight > 0)))
          (r.Servers.filter fun server => (r.mem server).Weight > 0) 0 = some p ∧
        r.GetServer intn key = some (some p)) ∧
    (∀ i p, r.Servers[i]? = some p →
      ((List.range
          (totalWeightOf r.mem
            (r.Servers.filter fun server => (r.mem server).Weight > 0)).toNat).filter
        fun x : Nat => selects r.mem r.Servers (x : Int) i).length =
        if (r.mem p).Weight > 0 then (r.mem p).Weight.toNat else 0) := by
  refine ⟨?_, ?_, fun i p hp => selects_count r.mem r.Servers i p hp⟩
  · constructor
    · intro h p hp hw
      have hne : (r.Servers.filter fun server => (r.mem server).Weight > 0) ≠ [] :=
        List.ne_nil_of_mem (List.mem_filter.2 ⟨hp, by simpa using hw⟩)
      unfold RandomLoadBalancer.GetServer at h
      dsimp only at h
      rw [if_neg (fun h0 => hne (List.length_eq_zero.1 h0))] at h
      by_cases hle : sumWeights r.mem
          (r.Servers.filter fun server => (r.mem server).Weight > 0) 0 ≤ 0
      · rw [if_pos hle] at h
        cases h
      · rw [if_neg hle] at h
        revert h
        cases pickDraw r.mem
          (intn (sumWeights r.mem (r.Servers.filter fun server => (r.mem server).Weight > 0) 0))
          (r.Servers.filter fun server => (r.mem server).Weight > 0) 0 with
        | some s => intro h; cases h
        | none =>
          intro h
          dsimp only at h
          have := List.getLast?_eq_none_iff.1 (Option.some.inj h)
          exact hne this
    · intro h
      have : (r.Servers.filter fun server => (r.mem server).Weight > 0) = [] := by
        rw [List.filter_eq_nil_iff]
        intro p hp
        simpa using h p hp
      unfold RandomLoadBalancer.GetServer
      dsimp only
      rw [this]
      rfl
  · rintro ⟨p0, hp0, hw0⟩ hbound hlo hhi
    have hne : (r.Servers.filter fun server => (r.mem server).Weight > 0) ≠ [] :=
      List.ne_nil_of_mem (List.mem_filter.2 ⟨hp0, by simpa using hw0⟩)
    have hpos := totalWeightOf_filter_pos r.mem r.Servers hne
    have hsum := sumWeights_eq r.mem _ (filter_weight_pos r.mem r.Servers) 0 (le_refl _)
      (by simpa using hbound)
    rw [zero_add] at hsum
    have hdraw := pickDraw_eq r.mem
      (intn (totalWeightOf r.mem (r.Servers.filter fun server => (r.mem server).Weight > 0)))
      _ (filter_weight_pos r.mem r.Servers) 0 (le_refl _) (by simpa using hbound)
    obtain ⟨l1, p, l2, h1, h2, h3, h4, h5⟩ := pickCumulative_split r.mem _ r.Servers 0 hlo
      (by simpa using hhi)
    have hidx : r.Servers[l1.length]? = some p := by
      rw [h1, List.getElem?_append_right (le_refl _)]; simp
    have htake : r.Servers.take l1.length = l1 := by
      rw [h1]; simp
    have hbefore : weightBefore r.mem r.Servers l1.length =
        totalWeightOf r.mem (l1.filter fun server => (r.mem server).Weight > 0) := by
      unfold weightBefore
      rw [htake]
    have hsucc := weightBefore_succ r.mem r.Servers l1.length
    rw [hidx] at hsucc
    dsimp only at hsucc
    rw [if_pos h2] at hsucc
    refine ⟨l1.length, p, hidx, h2, ?_, ?_, by rw [hdraw, h5], ?_⟩
    · unfold selects
      rw [hidx]
      dsimp only
      rw [decide_eq_true_iff]
      exact ⟨h2, by omega, by omega⟩
    · intro j q hj _ _
      have := weightBefore_mono r.mem r.Servers (j + 1) l1.length hj
      omega
    · unfold RandomLoadBalancer.GetServer
      dsimp only
      rw [if_neg (fun h0 => hne (List.length_eq_zero.1 h0)), hsum, if_neg (not_le.2 hpos),
        hdraw, h5]

/-- C16, witness: with weights 1, 2, 3 (total 6) the draw `3` selects the third
server, which three of the six possible draws do. -/
theorem random_weighted_draw_witness :
    (∃ p ∈ exampleRandom.Servers, (exampleRandom.mem p).Weight > 0) ∧
    totalWeightOf exampleRandom.mem
      (exampleRandom.Servers.filter fun server => (exampleRandom.mem server).Weight > 0) <
      2 ^ 63 ∧
    exampleRandom.GetServer (fun _ => 3) "" = some (some 2) ∧
    ((List.range
        (totalWeightOf exampleRandom.mem
          (exampleRandom.Servers.filter fun server =>
            (exampleRandom.mem server).Weight > 0)).toNat).filter
      fun x : Nat => selects exampleRandom.mem exampleRandom.Servers (x : Int) 2).length = 3 := by
  have hav : ∃ p ∈ exampleRandom.Servers, (exampleRandom.mem p).Weight > 0 :=
    ⟨0, by decide, by decide⟩
  have hbound : totalWeightOf exampleRandom.mem
      (exampleRandom.Servers.filter fun server => (exampleRandom.mem server).Weight > 0) <
      2 ^ 63 := by decide
  obtain ⟨i, p, _, _, _, _, hpick, hget⟩ :=
    (random_weighted_draw exampleRandom (fun _ => 3) "").2.1 hav hbound (by decide) (by decide)
  have h2 : pickDraw exampleRandom.mem 3
      (exampleRandom.Servers.filter fun server => (exampleRandom.mem server).Weight > 0) 0 =
      some 2 := by decide
  rw [h2] at hpick
  cases hpick
  exact ⟨hav, hbound, hget,
    (random_weighted_draw exampleRandom (fun _ => 3) "").2.2 2 2 (by decide)⟩

/-! ## Claims on the rebuild, the probing and the permutations of the Maglev balancer -/

/-- C15 (registration never fails). In every reachable state and for every server
(any weight, any address) `AddServer` completes and leaves the old pool with the
server appended. It is the rebuild of the balancer with the server appended, and
when that pool has a server of `Weight > 0`: every permutation is computed, has
65537 entries, each in `[0, 65537)`; the greedy loop ends after 49152 iterations
(49152 passes and the final test), `filled` counting them; and every cursor
`next[i]` ends below 65537. No index leaves its range (the model returns `none`
when one does). -/
theorem maglev_registration_never_fails (H : HashFns) (lb : MaglevHashLoadBalancer)
    (server : Ptr) (hr : Reachable H lb) :
    ∃ lb2, lb.AddServer H server = some lb2 ∧ lb2.Servers = lb.Servers ++ [server] ∧
      lb.AddServer H server = updateLookupTable H (lb.appendServer server) ∧
      ((scanServers (lb.appendServer server).mem (lb.appendServer server).Servers 0
          Scan.empty).availableServers ≠ [] →
        ∃ perms g,
          buildPerms H (lb.appendServer server)
            (scanServers (lb.appendServer server).mem (lb.appendServer server).Servers 0
              Scan.empty)
            (scanServers (lb.appendServer server).mem (lb.appendServer server).Servers 0
              Scan.empty).availableServers = some perms ∧
          (∀ perm ∈ perms, perm.length = 65537 ∧ ∀ v ∈ perm, v < 65537) ∧
          greedyLoop (lb.appendServer server).mem 65537
            (scanServers (lb.appendServer server).mem (lb.appendServer server).Servers 0
              Scan.empty) perms (49152 + 1)
            (greedyStart (lb.appendServer server)
              (scanServers (lb.appendServer server).mem (lb.appendServer server).Servers 0
                Scan.empty)) = some g ∧
          g.filled = 49152 ∧ ∀ x ∈ g.next, x < 65537) := by
  have hinv := hr.tableInv
  obtain ⟨lb2, h2, hsrv, _⟩ := AddServer_spec H lb server hinv.len
  refine ⟨lb2, h2, hsrv, rfl, fun hav => ?_⟩
  have hts : (lb.appendServer server).tableSize = 65537 := hinv.size
  obtain ⟨perms, g, h1, h3, h4, h5, h6, _⟩ := greedy_phase H (lb.appendServer server)
    hinv.len hav
  rw [hts] at h3 h4 h5 h6
  exact ⟨perms, g, h1, h3.2, h4, h5, fun x hx => lt_of_le_of_lt (h6 x hx) (by decide)⟩

/-- C15, witness: adding server `0` to a new balancer completes and leaves the
pool `[0]`. -/
theorem maglev_registration_never_fails_witness :
    Reachable degenerateHash (NewMaglevHashLoadBalancer exampleMem) ∧
    ∃ lb2, (NewMaglevHashLoadBalancer exampleMem).AddServer degenerateHash 0 = some lb2 ∧
      lb2.Servers = [0] :=
  ⟨Reachable.new exampleMem,
    (maglev_registration_never_fails degenerateHash (NewMaglevHashLoadBalancer exampleMem) 0
      (Reachable.new exampleMem)).imp fun _ h => ⟨h.1, h.2.1⟩⟩

/-- C18, counterexample: a reachable state (servers `0`, `1`, `2` added, then the
weight of server `0` set to `0`) and the key `"k"` of slot `1`: the owner at slot
`1` and the owners at the 19 slots `2, ..., 20` are not usable, the owner at the
twentieth subsequent slot `21` is server `1`, with `Weight > 0`; `GetServer`
returns the fallback's server `2`, not server `1`. -/
theorem maglev_probe_twentieth_slot_counterexample :
    ∃ lb, Reachable probeHash lb ∧ lb.Servers ≠ [] ∧
      u64 (probeHash.murmur3Sum64 "k") % 65537 = 1 ∧
      usableOwner lb 1 = none ∧
      (∀ o, 1 ≤ o → o ≤ 19 → usableOwner lb ((1 + o) % 65537) = none) ∧
      usableOwner lb ((1 + 20) % 65537) = some 1 ∧
      lb.GetServer probeHash "k" = some (some 2) := by
  obtain ⟨lb, hr, hS, hm, h1, h21⟩ := probe_state_owners
  have hinv := hr.tableInv
  have hts : lb.tableSize = 65537 := hinv.size
  have hne : lb.Servers ≠ [] := by rw [hS]; decide
  have hidx : u64 (probeHash.murmur3Sum64 "k") % 65537 = 1 := by decide
  have hhash : u64 (probeHash.murmur3Sum64 "k") = 1 := by decide
  have hprobes : ∀ o, 1 ≤ o → o ≤ 19 → usableOwner lb ((1 + o) % 65537) = none := by
    intro o h1o h19
    rw [Nat.mod_eq_of_lt (by omega)]
    exact h1 _ (by omega) (by omega)
  refine ⟨lb, hr, hne, hidx, h1 1 (by omega) (by omega), hprobes, h21, ?_⟩
  rw [GetServer_unusable probeHash lb "k" hinv.len (by rw [hts]; decide) hinv.ge hne
    (by rw [hts, hidx]; exact h1 1 (by omega) (by omega))]
  rw [hts, hidx, hhash]
  unfold resolveUnusable
  rw [probe_none lb hinv.len (by rw [hts]; decide) 1 (List.range' 1 19) (by
    intro o ho
    rw [List.mem_range'_1] at ho
    rw [hts]
    exact hprobes o ho.1 (by omega))]
  dsimp only
  rw [hS, hm]
  decide

/-- C18 (lookup probing), amended to the 19 slots that the loop looks at. In a
reachable state with a non-empty pool, for a key whose slot `index` holds an
owner that is not usable (sentinel, out of range, or a server with `Weight ≤ 0`):
if one of the 19 subsequent slots `(index + 1) mod M, ..., (index + 19) mod M`
holds a usable owner, `GetServer` returns the owner of the first such slot; if
none of the 19 does, `GetServer` returns the fallback's result, the available
server at position `hash mod` the number of available servers (`nil` when none
is available). -/
theorem maglev_lookup_probes_nineteen (H : HashFns) (lb : MaglevHashLoadBalancer) (key : String)
    (hr : Reachable H lb) (hne : lb.Servers ≠ [])
    (h0 : usableOwner lb (u64 (H.murmur3Sum64 key) % 65537) = none) :
    (∀ o p, 1 ≤ o → o ≤ 19 →
      usableOwner lb ((u64 (H.murmur3Sum64 key) % 65537 + o) % 65537) = some p →
      (∀ o2, 1 ≤ o2 → o2 < o →
        usableOwner lb ((u64 (H.murmur3Sum64 key) % 65537 + o2) % 65537) = none) →
      lb.GetServer H key = some (some p)) ∧
    ((∀ o, 1 ≤ o → o ≤ 19 →
        usableOwner lb ((u64 (H.murmur3Sum64 key) % 65537 + o) % 65537) = none) →
      lb.GetServer H key =
        some ((lb.Servers.filter fun server => (lb.mem server).Weight > 0)[
          u64 (H.murmur3Sum64 key) %
            (lb.Servers.filter fun server => (lb.mem server).Weight > 0).length]?)) := by
  have hinv := hr.tableInv
  have hts : lb.tableSize = 65537 := hinv.size
  have hpos : 0 < lb.tableSize := by rw [hts]; decide
  have hget := GetServer_unusable H lb key hinv.len hpos hinv.ge hne (by rw [hts]; exact h0)
  rw [hts] at hget
  constructor
  · intro o p h1 h19 hp hfirst
    rw [hget]
    unfold resolveUnusable
    rw [range'_split o h1 h19, probe_first lb hinv.len hpos _ _ o _ p (by
      intro o2 ho2
      rw [List.mem_range'_1] at ho2
      rw [hts]
      exact hfirst o2 ho2.1 (by omega)) (by rw [hts]; exact hp)]
  · intro hall
    rw [hget]
    unfold resolveUnusable
    rw [probe_none lb hinv.len hpos _ (List.range' 1 19) (by
      intro o ho
      rw [List.mem_range'_1] at ho
      rw [hts]
      exact hall o ho.1 (by omega))]
    dsimp only
    by_cases hlen : (lb.Servers.filter fun server => (lb.mem server).Weight > 0).length > 0
    · rw [if_pos hlen]
      have hi : u64 (H.murmur3Sum64 key) %
          (lb.Servers.filter fun server => (lb.mem server).Weight > 0).length <
          (lb.Servers.filter fun server => (lb.mem server).Weight > 0).length :=
        Nat.mod_lt _ hlen
      rw [List.getElem?_eq_getElem hi]
    · rw [if_neg hlen]
      have : (lb.Servers.filter fun server => (lb.mem server).Weight > 0) = [] :=
        List.length_eq_zero.1 (by omega)
      rw [this]
      rfl

/-- C18, witness: in the state of the counterexample the key `"kk"` of slot `2`
has slot `21` as its nineteenth subsequent slot, and gets its owner, server `1`. -/
theorem maglev_lookup_probes_nineteen_witness :
    ∃ lb, Reachable probeHash lb ∧ lb.Servers ≠ [] ∧
      u64 (probeHash.murmur3Sum64 "kk") % 65537 = 2 ∧
      usableOwner lb 2 = none ∧ usableOwner lb ((2 + 19) % 65537) = some 1 ∧
      lb.GetServer probeHash "kk" = some (some 1) := by
  obtain ⟨lb, hr, hS, hm, h1, h21⟩ := probe_state_owners
  have hne : lb.Servers ≠ [] := by rw [hS]; decide
  have hidx : u64 (probeHash.murmur3Sum64 "kk") % 65537 = 2 := by decide
  have h2 : usableOwner lb 2 = none := h1 2 (by omega) (by omega)
  refine ⟨lb, hr, hne, hidx, h2, h21, ?_⟩
  exact (maglev_lookup_probes_nineteen probeHash lb "kk" hr hne (by rw [hidx]; exact h2)).1
    19 1 (by omega) (by omega) (by rw [hidx]; exact h21) (by
      intro o2 h1o h19
      rw [hidx, Nat.mod_eq_of_lt (by omega)]
      exact h1 _ (by omega) (by omega))

/-- C19, counterexample: the server `"a"` of weight 1 at pool position `0`, with
hash values giving `offset = 0` and `skip = 65536 = M - 1`: the first two entries
of its permutation are both `0`. -/
theorem maglev_permutation_counterexample :
    ∃ perm, permutation degenerateHash exampleMaglev 0 = some perm ∧
      exampleMaglev.Servers[0]? = some 0 ∧ 1 ≤ (exampleMaglev.mem 0).Weight ∧
      permOffset degenerateHash exampleMaglev 0 0 = 0 ∧
      permSkip degenerateHash exampleMaglev 0 0 = 65536 ∧
      perm[0]? = some 0 ∧ perm[1]? = some 0 := by
  obtain ⟨perm, hperm, hlen, _⟩ := permutation_ok degenerateHash exampleMaglev 0 0 rfl
  have hgood := exampleMem_good 0
  have hall := degenerate_permutation exampleMaglev 0 0 rfl rfl hgood.1 hgood.2.1 hgood.2.2
    perm hperm
  have hl : perm.length = 65537 := hlen
  have h0 : 0 < perm.length := by omega
  have h1 : 1 < perm.length := by omega
  refine ⟨perm, hperm, rfl, by decide, by decide, by decide, ?_, ?_⟩
  · rw [List.getElem?_eq_getElem h0, hall _ (List.getElem_mem h0)]
  · rw [List.getElem?_eq_getElem h1, hall _ (List.getElem_mem h1)]

/-- C19 (permutation), amended with the condition on `weight + skip`. For a pool
position `i` holding a server of weight `1 ≤ Weight < 2 ^ 46` (no wraparound in
the 64-bit products), whatever the hash values: `offset` is in `[0, M)`, `skip` in
`[1, M - 1]`, `permutation(i)` has `M = 65537` entries, each in `[0, M)`, entry
`j` being `(offset + j * (Weight + skip)) mod M`; and the entries are pairwise
distinct if and only if `Weight + skip` is not a multiple of `M`. -/
theorem maglev_permutation_entries (H : HashFns) (lb : MaglevHashLoadBalancer) (i : Nat)
    (p : Ptr) (hts : lb.tableSize = lookupTableSize) (hp : lb.Servers[i]? = some p)
    (hw1 : 1 ≤ (lb.mem p).Weight) (hw2 : (lb.mem p).Weight < 2 ^ 46) :
    ∃ perm, permutation H lb i = some perm ∧ perm.length = 65537 ∧
      (∀ v ∈ perm, v < 65537) ∧
      permOffset H lb i p < 65537 ∧ 1 ≤ permSkip H lb i p ∧ permSkip H lb i p ≤ 65536 ∧
      (∀ j, j < 65537 → perm[j]? =
        some ((permOffset H lb i p + j * ((lb.mem p).Weight.toNat + permSkip H lb i p)) %
          65537)) ∧
      ((∀ j k, j < 65537 → k < 65537 → perm[j]? = perm[k]? → j = k) ↔
        ((lb.mem p).Weight.toNat + permSkip H lb i p) % 65537 ≠ 0) := by
  have hoff : permOffset H lb i p < 65537 := by
    unfold permOffset
    rw [hts]
    exact Nat.mod_lt _ (by decide)
  have hskip : permSkip H lb i p ≤ 65536 := by
    unfold permSkip
    rw [hts]
    have : u64 (H.xxh3Hash ((lb.mem p).Address ++ ":" ++ runeString i)) % (lookupTableSize - 1) <
        lookupTableSize - 1 := Nat.mod_lt _ (by decide)
    unfold lookupTableSize at this ⊢
    omega
  have hskip1 : 1 ≤ permSkip H lb i p := by unfold permSkip; omega
  have hentries : permutation H lb i = some ((List.range lookupTableSize).map fun j =>
      (permOffset H lb i p + j * ((lb.mem p).Weight.toNat + permSkip H lb i p)) % 65537) := by
    unfold permutation
    rw [hp]
    dsimp only
    rw [if_neg (by omega), hts]
    refine congrArg some (List.map_congr_left ?_)
    intro j hj
    have hj2 : j < 65537 := List.mem_range.1 hj
    have hwn : (lb.mem p).Weight = (((lb.mem p).Weight.toNat : Nat) : Int) :=
      (Int.toNat_of_nonneg (by omega)).symm
    have hwb : (lb.mem p).Weight.toNat < 2 ^ 46 := by omega
    have hmul : j * (lb.mem p).Weight.toNat ≤ 65537 * 2 ^ 46 :=
      Nat.mul_le_mul (by omega) (by omega)
    have hmul2 : j * permSkip H lb i p ≤ 65537 * 65536 := Nat.mul_le_mul (by omega) hskip
    have := permEntry_eq 65537 (permOffset H lb i p) (permSkip H lb i p)
      (lb.mem p).Weight.toNat j (by decide) (by omega) (by omega)
    rw [← hwn] at this
    unfold permOffset permSkip at this ⊢
    rw [hts] at this ⊢
    exact this
  have hget : ∀ j, j < 65537 → ((List.range lookupTableSize).map fun j =>
      (permOffset H lb i p + j * ((lb.mem p).Weight.toNat + permSkip H lb i p)) % 65537)[j]? =
      some ((permOffset H lb i p + j * ((lb.mem p).Weight.toNat + permSkip H lb i p)) %
        65537) := by
    intro j hj
    rw [List.getElem?_map, List.getElem?_range (show j < lookupTableSize from hj)]
    rfl
  refine ⟨_, hentries, by rw [List.length_map, List.length_range]; rfl, ?_, hoff, hskip1,
    hskip, hget, ?_⟩
  · intro v hv
    obtain ⟨j, _, rfl⟩ := List.mem_map.1 hv
    exact Nat.mod_lt _ (by decide)
  · rw [← stride_distinct (permOffset H lb i p)]
    constructor
    · intro h j k hj hk hjk
      exact h j k hj hk (by rw [hget j hj, hget k hk, hjk])
    · intro h j k hj hk hjk
      rw [hget j hj, hget k hk] at hjk
      exact h j k hj hk (Option.some.inj hjk)

/-- C19, witness: with `offset = 0` and `skip = 1` the permutation of the server of
weight 1 has 65537 pairwise distinct entries. -/
theorem maglev_permutation_entries_witness :
    exampleMaglev.tableSize = lookupTableSize ∧ exampleMaglev.Servers[0]? = some 0 ∧
    1 ≤ (exampleMaglev.mem 0).Weight ∧ (exampleMaglev.mem 0).Weight < 2 ^ 46 ∧
    ∃ perm, permutation zeroHash exampleMaglev 0 = some perm ∧ perm.length = 65537 ∧
      ∀ j k, j < 65537 → k < 65537 → perm[j]? = perm[k]? → j = k := by
  obtain ⟨perm, h1, h2, _, _, _, _, _, h3⟩ :=
    maglev_permutation_entries zeroHash exampleMaglev 0 0 rfl rfl (by decide) (by decide)
  exact ⟨rfl, rfl, by decide, by decide, perm, h1, h2, h3.2 (by decide)⟩

/-- C20 (greedy phase), the run that shows the defect: for the pool holding the
server `"a"` of weight 1 alone, with hash values giving `skip = 65536`, the
greedy loop ends with `filled = 49152` while every slot other than slot `0` still
holds the sentinel `-1`: the 49152 assignments all went to slot `0`. -/
theorem maglev_greedy_refills_slot :
    ∃ perms g,
      buildPerms degenerateHash exampleMaglev
        (scanServers exampleMaglev.mem exampleMaglev.Servers 0 Scan.empty)
        (scanServers exampleMaglev.mem exampleMaglev.Servers 0 Scan.empty).availableServers =
          some perms ∧
      greedyLoop exampleMaglev.mem exampleMaglev.tableSize
        (scanServers exampleMaglev.mem exampleMaglev.Servers 0 Scan.empty) perms
        (exampleMaglev.tableSize * 3 / 4 + 1)
        (greedyStart exampleMaglev
          (scanServers exampleMaglev.mem exampleMaglev.Servers 0 Scan.empty)) = some g ∧
      g.filled = 49152 ∧
      ∀ t, 0 < t → t < 65537 → g.lookupTable[t]? = some (-1) := by
  have hlen : exampleMaglev.lookupTable.length = exampleMaglev.tableSize := by
    simp [exampleMaglev]
  have hav : (scanServers exampleMaglev.mem exampleMaglev.Servers 0
      Scan.empty).availableServers ≠ [] := by decide
  obtain ⟨perms, g, h1, _, h4, h5, _, _, _, hkeep⟩ :=
    greedy_phase degenerateHash exampleMaglev hlen hav
  refine ⟨perms, g, h1, h4, h5, fun t ht0 ht => ?_⟩
  rw [hkeep t]
  · rw [List.getElem?_map, List.getElem?_eq_getElem (by rw [hlen]; exact ht)]
    rfl
  · intro perm hperm hin
    obtain ⟨p, hp, hpp⟩ := buildPerms_mem degenerateHash exampleMaglev _ _ perms h1 perm hperm
    have hidx := scan_sound_index (scan_sound exampleMaglev.mem exampleMaglev.Servers) hp
    have hgood := exampleMem_good p
    have := degenerate_permutation exampleMaglev _ p rfl hidx hgood.1 hgood.2.1 hgood.2.2
      perm hpp t hin
    omega

/-! ## Claims on the sequence and the current weights of the smooth weighted mode -/

/-- C21 (sequence for weights 3, 2, 1). On a fresh weighted balancer to which
Server-A (pointer `0`, weight 3), Server-B (`1`, weight 2) and Server-C (`2`,
weight 1) are added in that order, the servers being fresh objects
(`CurrentWeight = 0`, `EffectiveWeight` unset or equal to the weight): the first
six `GetServer` calls return A, B, A, C, B, A; every `CurrentWeight` is `0` after
the sixth call; and calls 7 to 12 return the same six servers again. -/
theorem swrr_sequence_three_two_one (mem : Mem)
    (hA : (mem 0).Weight = 3 ∧ (mem 0).CurrentWeight = 0 ∧
      ((mem 0).EffectiveWeight = 0 ∨ (mem 0).EffectiveWeight = 3))
    (hB : (mem 1).Weight = 2 ∧ (mem 1).CurrentWeight = 0 ∧
      ((mem 1).EffectiveWeight = 0 ∨ (mem 1).EffectiveWeight = 2))
    (hC : (mem 2).Weight = 1 ∧ (mem 2).CurrentWeight = 0 ∧
      ((mem 2).EffectiveWeight = 0 ∨ (mem 2).EffectiveWeight = 1)) :
    ((((NewRoundRobinLoadBalancer mem true).AddServer 0).AddServer 1).AddServer 2).results 6 =
      some [some 0, some 1, some 0, some 2, some 1, some 0] ∧
    ((((NewRoundRobinLoadBalancer mem true).AddServer 0).AddServer 1).AddServer
      2).currentWeightsAfter 6 = some [0, 0, 0] ∧
    ((((NewRoundRobinLoadBalancer mem true).AddServer 0).AddServer 1).AddServer 2).results 12 =
      some [some 0, some 1, some 0, some 2, some 1, some 0,
        some 0, some 1, some 0, some 2, some 1, some 0] := by
  have hag := fresh_agrees_testRr mem hA hB hC
  obtain ⟨t6, ht6, tS, tw, ti, tmem⟩ := testRr_six
  rcases calls_agree 6 _ _ hag with ⟨_, e2⟩ | ⟨rs, lb6, t6b, e1, e2, e3⟩
  · rw [ht6] at e2; cases e2
  rw [ht6] at e2
  cases e2
  have hS6 : lb6.Servers = [0, 1, 2] := e3.1.trans tS
  have hback : RrAgree lb6
      ((((NewRoundRobinLoadBalancer mem true).AddServer 0).AddServer 1).AddServer 2) := by
    refine ⟨hS6.trans (hag.1.trans rfl).symm, e3.2.1.trans tw, e3.2.2.1.trans ti, fun p hp => ?_⟩
    have hp2 : p ∈ [0, 1, 2] := hS6 ▸ hp
    have hpT : p ∈ testRr.Servers := hp2
    have hp0 : p ∈ ((((NewRoundRobinLoadBalancer mem true).AddServer 0).AddServer 1).AddServer
        2).Servers := hag.1 ▸ hpT
    have hall : ∀ q ∈ [0, 1, 2], (testRr.mem q).CurrentWeight = 0 := by decide
    have h0 : (testRr.mem p).CurrentWeight = 0 := hall p hp2
    obtain ⟨c1, c2, c3⟩ := tmem p hp2
    exact (e3.2.2.2 p hp).trans
      (ServerAgree.trans ⟨c1.trans h0.symm, c2, c3⟩ (hag.2.2.2 p hp0).symm)
  rcases calls_agree 6 _ _ hback with ⟨_, f2⟩ | ⟨rs2, lb12, lb6b, f1, f2, _⟩
  · rw [e1] at f2; cases f2
  rw [e1] at f2
  cases f2
  have h12 := calls_add 6 6 _ _ _ _ _ e1 f1
  refine ⟨?_, ?_, ?_⟩
  · unfold RoundRobinLoadBalancer.results
    rw [e1]
    rfl
  · unfold RoundRobinLoadBalancer.currentWeightsAfter
    rw [e1]
    simp only [Option.map_some', Option.some.injEq]
    rw [hS6]
    have c0 := (e3.2.2.2 0 (by rw [hS6]; decide)).1.trans (tmem 0 (by decide)).1
    have c1 := (e3.2.2.2 1 (by rw [hS6]; decide)).1.trans (tmem 1 (by decide)).1
    have c2 := (e3.2.2.2 2 (by rw [hS6]; decide)).1.trans (tmem 2 (by decide)).1
    simp only [List.map_cons, List.map_nil, c0, c1, c2]
  · unfold RoundRobinLoadBalancer.results
    rw [h12]
    rfl

/-- C21, witness: the servers of `TestWeightedRoundRobin`. -/
theorem swrr_sequence_three_two_one_witness :
    testRr.results 6 = some [some 0, some 1, some 0, some 2, some 1, some 0] ∧
    testRr.currentWeightsAfter 6 = some [0, 0, 0] ∧
    testRr.results 12 =
      some [some 0, some 1, some 0, some 2, some 1, some 0,
        some 0, some 1, some 0, some 2, some 1, some 0] :=
  swrr_sequence_three_two_one testMem (by decide) (by decide) (by decide)

/-- C22 (conservation of the total current weight). In weighted mode on a
non-empty pool, for every state: one `GetServer` call returns a pooled server,
keeps the pool and every server's `Weight`, adds to each server's
`CurrentWeight` its effective weight once per occurrence in the pool and
subtracts the total from the winner's, so the sum of `CurrentWeight` over the
pooled servers (each server object once; the sum over the pool when no server is
pooled twice) is unchanged. Hence every sequence of calls completes, keeps the
pool, the weights and that sum, and the sum is `0` after every call when every
`CurrentWeight` was `0` at the start (fresh or reset state). -/
theorem swrr_conserves_current_weight (lb : RoundRobinLoadBalancer) (hw : lb.weighted = true)
    (hne : lb.Servers ≠ []) :
    (∀ key, ∃ b lb2, lb.GetServer key = some (some b, lb2) ∧ b ∈ lb.Servers ∧
      lb2.Servers = lb.Servers ∧ (∀ p, (lb2.mem p).Weight = (lb.mem p).Weight) ∧
      (∀ p, (lb2.mem p).CurrentWeight =
        (lb.mem p).CurrentWeight + (lb.Servers.count p : Int) * effWeight (lb.mem p) -
          if p = b then (lb.Servers.map fun x => effWeight (lb.mem x)).sum else 0) ∧
      currentWeightSum lb2 = currentWeightSum lb ∧
      (lb.Servers.Nodup →
        (lb.Servers.map fun p => (lb2.mem p).CurrentWeight).sum =
          (lb.Servers.map fun p => (lb.mem p).CurrentWeight).sum)) ∧
    (∀ n, ∃ rs lbn, lb.calls n = some (rs, lbn) ∧ lbn.Servers = lb.Servers ∧
      (∀ p, (lbn.mem p).Weight = (lb.mem p).Weight) ∧
      currentWeightSum lbn = currentWeightSum lb ∧
      ((∀ p ∈ lb.Servers, (lb.mem p).CurrentWeight = 0) → currentWeightSum lbn = 0)) := by
  constructor
  · intro key
    obtain ⟨b, lb2, hget, hb, hS, _, _, hwt, hcw, hsum⟩ := wrr_call lb key hw hne
    refine ⟨b, lb2, hget, hb, hS, hwt, hcw, hsum, fun hnd => ?_⟩
    unfold currentWeightSum at hsum
    rw [hS, List.Nodup.dedup hnd] at hsum
    exact hsum
  · intro n
    obtain ⟨rs, lbn, hcalls, _, hS, _, hwt, hsum⟩ := wrr_calls_sum n lb hw hne
    exact ⟨rs, lbn, hcalls, hS, hwt, hsum, fun h0 => by
      rw [hsum]; exact currentWeightSum_zero lb h0⟩

/-- C22, witness: five calls on the balancer holding one server object twice and
another once leave the sum at `0`. -/
theorem swrr_conserves_current_weight_witness :
    aliasedRr.weighted = true ∧ aliasedRr.Servers ≠ [] ∧
    ∃ rs lbn, aliasedRr.calls 5 = some (rs, lbn) ∧ lbn.Servers = aliasedRr.Servers ∧
      currentWeightSum lbn = 0 := by
  obtain ⟨rs, lbn, h1, h2, _, _, h5⟩ :=
    (swrr_conserves_current_weight aliasedRr rfl (by decide)).2 5
  exact ⟨rfl, by decide, rs, lbn, h1, h2, h5 (by decide)⟩

end LoadBalancer
